import Mathlib

set_option maxHeartbeats 1000000

/-!
Verification of the SetCoverApproximation repository: a shallow embedding of
`data_structures/bucket_queue/bucket_queue.py` and `set_cover_greedy.py`,
together with proofs of the specified properties.

Conventions of the embedding:
* Python sets used as buckets become duplicate-free `List Nat` values;
  `set.add` is a no-op on a present element, `set.remove` fails on an absent
  element, and the unspecified choice made by `set.pop` is determinized to
  the first list element.
* Python operations that can raise (failed `assert`, `KeyError` from
  `set.remove`/`set.pop`/`set.discard`, arithmetic on `None`) are modelled by
  returning `none`; a returned value `v` becomes `some v`.
* The attributes `lowest`/`greatest` store bucket indices (priority minus `L`),
  exactly as in the source, where `insert` first applies `priority_to_index`.
-/

/-- Python `set.add` on a duplicate-free list: no effect when the element is
already present, otherwise the element is appended. -/
def bucketAdd (b : List Nat) (x : Nat) : List Nat :=
  if x ∈ b then b else b ++ [x]

/-- Python `set.remove`: removes the element, failing (KeyError) when absent. -/
def bucketRemove (b : List Nat) (x : Nat) : Option (List Nat) :=
  if x ∈ b then some (b.erase x) else none

/-- Python `set.pop`: removes and returns an arbitrary element, failing on an
empty set; the arbitrary choice is determinized to the head of the list. -/
def bucketPop (b : List Nat) : Option (Nat × List Nat) :=
  match b with
  | [] => none
  | x :: xs => some (x, xs)

/-- State of `BucketQueue` from `bucket_queue.py`: priority range `[L, C]`,
one bucket per priority, and the cached bucket-index bounds of the non-empty
range (`None` in Python becomes `none`). -/
structure BucketQueue where
  C : Nat
  L : Nat
  A : List (List Nat)
  lowest : Option Nat
  greatest : Option Nat
deriving DecidableEq, Repr

/-- The constructor `BucketQueue.__init__`: `C - L + 1` empty buckets and
absent bounds. -/
def BucketQueue.make (C L : Nat) : BucketQueue :=
  { C := C, L := L, A := List.replicate (C + 1 - L) [], lowest := none,
    greatest := none }

/-- The method `priority_to_index`. -/
def BucketQueue.priority_to_index (st : BucketQueue) (p : Nat) : Nat := p - st.L

/-- Bucket at index `i` (out-of-range reads, which cannot occur on the
executed paths, give the empty bucket). -/
def BucketQueue.bucket (st : BucketQueue) (i : Nat) : List Nat := st.A.getD i []

/-- The descending scan shared by `find_highest` and the greatest-bound branch
of `update_bounds_eager`: starting at `q` and moving down, return the first
index in `[lo, q]` whose bucket is non-empty, or `none` when the scan passes
below `lo`. -/
def scanDown (A : List (List Nat)) (lo : Nat) : Nat → Option Nat
  | 0 =>
    if lo = 0 then (if A.getD 0 [] ≠ [] then some 0 else none) else none
  | q + 1 =>
    if q + 1 < lo then none
    else if A.getD (q + 1) [] ≠ [] then some (q + 1)
    else scanDown A lo q

/-- The ascending `while q < len(self.A) and len(self.A[q]) == 0: q += 1` loop
of `update_bounds_eager`, with `k` the number of remaining positions up to
`A.length`; returns the final value of `q`. -/
def scanUpFrom (A : List (List Nat)) : Nat → Nat → Nat
  | q, 0 => q
  | q, k + 1 => if A.getD q [] = [] then scanUpFrom A (q + 1) k else q

/-- Wrapper running `scanUpFrom` from `q` with the exact remaining length. -/
def scanUp (A : List (List Nat)) (q : Nat) : Nat :=
  scanUpFrom A q (A.length - q)

/-- The ascending bounded scan of `find_lowest`, over the `k` indices starting
at `q`: first index with a non-empty bucket, or `none`. -/
def scanUpToAux (A : List (List Nat)) : Nat → Nat → Option Nat
  | _, 0 => none
  | q, k + 1 =>
    if A.getD q [] ≠ [] then some q else scanUpToAux A (q + 1) k

/-- Scan of `find_lowest`: `for L in range(lo, hi+1)`. -/
def scanUpTo (A : List (List Nat)) (lo hi : Nat) : Option Nat :=
  scanUpToAux A lo (hi + 1 - lo)

/-- Tail of `update_bounds_eager` after the bounds have been extended: the
early return when no removal happened or the vacated bucket is non-empty,
then the two rescan branches. The dead `none` arms model arithmetic on an
absent bound, which the bound-extension step has already ruled out. -/
def BucketQueue.afterBounds (st : BucketQueue) (qOpt : Option Nat) :
    Option BucketQueue :=
  match qOpt with
  | none => some st
  | some q =>
    if st.A.getD q [] ≠ [] then some st
    else if st.greatest = some q then
      match st.lowest with
      | none => none
      | some lo =>
        match scanDown st.A lo q with
        | none => some { st with lowest := none, greatest := none }
        | some r => some { st with greatest := some r }
    else if st.lowest = some q then
      match st.greatest with
      | none => none
      | some gr =>
        if gr < scanUp st.A q then
          some { st with lowest := none, greatest := none }
        else some { st with lowest := some (scanUp st.A q) }
    else some st

/-- The method `update_bounds_eager p q`: extend the bounds to include the
index `p` that just received an element (the `assert` that the two bounds are
simultaneously present or absent fails on mismatched bounds), then handle the
optionally vacated index `q`. -/
def BucketQueue.update_bounds_eager (st : BucketQueue) (p : Nat)
    (qOpt : Option Nat) : Option BucketQueue :=
  match st.lowest, st.greatest with
  | none, some _ => none
  | some _, none => none
  | none, none =>
    BucketQueue.afterBounds { st with lowest := some p, greatest := some p } qOpt
  | some lo, some gr =>
    BucketQueue.afterBounds
      { st with lowest := some (min p lo), greatest := some (max p gr) } qOpt

/-- The method `insert x p`: the `assert L <= p <= C` failure is `none`;
otherwise add `x` to the bucket of `p` and update the bounds eagerly. -/
def BucketQueue.insert (st : BucketQueue) (x p : Nat) : Option BucketQueue :=
  if st.L ≤ p ∧ p ≤ st.C then
    let i := st.priority_to_index p
    let st1 := { st with A := st.A.set i (bucketAdd (st.A.getD i []) x) }
    st1.update_bounds_eager i none
  else none

/-- The method `change_priority x p q`: both asserts, the possibly failing
`remove` from the bucket of `p`, the `add` to the bucket of `q`, and the
eager bound update noting the removal at `p`. -/
def BucketQueue.change_priority (st : BucketQueue) (x p q : Nat) :
    Option BucketQueue :=
  if st.L ≤ p ∧ p ≤ st.C then
    if st.L ≤ q ∧ q ≤ st.C then
      let i := st.priority_to_index p
      let j := st.priority_to_index q
      match bucketRemove (st.A.getD i []) x with
      | none => none
      | some bp =>
        let st1 := { st with A := st.A.set i bp }
        let st2 := { st1 with A := st1.A.set j (bucketAdd (st1.A.getD j []) x) }
        st2.update_bounds_eager j (some i)
    else none
  else none

/-- The method `find_lowest`: nothing to do on absent bounds (the `assert`
fails when only one bound is absent); otherwise rescan `[lowest, greatest]`
upward and either tighten `lowest` or clear both bounds. -/
def BucketQueue.find_lowest (st : BucketQueue) : Option BucketQueue :=
  match st.lowest, st.greatest with
  | none, none => some st
  | none, some _ => none
  | some _, none => none
  | some lo, some gr =>
    match scanUpTo st.A lo gr with
    | some r => some { st with lowest := some r }
    | none => some { st with lowest := none, greatest := none }

/-- The method `find_highest`: mirror image of `find_lowest`, scanning
`[lowest, greatest]` downward. -/
def BucketQueue.find_highest (st : BucketQueue) : Option BucketQueue :=
  match st.lowest, st.greatest with
  | none, none => some st
  | none, some _ => none
  | some _, none => none
  | some lo, some gr =>
    match scanDown st.A lo gr with
    | some r => some { st with greatest := some r }
    | none => some { st with lowest := none, greatest := none }

/-- The method `extract_max`: revalidate the upper bound, return `None` (the
inner `none`) on an empty queue, else pop from the greatest bucket. -/
def BucketQueue.extract_max (st : BucketQueue) :
    Option (Option Nat × BucketQueue) :=
  match st.find_highest with
  | none => none
  | some st1 =>
    match st1.greatest with
    | none => some (none, st1)
    | some g =>
      match bucketPop (st1.A.getD g []) with
      | none => none
      | some (x, rest) => some (some x, { st1 with A := st1.A.set g rest })

/-- The method `extract_min`. -/
def BucketQueue.extract_min (st : BucketQueue) :
    Option (Option Nat × BucketQueue) :=
  match st.find_lowest with
  | none => none
  | some st1 =>
    match st1.lowest with
    | none => some (none, st1)
    | some l =>
      match bucketPop (st1.A.getD l []) with
      | none => none
      | some (x, rest) => some (some x, { st1 with A := st1.A.set l rest })

/-- Current lowest non-empty priority level (the stored index translated back
to a priority). -/
def BucketQueue.lowestPriority (st : BucketQueue) : Option Nat :=
  st.lowest.map (· + st.L)

/-- Current highest non-empty priority level. -/
def BucketQueue.greatestPriority (st : BucketQueue) : Option Nat :=
  st.greatest.map (· + st.L)

/-- Run a list of `insert` calls in order, propagating failure. -/
def insertList (st : BucketQueue) : List (Nat × Nat) → Option BucketQueue
  | [] => some st
  | (x, p) :: rest =>
    match st.insert x p with
    | none => none
    | some st1 => insertList st1 rest

def extractMaxN (st : BucketQueue) : Nat → List (Option Nat) × BucketQueue
  | 0 => ([], st)
  | n + 1 =>
    match st.extract_max with
    | none => ([none, none, none], st)
    | some (x, st1) =>
      let r := extractMaxN st1 n
      (x :: r.1, r.2)

/-! Embedding of `set_cover_greedy.py`. The coverage bookkeeping dictionary
`elements` becomes an association list `List (Nat × Bool)` in key-insertion
order; `sets` becomes the list of pairs (original set, stored priority) with
`none` standing for the Python `None` placeholder. -/

/-- Python `ele in elements` on the dictionary. -/
def dmem (m : List (Nat × Bool)) (e : Nat) : Bool :=
  m.any (fun kv => kv.1 = e)

/-- Python `elements.get(ele, dflt)`. -/
def dget (m : List (Nat × Bool)) (e : Nat) (dflt : Bool) : Bool :=
  match m.find? (fun kv => kv.1 = e) with
  | some kv => kv.2
  | none => dflt

/-- Python `elements[ele] = b` on a present key (keys are never added by
assignment on the executed paths, so updating all occurrences is exact). -/
def dset (m : List (Nat × Bool)) (e : Nat) (b : Bool) : List (Nat × Bool) :=
  m.map (fun kv => if kv.1 = e then (kv.1, b) else kv)

/-- One step of the dict comprehension `{ele: False for ele in elements}`:
a repeated key keeps its first position (the value is `False` either way). -/
def dictInsertNew (m : List (Nat × Bool)) (e : Nat) : List (Nat × Bool) :=
  if dmem m e then m else m ++ [(e, false)]

/-- The dict comprehension `{ele: False for ele in elements}`. -/
def mkElements (els : List Nat) : List (Nat × Bool) :=
  els.foldl dictInsertNew []

/-- The initial priority of a set: its count of members present in the
dictionary (`if ele in elements: priority += 1`). -/
def initPriority (s : List Nat) (m : List (Nat × Bool)) : Nat :=
  (s.filter (fun e => dmem m e)).length

/-- The recomputed priority of a remaining set: its count of members that are
present and still uncovered (`if not elements.get(ele, True)`). -/
def newPriority (s : List Nat) (m : List (Nat × Bool)) : Nat :=
  (s.filter (fun e => dget m e true = false)).length

/-- The marking loop over the selected set: flip each present-and-uncovered
member to covered and decrement `n_false`. -/
def markAll : List Nat → List (Nat × Bool) → Nat → List (Nat × Bool) × Nat
  | [], m, n => (m, n)
  | e :: es, m, n =>
    if dget m e true = false then markAll es (dset m e true) (n - 1)
    else markAll es m n

/-- Python truthiness of a stored priority (`if x[1]`): `None` and `0` are
falsy. -/
def truthy : Option Nat → Bool
  | none => false
  | some k => k != 0

/-- The re-prioritization loop over the remaining candidate indices: read the
stored priority, recompute, `change_priority` on the queue, store. -/
def updateAll :
    List Nat → List (List Nat × Option Nat) → List (Nat × Bool) → BucketQueue →
    Option (List (List Nat × Option Nat) × BucketQueue)
  | [], sets, _, bq => some (sets, bq)
  | i :: rest, sets, m, bq =>
    match (sets.getD i ([], none)).2 with
    | none => none
    | some pr =>
      let s := (sets.getD i ([], none)).1
      let npr := newPriority s m
      match bq.change_priority i pr npr with
      | none => none
      | some bq1 => updateAll rest (sets.set i (s, some npr)) m bq1

/-- The initialization loop: compute each initial priority, inserting the
index into the queue and recording the priority only when it is positive. -/
def initSets :
    List (Nat × List Nat) → List (Nat × Bool) →
    List (List Nat × Option Nat) → BucketQueue →
    Option (List (List Nat × Option Nat) × BucketQueue)
  | [], _, sets, bq => some (sets, bq)
  | (i, s) :: rest, m, sets, bq =>
    let pr := initPriority s m
    if 0 < pr then
      match bq.insert i pr with
      | none => none
      | some bq1 => initSets rest m (sets.set i (s, some pr)) bq1
    else initSets rest m sets bq

/-- The `while n_false > 0` loop of `set_cover_greedy`. The fuel argument is
an upper bound on the remaining productive rounds (each recursive call has
strictly smaller `n_false`, so the initial fuel `n_false + 1` never runs
out); the comparison `sets[set_added_index] == 0` of the source is a
comparison of a pair with `0` and is identically false, hence not modelled. -/
def greedyLoop :
    Nat → BucketQueue → List (List Nat × Option Nat) → List (Nat × Bool) →
    Nat → List Nat → List (List Nat) → List Nat →
    Option (List (List Nat) × List Nat)
  | 0, _, _, _, _, _, _, _ => none
  | fuel + 1, bq, sets, m, nFalse, uncovered, cover, coverIndex =>
    if nFalse = 0 then some (cover, coverIndex)
    else
      match bq.extract_max with
      | none => none
      | some (none, _) => some (cover, coverIndex)
      | some (some i, bq1) =>
        let setAdded := (sets.getD i ([], none)).1
        let mk1 := markAll setAdded m nFalse
        let cover1 := cover ++ [setAdded]
        let coverIndex1 := coverIndex ++ [i]
        if i ∈ uncovered then
          let unc1 := uncovered.erase i
          match updateAll unc1 sets mk1.1 bq1 with
          | none => none
          | some (sets1, bq2) =>
            if mk1.2 = nFalse then some (cover1, coverIndex1)
            else greedyLoop fuel bq2 sets1 mk1.1 mk1.2 unc1 cover1 coverIndex1
        else none

/-- The function `set_cover_greedy(sets, elements)`: build the coverage
dictionary, insert the usable sets into a `BucketQueue(C=len(elements), L=0)`,
collect the indices with truthy stored priority, and run the main loop.
The iteration order of the Python sets `elements` and `uncovered` is
determinized to the given list order and to ascending index order. -/
def set_cover_greedy (sets0 : List (List Nat)) (els : List Nat) :
    Option (List (List Nat) × List Nat) :=
  let m := mkElements els
  let nFalse := m.length
  let bq := BucketQueue.make m.length 0
  let sets := sets0.map (fun s => (s, (none : Option Nat)))
  match initSets sets0.enum m sets bq with
  | none => none
  | some (sets1, bq1) =>
    let uncovered := (sets1.enum.filter (fun ix => truthy ix.2.2)).map
      (fun ix => ix.1)
    greedyLoop (nFalse + 1) bq1 sets1 m nFalse uncovered [] []

/-- Repeated `extract_max`, collecting the returned values; a failing call
truncates the collected list. -/
def extractMaxList (st : BucketQueue) : Nat → List (Option Nat) × BucketQueue
  | 0 => ([], st)
  | n + 1 =>
    match st.extract_max with
    | none => ([], st)
    | some (x, st1) =>
      let r := extractMaxList st1 n
      (x :: r.1, r.2)

/-- The concrete BucketQueue scenario of the spec: range `[1, 50]` with the
three inserts of `main()`. -/
def scenarioA : Option BucketQueue :=
  insertList (BucketQueue.make 50 1) [(15, 25), (39, 40), (30, 15)]

/-- The state invariant maintained across all four operations: the two bounds
are simultaneously present or absent; absent bounds mean an entirely empty
queue; present bounds are ordered, in range, and bracket every non-empty
bucket. The bound buckets themselves may be empty (extraction is lazy). -/
structure BQWeakInv (st : BucketQueue) : Prop where
  hlen : st.A.length = st.C + 1 - st.L
  hLC : st.L ≤ st.C
  hmatch : st.lowest = none ↔ st.greatest = none
  hempty : st.lowest = none → ∀ i, st.A.getD i [] = []
  horder : ∀ lo gr, st.lowest = some lo → st.greatest = some gr →
    lo ≤ gr ∧ gr ≤ st.C - st.L
  hbracket : ∀ lo gr, st.lowest = some lo → st.greatest = some gr →
    ∀ i, st.A.getD i [] ≠ [] → lo ≤ i ∧ i ≤ gr

/-- The eager invariant maintained by `insert` and `change_priority` alone:
additionally, present bounds point at non-empty buckets. -/
structure BQStrongInv (st : BucketQueue) extends BQWeakInv st : Prop where
  hlowne : ∀ lo, st.lowest = some lo → st.A.getD lo [] ≠ []
  hgrne : ∀ gr, st.greatest = some gr → st.A.getD gr [] ≠ []

/-- States reachable from a freshly constructed queue by successful `insert`
and `change_priority` calls only. -/
inductive ReachIC : BucketQueue → Prop where
  | base (C L : Nat) : L ≤ C → ReachIC (BucketQueue.make C L)
  | ins {st st1 : BucketQueue} {x p : Nat} :
      ReachIC st → st.insert x p = some st1 → ReachIC st1
  | chg {st st1 : BucketQueue} {x p q : Nat} :
      ReachIC st → st.change_priority x p q = some st1 → ReachIC st1

/-- States reachable from a freshly constructed queue by any successful
sequence of the four public operations. -/
inductive ReachBQ : BucketQueue → Prop where
  | base (C L : Nat) : L ≤ C → ReachBQ (BucketQueue.make C L)
  | ins {st st1 : BucketQueue} {x p : Nat} :
      ReachBQ st → st.insert x p = some st1 → ReachBQ st1
  | chg {st st1 : BucketQueue} {x p q : Nat} :
      ReachBQ st → st.change_priority x p q = some st1 → ReachBQ st1
  | exMax {st st1 : BucketQueue} {r : Option Nat} :
      ReachBQ st → st.extract_max = some (r, st1) → ReachBQ st1
  | exMin {st st1 : BucketQueue} {r : Option Nat} :
      ReachBQ st → st.extract_min = some (r, st1) → ReachBQ st1

/-- Operations of the public BucketQueue interface, for operation traces. -/
inductive BQop where
  | ins (x p : Nat)
  | chg (x p q : Nat)
  | exMax
  | exMin
deriving DecidableEq, Repr

/-- Total number of elements held across all buckets. -/
def BQtotal (st : BucketQueue) : Nat :=
  (st.A.map List.length).sum

/-- One operation step, returning the next state together with the number of
successful inserts and successful extractions it contributes (an extraction
returning "no element" is not counted). -/
def BQstep (op : BQop) (st : BucketQueue) : Option (BucketQueue × Nat × Nat) :=
  match op with
  | .ins x p => (st.insert x p).map (fun st1 => (st1, 1, 0))
  | .chg x p q => (st.change_priority x p q).map (fun st1 => (st1, 0, 0))
  | .exMax => st.extract_max.map (fun r => (r.2, 0, if r.1.isSome then 1 else 0))
  | .exMin => st.extract_min.map (fun r => (r.2, 0, if r.1.isSome then 1 else 0))

/-- Run a trace of operations, accumulating the counters. -/
def runOps : List BQop → BucketQueue → Option (BucketQueue × Nat × Nat)
  | [], st => some (st, 0, 0)
  | op :: rest, st =>
    match BQstep op st with
    | none => none
    | some (st1, di, de) =>
      match runOps rest st1 with
      | none => none
      | some (st2, i, e) => some (st2, di + i, de + e)

/-- The precondition of the conservation claim: at every state reached along
the trace, each element identifier occupies at most one bucket (the
concatenation of all buckets is duplicate-free). -/
def AMORun : List BQop → BucketQueue → Bool
  | [], st => decide st.A.flatten.Nodup
  | op :: rest, st =>
    decide st.A.flatten.Nodup &&
    (match BQstep op st with
     | none => true
     | some (st1, _, _) => AMORun rest st1)

/-- The amended extra precondition: every insert along the trace supplies an
element not already present in its target bucket (a duplicate insert is a
set no-op and would be counted without adding an element). -/
def FreshRun : List BQop → BucketQueue → Bool
  | [], _ => true
  | op :: rest, st =>
    (match op with
     | BQop.ins x p => decide (x ∉ st.A.getD (st.priority_to_index p) [])
     | _ => true) &&
    (match BQstep op st with
     | none => true
     | some (st1, _, _) => FreshRun rest st1)

/-- All buckets are duplicate-free lists (they model Python sets). -/
def bucketsNodup (st : BucketQueue) : Prop :=
  ∀ b ∈ st.A, b.Nodup

/-- The bucket array produced by `change_priority` (remove at index `pi`,
add at index `qi`), as a single expression. -/
def chgArray (A : List (List Nat)) (x pi qi : Nat) : List (List Nat) :=
  (A.set pi ((A.getD pi []).erase x)).set qi
    (bucketAdd ((A.set pi ((A.getD pi []).erase x)).getD qi []) x)

/-- Executable check of the weak invariant, for concrete witnesses. -/
def BQWeakInvB (st : BucketQueue) : Bool :=
  decide (st.A.length = st.C + 1 - st.L) && decide (st.L ≤ st.C) &&
  (match st.lowest, st.greatest with
   | none, none => st.A.all (fun b => b.isEmpty)
   | some lo, some gr =>
     decide (lo ≤ gr) && decide (gr ≤ st.C - st.L) &&
     (List.range st.A.length).all
       (fun i => decide (lo ≤ i ∧ i ≤ gr) || (st.A.getD i []).isEmpty)
   | _, _ => false)

/-- Executable check of the strong invariant. -/
def BQStrongInvB (st : BucketQueue) : Bool :=
  BQWeakInvB st &&
  (match st.lowest, st.greatest with
   | none, none => true
   | some lo, some gr =>
     !(st.A.getD lo []).isEmpty && !(st.A.getD gr []).isEmpty
   | _, _ => false)

/-- The loop invariant of `set_cover_greedy`, tying together the coverage
dictionary `m`, the candidate list `sets`, the uncovered-index list, the
bucket queue and the accumulated cover. `sets0` are the input sets and
`keys` the distinct target elements. -/
structure GInv (sets0 : List (List Nat)) (keys : List Nat) (bq : BucketQueue)
    (sets : List (List Nat × Option Nat)) (m : List (Nat × Bool))
    (nFalse : Nat) (uncovered : List Nat) (cover : List (List Nat)) :
    Prop where
  hkeys : m.map Prod.fst = keys
  hknd : keys.Nodup
  hnf : nFalse = (m.filter (fun kv => kv.2 = false)).length
  hslen : sets.length = sets0.length
  hsfst : ∀ i, (sets.getD i ([], none)).1 = sets0.getD i []
  huncnd : uncovered.Nodup
  huncsub : ∀ i ∈ uncovered, i < sets0.length
  hpr : ∀ i ∈ uncovered, (sets.getD i ([], none)).2 =
    some (newPriority (sets0.getD i []) m)
  hL : bq.L = 0
  hC : bq.C = keys.length
  hweak : BQWeakInv bq
  hcont : ∀ idx x, x ∈ bq.A.getD idx [] ↔
    (x ∈ uncovered ∧ (sets.getD x ([], none)).2 = some idx)
  hbnodup : bucketsNodup bq
  hsel : ∀ j, j < sets0.length → j ∉ uncovered →
    ∀ e ∈ sets0.getD j [], dmem m e → dget m e true = true
  hcov : ∀ e, dmem m e → dget m e true = true → ∃ s ∈ cover, e ∈ s

/-! Basic list helpers. -/

theorem getD_set_self {l : List (List Nat)} {i : Nat} (b : List Nat)
    (h : i < l.length) : (l.set i b).getD i [] = b := by
  simp [List.getD_eq_getElem?_getD, List.getElem?_set_self, h]

theorem getD_set_ne {l : List (List Nat)} {i j : Nat} (b : List Nat)
    (h : i ≠ j) : (l.set i b).getD j [] = l.getD j [] := by
  simp [List.getD_eq_getElem?_getD, List.getElem?_set_ne h]

theorem getD_len_le {l : List (List Nat)} {i : Nat} (h : l.length ≤ i) :
    l.getD i [] = [] := by
  simp [List.getD_eq_getElem?_getD, List.getElem?_eq_none h]

theorem lt_length_of_getD_ne_nil {l : List (List Nat)} {i : Nat}
    (h : l.getD i [] ≠ []) : i < l.length := by
  by_contra hc
  exact h (getD_len_le (by omega))

theorem getD_replicate_nil {n i : Nat} :
    (List.replicate n ([] : List Nat)).getD i [] = [] := by
  rcases lt_or_ge i n with h | h
  · simp [List.getD_eq_getElem?_getD, List.getElem?_replicate, h]
  · simp [List.getD_eq_getElem?_getD, List.getElem?_eq_none, h]

theorem bucketsNodup_getD {st : BucketQueue} (h : bucketsNodup st) (i : Nat) :
    (st.A.getD i []).Nodup := by
  rcases lt_or_ge i st.A.length with hi | hi
  · have : st.A.getD i [] = st.A[i] := by
      simp [List.getD_eq_getElem?_getD, List.getElem?_eq_getElem hi]
    rw [this]
    exact h _ (List.getElem_mem hi)
  · rw [getD_len_le hi]; exact List.nodup_nil

theorem sum_map_length_set {A : List (List Nat)} (b : List Nat) :
    ∀ {i : Nat}, i < A.length →
      ((A.set i b).map List.length).sum + (A.getD i []).length =
        (A.map List.length).sum + b.length := by
  induction A with
  | nil => intro i h; simp at h
  | cons hd tl ih =>
    intro i h
    cases i with
    | zero => simp [List.getD_cons_zero]; omega
    | succ n =>
      simp only [List.set_cons_succ, List.map_cons, List.sum_cons,
        List.getD_cons_succ]
      have := ih (by simpa using h)
      omega

/-! Scan lemmas. -/

theorem scanDown_some {A : List (List Nat)} {lo : Nat} :
    ∀ {q r : Nat}, scanDown A lo q = some r →
      lo ≤ r ∧ r ≤ q ∧ A.getD r [] ≠ [] ∧
      ∀ j, r < j → j ≤ q → A.getD j [] = [] := by
  intro q
  induction q with
  | zero =>
    intro r h
    simp only [scanDown] at h
    by_cases h0 : lo = 0
    · rw [if_pos h0] at h
      by_cases hne : A.getD 0 [] ≠ []
      · rw [if_pos hne] at h
        cases h
        exact ⟨by omega, Nat.le_refl 0, hne, fun j h1 h2 => by omega⟩
      · rw [if_neg hne] at h; cases h
    · rw [if_neg h0] at h; cases h
  | succ q ih =>
    intro r h
    simp only [scanDown] at h
    by_cases h1 : q + 1 < lo
    · rw [if_pos h1] at h; cases h
    · rw [if_neg h1] at h
      by_cases hne : A.getD (q + 1) [] ≠ []
      · rw [if_pos hne] at h
        cases h
        exact ⟨by omega, Nat.le_refl _, hne, fun j hj1 hj2 => by omega⟩
      · rw [if_neg hne] at h
        obtain ⟨ha, hb, hc, hd⟩ := ih h
        refine ⟨ha, by omega, hc, ?_⟩
        intro j hj1 hj2
        rcases Nat.lt_or_ge j (q + 1) with hj | hj
        · exact hd j hj1 (by omega)
        · have hj' : j = q + 1 := by omega
          subst hj'
          exact not_not.mp hne

theorem scanDown_none {A : List (List Nat)} {lo : Nat} :
    ∀ {q : Nat}, scanDown A lo q = none →
      ∀ j, lo ≤ j → j ≤ q → A.getD j [] = [] := by
  intro q
  induction q with
  | zero =>
    intro h j hj1 hj2
    have hj : j = 0 := by omega
    subst hj
    simp only [scanDown] at h
    by_cases h0 : lo = 0
    · rw [if_pos h0] at h
      by_cases hne : A.getD 0 [] ≠ []
      · rw [if_pos hne] at h; cases h
      · exact not_not.mp hne
    · omega
  | succ q ih =>
    intro h j hj1 hj2
    simp only [scanDown] at h
    by_cases h1 : q + 1 < lo
    · omega
    · rw [if_neg h1] at h
      by_cases hne : A.getD (q + 1) [] ≠ []
      · rw [if_pos hne] at h; cases h
      · rw [if_neg hne] at h
        rcases Nat.lt_or_ge j (q + 1) with hj | hj
        · exact ih h j hj1 (by omega)
        · have hj' : j = q + 1 := by omega
          subst hj'
          exact not_not.mp hne

theorem scanUpFrom_ge {A : List (List Nat)} :
    ∀ {k q : Nat}, q ≤ scanUpFrom A q k := by
  intro k
  induction k with
  | zero => intro q; simp [scanUpFrom]
  | succ k ih =>
    intro q
    simp only [scanUpFrom]
    by_cases he : A.getD q [] = []
    · rw [if_pos he]
      exact Nat.le_trans (by omega) ih
    · rw [if_neg he]

theorem scanUpFrom_le {A : List (List Nat)} :
    ∀ {k q : Nat}, scanUpFrom A q k ≤ q + k := by
  intro k
  induction k with
  | zero => intro q; simp [scanUpFrom]
  | succ k ih =>
    intro q
    simp only [scanUpFrom]
    by_cases he : A.getD q [] = []
    · rw [if_pos he]
      exact Nat.le_trans ih (by omega)
    · rw [if_neg he]; omega

theorem scanUpFrom_skipped {A : List (List Nat)} :
    ∀ {k q : Nat}, ∀ j, q ≤ j → j < scanUpFrom A q k → A.getD j [] = [] := by
  intro k
  induction k with
  | zero => intro q j h1 h2; simp [scanUpFrom] at h2; omega
  | succ k ih =>
    intro q j h1 h2
    simp only [scanUpFrom] at h2
    by_cases he : A.getD q [] = []
    · rw [if_pos he] at h2
      rcases Nat.eq_or_lt_of_le h1 with hj | hj
      · subst hj; exact he
      · exact ih j hj h2
    · rw [if_neg he] at h2; omega

theorem scanUpFrom_stop {A : List (List Nat)} :
    ∀ {k q : Nat}, scanUpFrom A q k < q + k →
      A.getD (scanUpFrom A q k) [] ≠ [] := by
  intro k
  induction k with
  | zero => intro q h; simp [scanUpFrom] at h
  | succ k ih =>
    intro q h
    simp only [scanUpFrom] at h ⊢
    by_cases he : A.getD q [] = []
    · rw [if_pos he] at h ⊢
      exact ih (by omega)
    · rw [if_neg he] at h ⊢
      exact he

theorem scanUpToAux_some {A : List (List Nat)} :
    ∀ {k q r : Nat}, scanUpToAux A q k = some r →
      q ≤ r ∧ r < q + k ∧ A.getD r [] ≠ [] ∧
      ∀ j, q ≤ j → j < r → A.getD j [] = [] := by
  intro k
  induction k with
  | zero => intro q r h; simp [scanUpToAux] at h
  | succ k ih =>
    intro q r h
    simp only [scanUpToAux] at h
    by_cases hne : A.getD q [] ≠ []
    · rw [if_pos hne] at h
      cases h
      exact ⟨Nat.le_refl _, by omega, hne, fun j h1 h2 => by omega⟩
    · rw [if_neg hne] at h
      obtain ⟨ha, hb, hc, hd⟩ := ih h
      refine ⟨by omega, by omega, hc, ?_⟩
      intro j h1 h2
      rcases Nat.eq_or_lt_of_le h1 with hj | hj
      · subst hj; exact not_not.mp hne
      · exact hd j hj h2

theorem scanUpToAux_none {A : List (List Nat)} :
    ∀ {k q : Nat}, scanUpToAux A q k = none →
      ∀ j, q ≤ j → j < q + k → A.getD j [] = [] := by
  intro k
  induction k with
  | zero => intro q h j h1 h2; omega
  | succ k ih =>
    intro q h j h1 h2
    simp only [scanUpToAux] at h
    by_cases hne : A.getD q [] ≠ []
    · rw [if_pos hne] at h; cases h
    · rw [if_neg hne] at h
      rcases Nat.eq_or_lt_of_le h1 with hj | hj
      · subst hj; exact not_not.mp hne
      · exact ih h j hj (by omega)

/-! Claim C4: the concrete BucketQueue scenario. -/

/-- C4 counterexample: the scenario as stated by the claim is false for the
code. After inserting elements 15, 39, 30 with priorities 25, 40, 15, the
lowest non-empty priority is 15 (not 25), and the extraction order by
descending priority is 39, 15, 30 (not 39, 30, 15). -/
theorem scenarioA_stated_false :
    ¬ ((scenarioA.map fun st => st.lowestPriority) = some (some 25) ∧
       (scenarioA.map fun st => st.greatestPriority) = some (some 40) ∧
       (scenarioA.map fun st => (extractMaxList st 4).1) =
         some [some 39, some 30, some 15, none] ∧
       (scenarioA.map fun st =>
         ((extractMaxList st 4).2.lowest, (extractMaxList st 4).2.greatest)) =
         some (none, none)) := by
  decide

/-- C4 amended: on a BucketQueue with range `[1, 50]`, after `insert(15, 25)`,
`insert(39, 40)`, `insert(30, 15)`, the lowest bound is priority 15 and the
highest bound is priority 40; successive `extract_max()` calls return 39,
then 15, then 30, then no element, with both bounds becoming absent. -/
theorem scenarioA_spec :
    (scenarioA.map fun st => st.lowestPriority) = some (some 15) ∧
    (scenarioA.map fun st => st.greatestPriority) = some (some 40) ∧
    (scenarioA.map fun st => (extractMaxList st 4).1) =
      some [some 39, some 15, some 30, none] ∧
    (scenarioA.map fun st =>
      ((extractMaxList st 4).2.lowest, (extractMaxList st 4).2.greatest)) =
      some (none, none) := by
  decide

/-! Bucket and bound-update helpers. -/

theorem allNil_getD {A : List (List Nat)} (h : ∀ b ∈ A, b = []) (i : Nat) :
    A.getD i [] = [] := by
  rcases lt_or_ge i A.length with hi | hi
  · have hg : A.getD i [] = A[i] := by
      simp [List.getD_eq_getElem?_getD, List.getElem?_eq_getElem hi]
    rw [hg]
    exact h _ (List.getElem_mem hi)
  · exact getD_len_le hi

theorem mem_bucketAdd {b : List Nat} {x y : Nat} :
    y ∈ bucketAdd b x ↔ y ∈ b ∨ y = x := by
  unfold bucketAdd
  by_cases hx : x ∈ b
  · rw [if_pos hx]
    constructor
    · exact Or.inl
    · rintro (h | rfl)
      · exact h
      · exact hx
  · rw [if_neg hx]
    simp [List.mem_append]

theorem self_mem_bucketAdd {b : List Nat} (x : Nat) : x ∈ bucketAdd b x :=
  mem_bucketAdd.mpr (Or.inr rfl)

theorem bucketAdd_ne_nil {b : List Nat} (x : Nat) : bucketAdd b x ≠ [] := by
  intro h
  have := @self_mem_bucketAdd b x
  rw [h] at this
  exact (List.not_mem_nil x) this

theorem bucketAdd_nodup {b : List Nat} {x : Nat} (h : b.Nodup) :
    (bucketAdd b x).Nodup := by
  unfold bucketAdd
  by_cases hx : x ∈ b
  · rwa [if_pos hx]
  · rw [if_neg hx]
    refine List.Nodup.append h (List.nodup_singleton x) ?_
    intro a ha hax
    rw [List.mem_singleton] at hax
    subst hax
    exact hx ha

theorem length_bucketAdd_not_mem {b : List Nat} {x : Nat} (h : x ∉ b) :
    (bucketAdd b x).length = b.length + 1 := by
  unfold bucketAdd
  rw [if_neg h]
  simp

theorem bucketRemove_some {b b' : List Nat} {x : Nat}
    (h : bucketRemove b x = some b') : x ∈ b ∧ b' = b.erase x := by
  unfold bucketRemove at h
  by_cases hx : x ∈ b
  · rw [if_pos hx] at h
    cases h
    exact ⟨hx, rfl⟩
  · rw [if_neg hx] at h
    cases h

theorem bucketRemove_of_mem {b : List Nat} {x : Nat} (h : x ∈ b) :
    bucketRemove b x = some (b.erase x) := by
  unfold bucketRemove
  rw [if_pos h]

/-! Equation lemmas exposing each branch of the bound-maintenance code. -/

theorem afterBounds_none_eq (st : BucketQueue) : st.afterBounds none = some st :=
  rfl

theorem afterBounds_nonempty_eq (st : BucketQueue) (q : Nat)
    (h : st.A.getD q [] ≠ []) : st.afterBounds (some q) = some st := by
  simp only [BucketQueue.afterBounds]
  rw [if_pos h]

theorem afterBounds_greatest_crash_eq (st : BucketQueue) {q : Nat}
    (he : st.A.getD q [] = []) (hgr : st.greatest = some q)
    (hlo : st.lowest = none) :
    st.afterBounds (some q) = none := by
  simp only [BucketQueue.afterBounds, he, hgr, hlo, ne_eq, not_true_eq_false,
    not_false_eq_true, if_true, if_false, eq_self_iff_true, reduceCtorEq,
    Option.some.injEq]

theorem afterBounds_greatest_clear_eq (st : BucketQueue) {q lo : Nat}
    (he : st.A.getD q [] = []) (hgr : st.greatest = some q)
    (hlo : st.lowest = some lo) (hsd : scanDown st.A lo q = none) :
    st.afterBounds (some q) =
      some { st with lowest := none, greatest := none } := by
  simp only [BucketQueue.afterBounds, he, hgr, hlo, hsd, ne_eq,
    not_true_eq_false, not_false_eq_true, if_true, if_false, eq_self_iff_true,
    reduceCtorEq, Option.some.injEq]
  try rw [← hgr]
  try rfl

theorem afterBounds_greatest_set_eq (st : BucketQueue) {q lo r : Nat}
    (he : st.A.getD q [] = []) (hgr : st.greatest = some q)
    (hlo : st.lowest = some lo) (hsd : scanDown st.A lo q = some r) :
    st.afterBounds (some q) = some { st with greatest := some r } := by
  simp only [BucketQueue.afterBounds, he, hgr, hlo, hsd, ne_eq,
    not_true_eq_false, not_false_eq_true, if_true, if_false, eq_self_iff_true,
    reduceCtorEq, Option.some.injEq]
  try rw [← hlo]
  try rfl

theorem afterBounds_lowest_crash_eq (st : BucketQueue) {q : Nat}
    (he : st.A.getD q [] = []) (hgrq : st.greatest ≠ some q)
    (hlo : st.lowest = some q) (hgr : st.greatest = none) :
    st.afterBounds (some q) = none := by
  simp only [BucketQueue.afterBounds, he, hgrq, hlo, hgr, ne_eq,
    not_true_eq_false, not_false_eq_true, if_true, if_false, eq_self_iff_true,
    reduceCtorEq, Option.some.injEq]

theorem afterBounds_lowest_clear_eq (st : BucketQueue) {q gr : Nat}
    (he : st.A.getD q [] = []) (hgrq : st.greatest ≠ some q)
    (hlo : st.lowest = some q) (hgr : st.greatest = some gr)
    (hcmp : gr < scanUp st.A q) :
    st.afterBounds (some q) =
      some { st with lowest := none, greatest := none } := by
  have hne : ¬ gr = q := fun h => hgrq (by rw [hgr, h])
  simp only [BucketQueue.afterBounds, he, hlo, hgr, hne, hcmp, ne_eq,
    not_true_eq_false, not_false_eq_true, if_true, if_false, eq_self_iff_true,
    reduceCtorEq, Option.some.injEq]

theorem afterBounds_lowest_set_eq (st : BucketQueue) {q gr : Nat}
    (he : st.A.getD q [] = []) (hgrq : st.greatest ≠ some q)
    (hlo : st.lowest = some q) (hgr : st.greatest = some gr)
    (hcmp : ¬ gr < scanUp st.A q) :
    st.afterBounds (some q) =
      some { st with lowest := some (scanUp st.A q) } := by
  have hne : ¬ gr = q := fun h => hgrq (by rw [hgr, h])
  simp only [BucketQueue.afterBounds, he, hlo, hgr, hne, hcmp, ne_eq,
    not_true_eq_false, not_false_eq_true, if_true, if_false, eq_self_iff_true,
    reduceCtorEq, Option.some.injEq]
  try rw [← hgr]
  try rfl

theorem afterBounds_else_eq (st : BucketQueue) {q : Nat}
    (he : st.A.getD q [] = []) (hgrq : st.greatest ≠ some q)
    (hloq : st.lowest ≠ some q) :
    st.afterBounds (some q) = some st := by
  simp only [BucketQueue.afterBounds, he, hgrq, hloq, ne_eq,
    not_true_eq_false, not_false_eq_true, if_true, if_false, eq_self_iff_true,
    reduceCtorEq, Option.some.injEq]

theorem update_bounds_crash1_eq (st : BucketQueue) (p : Nat)
    (qOpt : Option Nat) {gr : Nat} (hlo : st.lowest = none)
    (hgr : st.greatest = some gr) :
    st.update_bounds_eager p qOpt = none := by
  simp only [BucketQueue.update_bounds_eager, hlo, hgr]

theorem update_bounds_crash2_eq (st : BucketQueue) (p : Nat)
    (qOpt : Option Nat) {lo : Nat} (hlo : st.lowest = some lo)
    (hgr : st.greatest = none) :
    st.update_bounds_eager p qOpt = none := by
  simp only [BucketQueue.update_bounds_eager, hlo, hgr]

theorem update_bounds_none_eq (st : BucketQueue) (p : Nat) (qOpt : Option Nat)
    (hlo : st.lowest = none) (hgr : st.greatest = none) :
    st.update_bounds_eager p qOpt =
      BucketQueue.afterBounds { st with lowest := some p, greatest := some p }
        qOpt := by
  simp only [BucketQueue.update_bounds_eager, hlo, hgr]

theorem update_bounds_some_eq (st : BucketQueue) (p : Nat) (qOpt : Option Nat)
    {lo gr : Nat} (hlo : st.lowest = some lo) (hgr : st.greatest = some gr) :
    st.update_bounds_eager p qOpt =
      BucketQueue.afterBounds
        { st with lowest := some (min p lo), greatest := some (max p gr) }
        qOpt := by
  simp only [BucketQueue.update_bounds_eager, hlo, hgr]

theorem insert_pos_eq (st : BucketQueue) (x p : Nat)
    (h : st.L ≤ p ∧ p ≤ st.C) :
    st.insert x p =
      BucketQueue.update_bounds_eager
        { st with A :=
            (st.A.set (p - st.L) (bucketAdd (st.A.getD (p - st.L) []) x)) }
        (p - st.L) none := by
  unfold BucketQueue.insert
  rw [if_pos h]
  rfl

theorem insert_neg_eq (st : BucketQueue) (x p : Nat)
    (h : ¬ (st.L ≤ p ∧ p ≤ st.C)) : st.insert x p = none := by
  unfold BucketQueue.insert
  rw [if_neg h]

theorem change_priority_eq (st : BucketQueue) (x p q : Nat)
    (hp : st.L ≤ p ∧ p ≤ st.C) (hq : st.L ≤ q ∧ q ≤ st.C)
    (hx : x ∈ st.A.getD (p - st.L) []) :
    st.change_priority x p q =
      BucketQueue.update_bounds_eager
        { st with A :=
            ((st.A.set (p - st.L) ((st.A.getD (p - st.L) []).erase x)).set
              (q - st.L)
              (bucketAdd
                ((st.A.set (p - st.L)
                  ((st.A.getD (p - st.L) []).erase x)).getD (q - st.L) []) x)) }
        (q - st.L) (some (p - st.L)) := by
  unfold BucketQueue.change_priority
  rw [if_pos hp, if_pos hq]
  simp only [BucketQueue.priority_to_index, bucketRemove_of_mem hx]

theorem change_priority_nop_eq (st : BucketQueue) (x p q : Nat)
    (hp : ¬ (st.L ≤ p ∧ p ≤ st.C)) : st.change_priority x p q = none := by
  unfold BucketQueue.change_priority
  rw [if_neg hp]

theorem change_priority_noq_eq (st : BucketQueue) (x p q : Nat)
    (hp : st.L ≤ p ∧ p ≤ st.C) (hq : ¬ (st.L ≤ q ∧ q ≤ st.C)) :
    st.change_priority x p q = none := by
  unfold BucketQueue.change_priority
  rw [if_pos hp, if_neg hq]

theorem change_priority_nomem_eq (st : BucketQueue) (x p q : Nat)
    (hp : st.L ≤ p ∧ p ≤ st.C) (hq : st.L ≤ q ∧ q ≤ st.C)
    (hx : x ∉ st.A.getD (p - st.L) []) :
    st.change_priority x p q = none := by
  unfold BucketQueue.change_priority
  rw [if_pos hp, if_pos hq]
  have hrem : bucketRemove (st.A.getD (p - st.L) []) x = none := by
    unfold bucketRemove
    rw [if_neg hx]
  simp only [BucketQueue.priority_to_index, hrem]

theorem find_highest_none_eq (st : BucketQueue) (hlo : st.lowest = none)
    (hgr : st.greatest = none) : st.find_highest = some st := by
  simp only [BucketQueue.find_highest, hlo, hgr]

theorem find_highest_clear_eq (st : BucketQueue) {lo gr : Nat}
    (hlo : st.lowest = some lo) (hgr : st.greatest = some gr)
    (hsd : scanDown st.A lo gr = none) :
    st.find_highest = some { st with lowest := none, greatest := none } := by
  simp only [BucketQueue.find_highest, hlo, hgr, hsd]

theorem find_highest_set_eq (st : BucketQueue) {lo gr r : Nat}
    (hlo : st.lowest = some lo) (hgr : st.greatest = some gr)
    (hsd : scanDown st.A lo gr = some r) :
    st.find_highest = some { st with greatest := some r } := by
  simp only [BucketQueue.find_highest, hlo, hgr, hsd]
  try rw [← hlo]
  try rfl

theorem find_lowest_none_eq (st : BucketQueue) (hlo : st.lowest = none)
    (hgr : st.greatest = none) : st.find_lowest = some st := by
  simp only [BucketQueue.find_lowest, hlo, hgr]

theorem find_lowest_clear_eq (st : BucketQueue) {lo gr : Nat}
    (hlo : st.lowest = some lo) (hgr : st.greatest = some gr)
    (hsu : scanUpTo st.A lo gr = none) :
    st.find_lowest = some { st with lowest := none, greatest := none } := by
  simp only [BucketQueue.find_lowest, hlo, hgr, hsu]

theorem find_lowest_set_eq (st : BucketQueue) {lo gr r : Nat}
    (hlo : st.lowest = some lo) (hgr : st.greatest = some gr)
    (hsu : scanUpTo st.A lo gr = some r) :
    st.find_lowest = some { st with lowest := some r } := by
  simp only [BucketQueue.find_lowest, hlo, hgr, hsu]
  try rw [← hgr]
  try rfl

/-- Any state returned by `afterBounds` has the same buckets and range. -/
theorem afterBounds_same {st st1 : BucketQueue} {qOpt : Option Nat}
    (h : st.afterBounds qOpt = some st1) :
    st1.A = st.A ∧ st1.C = st.C ∧ st1.L = st.L := by
  cases qOpt with
  | none =>
    rw [afterBounds_none_eq] at h
    cases h
    exact ⟨rfl, rfl, rfl⟩
  | some q =>
    by_cases he : st.A.getD q [] = []
    · by_cases hgrq : st.greatest = some q
      · cases hlo : st.lowest with
        | none =>
          rw [afterBounds_greatest_crash_eq st he hgrq hlo] at h
          cases h
        | some lo =>
          cases hsd : scanDown st.A lo q with
          | none =>
            rw [afterBounds_greatest_clear_eq st he hgrq hlo hsd] at h
            cases h
            exact ⟨rfl, rfl, rfl⟩
          | some r =>
            rw [afterBounds_greatest_set_eq st he hgrq hlo hsd] at h
            cases h
            exact ⟨rfl, rfl, rfl⟩
      · by_cases hloq : st.lowest = some q
        · cases hgr : st.greatest with
          | none =>
            rw [afterBounds_lowest_crash_eq st he hgrq hloq hgr] at h
            cases h
          | some gr =>
            by_cases hcmp : gr < scanUp st.A q
            · rw [afterBounds_lowest_clear_eq st he hgrq hloq hgr hcmp] at h
              cases h
              exact ⟨rfl, rfl, rfl⟩
            · rw [afterBounds_lowest_set_eq st he hgrq hloq hgr hcmp] at h
              cases h
              exact ⟨rfl, rfl, rfl⟩
        · rw [afterBounds_else_eq st he hgrq hloq] at h
          cases h
          exact ⟨rfl, rfl, rfl⟩
    · rw [afterBounds_nonempty_eq st q he] at h
      cases h
      exact ⟨rfl, rfl, rfl⟩

/-- Any state returned by `update_bounds_eager` has the same buckets and
range. -/
theorem update_bounds_eager_same {st st1 : BucketQueue} {p : Nat}
    {qOpt : Option Nat} (h : st.update_bounds_eager p qOpt = some st1) :
    st1.A = st.A ∧ st1.C = st.C ∧ st1.L = st.L := by
  cases hlo : st.lowest with
  | none =>
    cases hgr : st.greatest with
    | none =>
      rw [update_bounds_none_eq st p qOpt hlo hgr] at h
      obtain ⟨h1, h2, h3⟩ := afterBounds_same h
      exact ⟨h1, h2, h3⟩
    | some gr =>
      rw [update_bounds_crash1_eq st p qOpt hlo hgr] at h
      cases h
  | some lo =>
    cases hgr : st.greatest with
    | none =>
      rw [update_bounds_crash2_eq st p qOpt hlo hgr] at h
      cases h
    | some gr =>
      rw [update_bounds_some_eq st p qOpt hlo hgr] at h
      obtain ⟨h1, h2, h3⟩ := afterBounds_same h
      exact ⟨h1, h2, h3⟩

/-! Claim C5: extraction from an entirely empty queue. -/

/-- C5: on a BucketQueue holding no elements (with coherent bounds),
`extract_max` and `extract_min` both return the explicit "no element" result
without failing, the buckets and range are unchanged, and both bounds are
absent afterwards. -/
theorem extract_empty_spec (st : BucketQueue) (hemp : ∀ b ∈ st.A, b = [])
    (hm : st.lowest = none ↔ st.greatest = none) :
    (∃ st1, st.extract_max = some (none, st1) ∧ st1.A = st.A ∧
      st1.C = st.C ∧ st1.L = st.L ∧
      st1.lowest = none ∧ st1.greatest = none) ∧
    (∃ st1, st.extract_min = some (none, st1) ∧ st1.A = st.A ∧
      st1.C = st.C ∧ st1.L = st.L ∧
      st1.lowest = none ∧ st1.greatest = none) := by
  constructor
  · cases hlo : st.lowest with
    | none =>
      have hgr : st.greatest = none := hm.mp hlo
      refine ⟨st, ?_, rfl, rfl, rfl, hlo, hgr⟩
      unfold BucketQueue.extract_max
      rw [find_highest_none_eq st hlo hgr]
      simp only [hgr]
    | some lo =>
      cases hgr : st.greatest with
      | none => exact absurd (hm.mpr hgr) (by simp [hlo])
      | some gr =>
        have hsd : scanDown st.A lo gr = none := by
          cases hsd : scanDown st.A lo gr with
          | none => rfl
          | some r =>
            obtain ⟨-, -, hc, -⟩ := scanDown_some hsd
            exact absurd (allNil_getD hemp r) hc
        refine ⟨{ st with lowest := none, greatest := none }, ?_, rfl, rfl,
          rfl, rfl, rfl⟩
        unfold BucketQueue.extract_max
        rw [find_highest_clear_eq st hlo hgr hsd]
  · cases hlo : st.lowest with
    | none =>
      have hgr : st.greatest = none := hm.mp hlo
      refine ⟨st, ?_, rfl, rfl, rfl, hlo, hgr⟩
      unfold BucketQueue.extract_min
      rw [find_lowest_none_eq st hlo hgr]
      simp only [hlo]
    | some lo =>
      cases hgr : st.greatest with
      | none => exact absurd (hm.mpr hgr) (by simp [hlo])
      | some gr =>
        have hsu : scanUpTo st.A lo gr = none := by
          unfold scanUpTo
          cases hsu : scanUpToAux st.A lo (gr + 1 - lo) with
          | none => rfl
          | some r =>
            obtain ⟨-, -, hc, -⟩ := scanUpToAux_some hsu
            exact absurd (allNil_getD hemp r) hc
        refine ⟨{ st with lowest := none, greatest := none }, ?_, rfl, rfl,
          rfl, rfl, rfl⟩
        unfold BucketQueue.extract_min
        rw [find_lowest_clear_eq st hlo hgr hsu]

/-- C5 witness: the empty-queue contract at a concrete empty queue. -/
theorem extract_empty_spec_witness :
    (∃ st1, (BucketQueue.make 3 1).extract_max = some (none, st1) ∧
      st1.A = (BucketQueue.make 3 1).A ∧ st1.C = (BucketQueue.make 3 1).C ∧
      st1.L = (BucketQueue.make 3 1).L ∧
      st1.lowest = none ∧ st1.greatest = none) ∧
    (∃ st1, (BucketQueue.make 3 1).extract_min = some (none, st1) ∧
      st1.A = (BucketQueue.make 3 1).A ∧ st1.C = (BucketQueue.make 3 1).C ∧
      st1.L = (BucketQueue.make 3 1).L ∧
      st1.lowest = none ∧ st1.greatest = none) :=
  extract_empty_spec (BucketQueue.make 3 1) (by decide) (by decide)

/-! From the executable invariant checks to the propositional invariants. -/

theorem BQWeakInv_of_B {st : BucketQueue} (h : BQWeakInvB st = true) :
    BQWeakInv st := by
  unfold BQWeakInvB at h
  rw [Bool.and_assoc] at h
  rw [Bool.and_eq_true, Bool.and_eq_true, decide_eq_true_eq,
    decide_eq_true_eq] at h
  obtain ⟨hlen, hLC, hrest⟩ := h
  cases hlo : st.lowest with
  | none =>
    cases hgr : st.greatest with
    | none =>
      rw [hlo, hgr] at hrest
      have hemp : ∀ i, st.A.getD i [] = [] := by
        refine allNil_getD ?_
        intro b hb
        have := List.all_eq_true.mp hrest b hb
        exact List.isEmpty_iff.mp this
      refine ⟨hlen, hLC, by simp [hlo, hgr], fun _ => hemp, ?_, ?_⟩
      · intro lo gr h1 h2
        rw [hlo] at h1
        cases h1
      · intro lo gr h1 h2
        rw [hlo] at h1
        cases h1
    | some gr => rw [hlo, hgr] at hrest; cases hrest
  | some lo =>
    cases hgr : st.greatest with
    | none => rw [hlo, hgr] at hrest; cases hrest
    | some gr =>
      rw [hlo, hgr] at hrest
      rw [Bool.and_eq_true, Bool.and_eq_true, decide_eq_true_eq,
        decide_eq_true_eq] at hrest
      obtain ⟨⟨h1, h2⟩, h3⟩ := hrest
      refine ⟨hlen, hLC, by simp [hlo, hgr], by simp [hlo], ?_, ?_⟩
      · intro lo2 gr2 hl2 hg2
        rw [hlo] at hl2
        rw [hgr] at hg2
        cases hl2
        cases hg2
        exact ⟨h1, h2⟩
      · intro lo2 gr2 hl2 hg2 i hne
        rw [hlo] at hl2
        rw [hgr] at hg2
        cases hl2
        cases hg2
        have hi : i < st.A.length := lt_length_of_getD_ne_nil hne
        have := List.all_eq_true.mp h3 i (List.mem_range.mpr hi)
        rw [Bool.or_eq_true, decide_eq_true_eq] at this
        rcases this with h | h
        · exact h
        · exact absurd (List.isEmpty_iff.mp h) hne

theorem BQStrongInv_of_B {st : BucketQueue} (h : BQStrongInvB st = true) :
    BQStrongInv st := by
  unfold BQStrongInvB at h
  rw [Bool.and_eq_true] at h
  obtain ⟨hw, hrest⟩ := h
  have hweak := BQWeakInv_of_B hw
  refine ⟨hweak, ?_, ?_⟩
  · intro lo hlo
    cases hgr : st.greatest with
    | none => rw [hlo, hgr] at hrest; cases hrest
    | some gr =>
      rw [hlo, hgr] at hrest
      rw [Bool.and_eq_true] at hrest
      intro hc
      rw [hc] at hrest
      simp at hrest
  · intro gr hgr
    cases hlo : st.lowest with
    | none => rw [hlo, hgr] at hrest; cases hrest
    | some lo =>
      rw [hlo, hgr] at hrest
      rw [Bool.and_eq_true] at hrest
      intro hc
      rw [hc] at hrest
      simp at hrest

/-- On coherent bounds, `update_bounds_eager` with no removal argument always
succeeds and only moves the bounds. -/
theorem update_bounds_eager_success (st : BucketQueue) (p : Nat)
    (hm : st.lowest = none ↔ st.greatest = none) :
    ∃ st1, st.update_bounds_eager p none = some st1 ∧ st1.A = st.A ∧
      st1.C = st.C ∧ st1.L = st.L := by
  cases hlo : st.lowest with
  | none =>
    rw [update_bounds_none_eq st p none hlo (hm.mp hlo), afterBounds_none_eq]
    exact ⟨_, rfl, rfl, rfl, rfl⟩
  | some lo =>
    cases hgr : st.greatest with
    | none => exact absurd (hm.mpr hgr) (by simp [hlo])
    | some gr =>
      rw [update_bounds_some_eq st p none hlo hgr, afterBounds_none_eq]
      exact ⟨_, rfl, rfl, rfl, rfl⟩

/-- A successful in-range insert, on coherent bounds: the new state adds `x`
to the bucket of `p` and keeps the range. -/
theorem insert_success (st : BucketQueue) (x p : Nat)
    (h : st.L ≤ p ∧ p ≤ st.C) (hm : st.lowest = none ↔ st.greatest = none) :
    ∃ st1, st.insert x p = some st1 ∧
      st1.A = st.A.set (p - st.L) (bucketAdd (st.A.getD (p - st.L) []) x) ∧
      st1.C = st.C ∧ st1.L = st.L := by
  rw [insert_pos_eq st x p h]
  obtain ⟨st1, h1, hA, hC, hL⟩ := update_bounds_eager_success
    { st with A :=
        (st.A.set (p - st.L) (bucketAdd (st.A.getD (p - st.L) []) x)) }
    (p - st.L) hm
  exact ⟨st1, h1, hA, hC, hL⟩

/-- C6: `insert` and `change_priority` fail (the Python assert raises) exactly
when a supplied priority is outside `[L, C]`; an in-range insert on a
well-formed queue succeeds and adds the element to the bucket of `p`. -/
theorem invalid_priority_spec (st : BucketQueue) (x p q : Nat) :
    (¬ (st.L ≤ p ∧ p ≤ st.C) → st.insert x p = none) ∧
    ((¬ (st.L ≤ p ∧ p ≤ st.C) ∨ ¬ (st.L ≤ q ∧ q ≤ st.C)) →
      st.change_priority x p q = none) ∧
    ((st.L ≤ p ∧ p ≤ st.C) → (st.lowest = none ↔ st.greatest = none) →
      st.A.length = st.C + 1 - st.L →
      ∃ st1, st.insert x p = some st1 ∧ x ∈ st1.A.getD (p - st.L) []) := by
  refine ⟨fun h => insert_neg_eq st x p h, ?_, ?_⟩
  · rintro (h | h)
    · exact change_priority_nop_eq st x p q h
    · by_cases hp : st.L ≤ p ∧ p ≤ st.C
      · exact change_priority_noq_eq st x p q hp h
      · exact change_priority_nop_eq st x p q hp
  · intro h hm hlen
    obtain ⟨st1, hins, hA, hC, hL⟩ := insert_success st x p h hm
    refine ⟨st1, hins, ?_⟩
    rw [hA, getD_set_self _ (by omega)]
    exact self_mem_bucketAdd x

/-- C6 witness: out-of-range priorities fail and an in-range insert lands in
its bucket, on a concrete queue with range `[1, 5]`. -/
theorem invalid_priority_spec_witness :
    (BucketQueue.make 5 1).insert 7 9 = none ∧
    (BucketQueue.make 5 1).change_priority 7 0 3 = none ∧
    ∃ st1, (BucketQueue.make 5 1).insert 7 3 = some st1 ∧
      7 ∈ st1.A.getD (3 - (BucketQueue.make 5 1).L) [] :=
  ⟨(invalid_priority_spec (BucketQueue.make 5 1) 7 9 0).1 (by decide),
   (invalid_priority_spec (BucketQueue.make 5 1) 7 0 3).2.1 (Or.inl (by decide)),
   (invalid_priority_spec (BucketQueue.make 5 1) 7 3 0).2.2 (by decide)
     (by decide) (by decide)⟩

/-! Claim C8: `change_priority x p p` is a no-op. -/

/-- C8: on a well-formed queue, changing the priority of a present element to
its own priority succeeds, keeps both bounds exactly, and leaves every bucket
with the same contents (equal as sets: each bucket is a permutation of what
it was). -/
theorem change_priority_self_spec (st : BucketQueue) (x p : Nat)
    (hw : BQWeakInv st) (hp : st.L ≤ p ∧ p ≤ st.C)
    (hx : x ∈ st.A.getD (p - st.L) [])
    (hnd : (st.A.getD (p - st.L) []).Nodup) :
    ∃ st1, st.change_priority x p p = some st1 ∧
      st1.lowest = st.lowest ∧ st1.greatest = st.greatest ∧
      st1.C = st.C ∧ st1.L = st.L ∧
      ∀ i, List.Perm (st1.A.getD i []) (st.A.getD i []) := by
  set pi := p - st.L with hpi
  have hbne : st.A.getD pi [] ≠ [] := by
    intro hc
    rw [hc] at hx
    exact (List.not_mem_nil x) hx
  have hpilt : pi < st.A.length := lt_length_of_getD_ne_nil hbne
  cases hlo : st.lowest with
  | none => exact absurd (hw.hempty hlo pi) hbne
  | some lo =>
    cases hgr : st.greatest with
    | none => exact absurd (hw.hmatch.mpr hgr) (by simp [hlo])
    | some gr =>
      obtain ⟨hpilo, hpigr⟩ := hw.hbracket lo gr hlo hgr pi hbne
      rw [change_priority_eq st x p p hp hp hx]
      have hinner :
          (st.A.set pi ((st.A.getD pi []).erase x)).getD pi [] =
            (st.A.getD pi []).erase x := getD_set_self _ hpilt
      rw [hinner]
      have hxe : x ∉ (st.A.getD pi []).erase x := hnd.not_mem_erase
      have hadd : bucketAdd ((st.A.getD pi []).erase x) x =
          (st.A.getD pi []).erase x ++ [x] := by
        unfold bucketAdd
        rw [if_neg hxe]
      rw [hadd, List.set_set]
      set st2 : BucketQueue :=
        { st with A := st.A.set pi ((st.A.getD pi []).erase x ++ [x]) }
        with hst2
      have h2lo : st2.lowest = some lo := hlo
      have h2gr : st2.greatest = some gr := hgr
      rw [update_bounds_some_eq st2 pi (some pi) h2lo h2gr]
      have hmin : min pi lo = lo := min_eq_right hpilo
      have hmax : max pi gr = gr := max_eq_right hpigr
      rw [hmin, hmax]
      set st3 : BucketQueue :=
        { st2 with lowest := some lo, greatest := some gr } with hst3
      have h3b : st3.A.getD pi [] = (st.A.getD pi []).erase x ++ [x] := by
        rw [hst3]
        exact getD_set_self _ (by simpa using hpilt)
      have h3ne : st3.A.getD pi [] ≠ [] := by
        rw [h3b]
        simp
      rw [afterBounds_nonempty_eq st3 pi h3ne]
      refine ⟨st3, rfl, rfl, rfl, rfl, rfl, ?_⟩
      intro i
      by_cases hi : i = pi
      · subst hi
        rw [h3b]
        exact (List.perm_append_singleton x _).trans
          (List.perm_cons_erase hx).symm
      · have h3i : st3.A.getD i [] = st.A.getD i [] := by
          rw [hst3]
          exact getD_set_ne _ (fun hc => hi hc.symm)
        rw [h3i]

/-! Inversion lemmas for the extraction path. -/

theorem find_highest_crash1_eq (st : BucketQueue) {gr : Nat}
    (hlo : st.lowest = none) (hgr : st.greatest = some gr) :
    st.find_highest = none := by
  simp only [BucketQueue.find_highest, hlo, hgr]

theorem find_highest_crash2_eq (st : BucketQueue) {lo : Nat}
    (hlo : st.lowest = some lo) (hgr : st.greatest = none) :
    st.find_highest = none := by
  simp only [BucketQueue.find_highest, hlo, hgr]

theorem find_lowest_crash1_eq (st : BucketQueue) {gr : Nat}
    (hlo : st.lowest = none) (hgr : st.greatest = some gr) :
    st.find_lowest = none := by
  simp only [BucketQueue.find_lowest, hlo, hgr]

theorem find_lowest_crash2_eq (st : BucketQueue) {lo : Nat}
    (hlo : st.lowest = some lo) (hgr : st.greatest = none) :
    st.find_lowest = none := by
  simp only [BucketQueue.find_lowest, hlo, hgr]

/-- Inversion for `find_highest`: a successful call only moves the bounds,
and the resulting bound shapes are constrained by the branch taken. -/
theorem find_highest_inv {st stf : BucketQueue}
    (h : st.find_highest = some stf) :
    stf.A = st.A ∧ stf.C = st.C ∧ stf.L = st.L ∧
    ((st.lowest = none ∧ st.greatest = none ∧ stf = st) ∨
     (∃ lo gr r, st.lowest = some lo ∧ st.greatest = some gr ∧
       scanDown st.A lo gr = some r ∧
       stf = { st with greatest := some r }) ∨
     (∃ lo gr, st.lowest = some lo ∧ st.greatest = some gr ∧
       scanDown st.A lo gr = none ∧
       stf = { st with lowest := none, greatest := none })) := by
  cases hlo : st.lowest with
  | none =>
    cases hgr : st.greatest with
    | none =>
      rw [find_highest_none_eq st hlo hgr] at h
      cases h
      exact ⟨rfl, rfl, rfl, Or.inl ⟨rfl, rfl, rfl⟩⟩
    | some gr =>
      rw [find_highest_crash1_eq st hlo hgr] at h
      cases h
  | some lo =>
    cases hgr : st.greatest with
    | none =>
      rw [find_highest_crash2_eq st hlo hgr] at h
      cases h
    | some gr =>
      cases hsd : scanDown st.A lo gr with
      | none =>
        rw [find_highest_clear_eq st hlo hgr hsd] at h
        cases h
        exact ⟨rfl, rfl, rfl, Or.inr (Or.inr ⟨lo, gr, rfl, rfl, hsd, rfl⟩)⟩
      | some r =>
        rw [find_highest_set_eq st hlo hgr hsd] at h
        cases h
        refine ⟨rfl, rfl, rfl, Or.inr (Or.inl ⟨lo, gr, r, rfl, rfl, hsd, ?_⟩)⟩
        rw [hlo]

/-- Inversion for `find_lowest`. -/
theorem find_lowest_inv {st stf : BucketQueue}
    (h : st.find_lowest = some stf) :
    stf.A = st.A ∧ stf.C = st.C ∧ stf.L = st.L ∧
    ((st.lowest = none ∧ st.greatest = none ∧ stf = st) ∨
     (∃ lo gr r, st.lowest = some lo ∧ st.greatest = some gr ∧
       scanUpTo st.A lo gr = some r ∧
       stf = { st with lowest := some r }) ∨
     (∃ lo gr, st.lowest = some lo ∧ st.greatest = some gr ∧
       scanUpTo st.A lo gr = none ∧
       stf = { st with lowest := none, greatest := none })) := by
  cases hlo : st.lowest with
  | none =>
    cases hgr : st.greatest with
    | none =>
      rw [find_lowest_none_eq st hlo hgr] at h
      cases h
      exact ⟨rfl, rfl, rfl, Or.inl ⟨rfl, rfl, rfl⟩⟩
    | some gr =>
      rw [find_lowest_crash1_eq st hlo hgr] at h
      cases h
  | some lo =>
    cases hgr : st.greatest with
    | none =>
      rw [find_lowest_crash2_eq st hlo hgr] at h
      cases h
    | some gr =>
      cases hsu : scanUpTo st.A lo gr with
      | none =>
        rw [find_lowest_clear_eq st hlo hgr hsu] at h
        cases h
        exact ⟨rfl, rfl, rfl, Or.inr (Or.inr ⟨lo, gr, rfl, rfl, hsu, rfl⟩)⟩
      | some r =>
        rw [find_lowest_set_eq st hlo hgr hsu] at h
        cases h
        refine ⟨rfl, rfl, rfl, Or.inr (Or.inl ⟨lo, gr, r, rfl, rfl, hsu, ?_⟩)⟩
        rw [hgr]

theorem extract_max_crash_eq {st : BucketQueue}
    (hf : st.find_highest = none) : st.extract_max = none := by
  unfold BucketQueue.extract_max
  rw [hf]

theorem extract_min_crash_eq {st : BucketQueue}
    (hf : st.find_lowest = none) : st.extract_min = none := by
  unfold BucketQueue.extract_min
  rw [hf]

theorem extract_max_eq_of_find {st stf : BucketQueue}
    (hf : st.find_highest = some stf) :
    st.extract_max =
      (match stf.greatest with
       | none => some (none, stf)
       | some g =>
         match bucketPop (stf.A.getD g []) with
         | none => none
         | some (x, rest) =>
           some (some x, { stf with A := stf.A.set g rest })) := by
  unfold BucketQueue.extract_max
  rw [hf]

theorem extract_min_eq_of_find {st stf : BucketQueue}
    (hf : st.find_lowest = some stf) :
    st.extract_min =
      (match stf.lowest with
       | none => some (none, stf)
       | some l =>
         match bucketPop (stf.A.getD l []) with
         | none => none
         | some (x, rest) =>
           some (some x, { stf with A := stf.A.set l rest })) := by
  unfold BucketQueue.extract_min
  rw [hf]

/-- Inversion for `extract_max`: a successful call goes through a successful
`find_highest` and either reports an empty queue or pops the head of the
bucket at the refreshed upper bound. -/
theorem extract_max_inv {st st1 : BucketQueue} {r : Option Nat}
    (h : st.extract_max = some (r, st1)) :
    ∃ stf, st.find_highest = some stf ∧
      ((r = none ∧ st1 = stf ∧ stf.greatest = none) ∨
       (∃ x g rest, r = some x ∧ stf.greatest = some g ∧
         stf.A.getD g [] = x :: rest ∧
         st1 = { stf with A := stf.A.set g rest })) := by
  cases hf : st.find_highest with
  | none =>
    rw [extract_max_crash_eq hf] at h
    cases h
  | some stf =>
    rw [extract_max_eq_of_find hf] at h
    cases hgr : stf.greatest with
    | none =>
      simp only [hgr] at h
      rw [Option.some.injEq, Prod.mk.injEq] at h
      obtain ⟨h1, h2⟩ := h
      exact ⟨stf, rfl, Or.inl ⟨h1.symm, h2.symm, hgr⟩⟩
    | some g =>
      simp only [hgr] at h
      cases hb : stf.A.getD g [] with
      | nil =>
        simp only [hb, bucketPop] at h
        exact Option.noConfusion h
      | cons x rest =>
        simp only [hb, bucketPop] at h
        rw [Option.some.injEq, Prod.mk.injEq] at h
        obtain ⟨h1, h2⟩ := h
        refine ⟨stf, rfl, Or.inr ⟨x, g, rest, h1.symm, hgr, hb, ?_⟩⟩
        rw [← h2, hgr]

/-- Inversion for `extract_min`. -/
theorem extract_min_inv {st st1 : BucketQueue} {r : Option Nat}
    (h : st.extract_min = some (r, st1)) :
    ∃ stf, st.find_lowest = some stf ∧
      ((r = none ∧ st1 = stf ∧ stf.lowest = none) ∨
       (∃ x l rest, r = some x ∧ stf.lowest = some l ∧
         stf.A.getD l [] = x :: rest ∧
         st1 = { stf with A := stf.A.set l rest })) := by
  cases hf : st.find_lowest with
  | none =>
    rw [extract_min_crash_eq hf] at h
    cases h
  | some stf =>
    rw [extract_min_eq_of_find hf] at h
    cases hlo : stf.lowest with
    | none =>
      simp only [hlo] at h
      rw [Option.some.injEq, Prod.mk.injEq] at h
      obtain ⟨h1, h2⟩ := h
      exact ⟨stf, rfl, Or.inl ⟨h1.symm, h2.symm, hlo⟩⟩
    | some l =>
      simp only [hlo] at h
      cases hb : stf.A.getD l [] with
      | nil =>
        simp only [hb, bucketPop] at h
        exact Option.noConfusion h
      | cons x rest =>
        simp only [hb, bucketPop] at h
        rw [Option.some.injEq, Prod.mk.injEq] at h
        obtain ⟨h1, h2⟩ := h
        refine ⟨stf, rfl, Or.inr ⟨x, l, rest, h1.symm, hlo, hb, ?_⟩⟩
        rw [← h2, hlo]

/-- C8 witness: `change_priority 4 3 3` on a concrete queue holding element 4
at priority 3 changes nothing. -/
theorem change_priority_self_spec_witness :
    ∃ st1,
      ({ C := 5, L := 1, A := [[], [], [4], [], []], lowest := some 2, greatest := some 2 } : BucketQueue).change_priority 4 3 3 = some st1 ∧
      st1.lowest = ({ C := 5, L := 1, A := [[], [], [4], [], []], lowest := some 2, greatest := some 2 } : BucketQueue).lowest ∧
      st1.greatest = ({ C := 5, L := 1, A := [[], [], [4], [], []], lowest := some 2, greatest := some 2 } : BucketQueue).greatest ∧
      st1.C = ({ C := 5, L := 1, A := [[], [], [4], [], []], lowest := some 2, greatest := some 2 } : BucketQueue).C ∧
      st1.L = ({ C := 5, L := 1, A := [[], [], [4], [], []], lowest := some 2, greatest := some 2 } : BucketQueue).L ∧
      ∀ i, List.Perm (st1.A.getD i [])
        (({ C := 5, L := 1, A := [[], [], [4], [], []], lowest := some 2, greatest := some 2 } : BucketQueue).A.getD i []) :=
  change_priority_self_spec
    { C := 5, L := 1, A := [[], [], [4], [], []], lowest := some 2, greatest := some 2 } 4 3
    (BQWeakInv_of_B (by decide)) (by decide) (by decide) (by decide)

/-! Claim C7: conservation of the element count. -/

theorem flatten_nodup_bucket {A : List (List Nat)} (h : A.flatten.Nodup)
    (i : Nat) : (A.getD i []).Nodup := by
  rcases lt_or_ge i A.length with hi | hi
  · have hg : A.getD i [] = A[i] := by
      simp [List.getD_eq_getElem?_getD, List.getElem?_eq_getElem hi]
    rw [hg]
    exact (List.nodup_flatten.mp h).1 _ (List.getElem_mem hi)
  · rw [getD_len_le hi]
    exact List.nodup_nil

theorem flatten_nodup_disjoint {A : List (List Nat)} (h : A.flatten.Nodup)
    {x i j : Nat} (hne : i ≠ j) (hi : x ∈ A.getD i []) :
    x ∉ A.getD j [] := by
  intro hj
  have hil : i < A.length := by
    by_contra hc
    rw [getD_len_le (by omega)] at hi
    exact (List.not_mem_nil x) hi
  have hjl : j < A.length := by
    by_contra hc
    rw [getD_len_le (by omega)] at hj
    exact (List.not_mem_nil x) hj
  have hgi : A.getD i [] = A[i] := by
    simp [List.getD_eq_getElem?_getD, List.getElem?_eq_getElem hil]
  have hgj : A.getD j [] = A[j] := by
    simp [List.getD_eq_getElem?_getD, List.getElem?_eq_getElem hjl]
  rw [hgi] at hi
  rw [hgj] at hj
  have hpw := (List.nodup_flatten.mp h).2
  rw [List.pairwise_iff_getElem] at hpw
  rcases Nat.lt_or_ge i j with hij | hij
  · exact (hpw i j hil hjl hij) hi hj
  · have hji : j < i := by omega
    exact (hpw j i hjl hil hji) hj hi

/-- Conservation across a successful fresh insert. -/
theorem insert_conserve {st st1 : BucketQueue} {x p : Nat}
    (h : st.insert x p = some st1)
    (hlen : st.A.length = st.C + 1 - st.L)
    (hfresh : x ∉ st.A.getD (p - st.L) []) :
    BQtotal st1 = BQtotal st + 1 ∧
    st1.A.length = st1.C + 1 - st1.L := by
  by_cases hin : st.L ≤ p ∧ p ≤ st.C
  · rw [insert_pos_eq st x p hin] at h
    obtain ⟨hA, hC, hL⟩ := update_bounds_eager_same h
    have hA2 : st1.A =
        st.A.set (p - st.L) (bucketAdd (st.A.getD (p - st.L) []) x) := hA
    have hC2 : st1.C = st.C := hC
    have hL2 : st1.L = st.L := hL
    have hplt : p - st.L < st.A.length := by omega
    have hsum := @sum_map_length_set st.A
      (bucketAdd (st.A.getD (p - st.L) []) x) _ hplt
    have hbl := length_bucketAdd_not_mem hfresh
    constructor
    · unfold BQtotal
      rw [hA2]
      omega
    · rw [hA2, hC2, hL2, List.length_set]
      exact hlen
  · rw [insert_neg_eq st x p hin] at h
    cases h

/-- Conservation across a successful `change_priority`, provided each element
occupies at most one bucket. -/
theorem change_conserve {st st1 : BucketQueue} {x p q : Nat}
    (h : st.change_priority x p q = some st1)
    (hlen : st.A.length = st.C + 1 - st.L)
    (hamo : st.A.flatten.Nodup) :
    BQtotal st1 = BQtotal st ∧
    st1.A.length = st1.C + 1 - st1.L := by
  by_cases hp : st.L ≤ p ∧ p ≤ st.C
  · by_cases hq : st.L ≤ q ∧ q ≤ st.C
    · by_cases hx : x ∈ st.A.getD (p - st.L) []
      · rw [change_priority_eq st x p q hp hq hx] at h
        obtain ⟨hA, hC, hL⟩ := update_bounds_eager_same h
        set pi := p - st.L with hpi
        set qi := q - st.L with hqi
        set b := st.A.getD pi [] with hb
        set A1 := st.A.set pi (b.erase x) with hA1
        have hA2 : st1.A = A1.set qi (bucketAdd (A1.getD qi []) x) := hA
        have hC2 : st1.C = st.C := hC
        have hL2 : st1.L = st.L := hL
        have hplt : pi < st.A.length := by omega
        have hqlt : qi < st.A.length := by omega
        have hqlt1 : qi < A1.length := by
          rw [hA1, List.length_set]
          exact hqlt
        have hbnd : b.Nodup := flatten_nodup_bucket hamo pi
        have hsum1 := @sum_map_length_set st.A (b.erase x) _ hplt
        rw [← hA1] at hsum1
        have hsum2 := @sum_map_length_set A1
          (bucketAdd (A1.getD qi []) x) _ hqlt1
        have herl : (b.erase x).length + 1 = b.length := by
          have h1 := List.length_erase_of_mem hx
          have hpos : 0 < b.length := List.length_pos_of_mem hx
          omega
        have hxa1 : x ∉ A1.getD qi [] := by
          by_cases hpq : qi = pi
          · rw [hpq, hA1, getD_set_self _ hplt]
            exact hbnd.not_mem_erase
          · rw [hA1, getD_set_ne _ (fun hc => hpq hc.symm)]
            exact flatten_nodup_disjoint hamo
              (fun hc => hpq hc.symm) hx
        have hbal := length_bucketAdd_not_mem hxa1
        have hga1 : (A1.getD qi []).length +
            (if qi = pi then 1 else 0) = (st.A.getD qi []).length := by
          by_cases hpq : qi = pi
          · rw [if_pos hpq, hpq, hA1, getD_set_self _ hplt]
            rw [← hb]
            omega
          · rw [if_neg hpq, hA1, getD_set_ne _ (fun hc => hpq hc.symm)]
            omega
        have hbl2 : (st.A.getD pi []).length = b.length := by rw [← hb]
        constructor
        · unfold BQtotal
          rw [hA2]
          by_cases hpq : qi = pi
          · rw [if_pos hpq] at hga1
            rw [hpq] at hsum2 hga1 hbal ⊢
            omega
          · rw [if_neg hpq] at hga1
            omega
        · rw [hA2, List.length_set, hA1, List.length_set, hC2, hL2]
          exact hlen
      · rw [change_priority_nomem_eq st x p q hp hq hx] at h
        cases h
    · rw [change_priority_noq_eq st x p q hp hq] at h
      cases h
  · rw [change_priority_nop_eq st x p q hp] at h
    cases h

/-- Conservation across a successful `extract_max`. -/
theorem extract_max_conserve {st st1 : BucketQueue} {r : Option Nat}
    (h : st.extract_max = some (r, st1)) :
    (∀ x, r = some x → BQtotal st1 + 1 = BQtotal st) ∧
    (r = none → BQtotal st1 = BQtotal st) ∧
    st1.A.length = st.A.length ∧ st1.C = st.C ∧ st1.L = st.L := by
  obtain ⟨stf, hf, hcases⟩ := extract_max_inv h
  obtain ⟨hfA, hfC, hfL, -⟩ := find_highest_inv hf
  rcases hcases with ⟨hr, hst, -⟩ | ⟨x, g, rest, hr, hg, hb, hst⟩
  · subst hst
    refine ⟨?_, fun _ => by unfold BQtotal; rw [hfA], ?_, hfC, hfL⟩
    · intro x hx
      rw [hr] at hx
      cases hx
    · rw [hfA]
  · have hglt : g < stf.A.length := by
      apply lt_length_of_getD_ne_nil
      rw [hb]
      simp
    have hsum := @sum_map_length_set stf.A rest _ hglt
    rw [hb] at hsum
    have hstA : st1.A = stf.A.set g rest := by rw [hst]
    have hstC : st1.C = stf.C := by rw [hst]
    have hstL : st1.L = stf.L := by rw [hst]
    refine ⟨?_, ?_, ?_, by rw [hstC, hfC], by rw [hstL, hfL]⟩
    · intro y hy
      unfold BQtotal
      rw [hstA, ← hfA]
      simp only [List.length_cons] at hsum
      omega
    · intro hc
      rw [hr] at hc
      cases hc
    · rw [hstA, List.length_set, hfA]

/-- Conservation across a successful `extract_min`. -/
theorem extract_min_conserve {st st1 : BucketQueue} {r : Option Nat}
    (h : st.extract_min = some (r, st1)) :
    (∀ x, r = some x → BQtotal st1 + 1 = BQtotal st) ∧
    (r = none → BQtotal st1 = BQtotal st) ∧
    st1.A.length = st.A.length ∧ st1.C = st.C ∧ st1.L = st.L := by
  obtain ⟨stf, hf, hcases⟩ := extract_min_inv h
  obtain ⟨hfA, hfC, hfL, -⟩ := find_lowest_inv hf
  rcases hcases with ⟨hr, hst, -⟩ | ⟨x, l, rest, hr, hl, hb, hst⟩
  · subst hst
    refine ⟨?_, fun _ => by unfold BQtotal; rw [hfA], ?_, hfC, hfL⟩
    · intro x hx
      rw [hr] at hx
      cases hx
    · rw [hfA]
  · have hllt : l < stf.A.length := by
      apply lt_length_of_getD_ne_nil
      rw [hb]
      simp
    have hsum := @sum_map_length_set stf.A rest _ hllt
    rw [hb] at hsum
    have hstA : st1.A = stf.A.set l rest := by rw [hst]
    have hstC : st1.C = stf.C := by rw [hst]
    have hstL : st1.L = stf.L := by rw [hst]
    refine ⟨?_, ?_, ?_, by rw [hstC, hfC], by rw [hstL, hfL]⟩
    · intro y hy
      unfold BQtotal
      rw [hstA, ← hfA]
      simp only [List.length_cons] at hsum
      omega
    · intro hc
      rw [hr] at hc
      cases hc
    · rw [hstA, List.length_set, hfA]

/-- C7 counterexample: the conservation claim as stated is false. Inserting
the same element twice at the same priority keeps every identifier in at most
one bucket throughout, both inserts succeed, yet the total is 1 while the
insert count is 2. -/
theorem conservation_stated_false :
    runOps [BQop.ins 5 3, BQop.ins 5 3] (BucketQueue.make 10 1) =
      some ({ C := 10, L := 1, A := [[], [], [5], [], [], [], [], [], [], []], lowest := some 2, greatest := some 2 }, 2, 0) ∧
    AMORun [BQop.ins 5 3, BQop.ins 5 3] (BucketQueue.make 10 1) = true ∧
    BQtotal { C := 10, L := 1, A := [[], [], [5], [], [], [], [], [], [], []], lowest := some 2, greatest := some 2 } ≠ 2 - 0 := by
  decide

/-- C7 amended: over any trace of operations in which every state keeps each
element identifier in at most one bucket and every insert supplies an element
not already present in its target bucket, the total number of held elements
satisfies: final total + successful extractions = initial total + successful
inserts. -/
theorem runOps_cons_none_eq {op : BQop} {rest : List BQop}
    {st : BucketQueue} (hs : BQstep op st = none) :
    runOps (op :: rest) st = none := by
  simp only [runOps, hs]

theorem runOps_cons_some_eq {op : BQop} {rest : List BQop}
    {st st1 : BucketQueue} {di de : Nat}
    (hs : BQstep op st = some (st1, di, de)) :
    runOps (op :: rest) st =
      (match runOps rest st1 with
       | none => none
       | some (st2, i, e) => some (st2, di + i, de + e)) := by
  simp only [runOps, hs]

theorem runOps_conserve :
    ∀ (ops : List BQop) (st : BucketQueue),
      st.A.length = st.C + 1 - st.L →
      AMORun ops st = true → FreshRun ops st = true →
      ∀ {st2 : BucketQueue} {i e : Nat},
        runOps ops st = some (st2, i, e) →
        BQtotal st2 + e = BQtotal st + i := by
  intro ops
  induction ops with
  | nil =>
    intro st hlen hamo hfresh st2 i e hrun
    simp only [runOps, Option.some.injEq] at hrun
    rw [Prod.mk.injEq, Prod.mk.injEq] at hrun
    obtain ⟨ha, hb, hc⟩ := hrun
    rw [← ha, ← hb, ← hc]
  | cons op rest ih =>
    intro st hlen hamo hfresh st2 i e hrun
    cases hs : BQstep op st with
    | none =>
      rw [runOps_cons_none_eq hs] at hrun
      cases hrun
    | some v =>
      obtain ⟨st1, di, de⟩ := v
      rw [runOps_cons_some_eq hs] at hrun
      cases hr2 : runOps rest st1 with
      | none =>
        simp only [hr2] at hrun
        exact Option.noConfusion hrun
      | some w =>
        obtain ⟨stw, iw, ew⟩ := w
        simp only [hr2, Option.some.injEq] at hrun
        rw [Prod.mk.injEq, Prod.mk.injEq] at hrun
        obtain ⟨ha, hb, hc⟩ := hrun
        simp only [AMORun, hs, Bool.and_eq_true, decide_eq_true_eq] at hamo
        obtain ⟨hnd, hamo1⟩ := hamo
        have hstep : BQtotal st1 + de = BQtotal st + di ∧
            st1.A.length = st1.C + 1 - st1.L ∧ FreshRun rest st1 = true := by
          cases op with
          | ins x y =>
            simp only [FreshRun, hs, Bool.and_eq_true, decide_eq_true_eq]
              at hfresh
            obtain ⟨hfr0, hfresh1⟩ := hfresh
            cases hi : st.insert x y with
            | none => rw [BQstep, hi] at hs; cases hs
            | some s1 =>
              rw [BQstep, hi] at hs
              simp only [Option.map_some', Option.some.injEq] at hs
              rw [Prod.mk.injEq, Prod.mk.injEq] at hs
              obtain ⟨hsa, hsb, hsc⟩ := hs
              obtain ⟨ht, hw⟩ := insert_conserve hi hlen hfr0
              subst hsa
              subst hsb
              subst hsc
              exact ⟨by omega, hw, hfresh1⟩
          | chg x y z =>
            simp only [FreshRun, hs, Bool.and_eq_true] at hfresh
            obtain ⟨-, hfresh1⟩ := hfresh
            cases hi : st.change_priority x y z with
            | none => rw [BQstep, hi] at hs; cases hs
            | some s1 =>
              rw [BQstep, hi] at hs
              simp only [Option.map_some', Option.some.injEq] at hs
              rw [Prod.mk.injEq, Prod.mk.injEq] at hs
              obtain ⟨hsa, hsb, hsc⟩ := hs
              obtain ⟨ht, hw⟩ := change_conserve hi hlen hnd
              subst hsa
              subst hsb
              subst hsc
              exact ⟨by omega, hw, hfresh1⟩
          | exMax =>
            simp only [FreshRun, hs, Bool.and_eq_true] at hfresh
            obtain ⟨-, hfresh1⟩ := hfresh
            cases hi : st.extract_max with
            | none => rw [BQstep, hi] at hs; cases hs
            | some rr =>
              obtain ⟨ropt, s1⟩ := rr
              rw [BQstep, hi] at hs
              simp only [Option.map_some', Option.some.injEq] at hs
              rw [Prod.mk.injEq, Prod.mk.injEq] at hs
              obtain ⟨hsa, hsb, hsc⟩ := hs
              obtain ⟨htx, htn, hwlen, hwC, hwL⟩ := extract_max_conserve hi
              have hw : s1.A.length = s1.C + 1 - s1.L := by
                rw [hwlen, hwC, hwL]
                exact hlen
              subst hsa
              subst hsb
              subst hsc
              cases ropt with
              | none =>
                have h0 := htn rfl
                simp only [Option.isSome_none, Bool.false_eq_true, if_false]
                exact ⟨by omega, hw, hfresh1⟩
              | some x =>
                have h1 := htx x rfl
                simp only [Option.isSome_some, if_true]
                exact ⟨by omega, hw, hfresh1⟩
          | exMin =>
            simp only [FreshRun, hs, Bool.and_eq_true] at hfresh
            obtain ⟨-, hfresh1⟩ := hfresh
            cases hi : st.extract_min with
            | none => rw [BQstep, hi] at hs; cases hs
            | some rr =>
              obtain ⟨ropt, s1⟩ := rr
              rw [BQstep, hi] at hs
              simp only [Option.map_some', Option.some.injEq] at hs
              rw [Prod.mk.injEq, Prod.mk.injEq] at hs
              obtain ⟨hsa, hsb, hsc⟩ := hs
              obtain ⟨htx, htn, hwlen, hwC, hwL⟩ := extract_min_conserve hi
              have hw : s1.A.length = s1.C + 1 - s1.L := by
                rw [hwlen, hwC, hwL]
                exact hlen
              subst hsa
              subst hsb
              subst hsc
              cases ropt with
              | none =>
                have h0 := htn rfl
                simp only [Option.isSome_none, Bool.false_eq_true, if_false]
                exact ⟨by omega, hw, hfresh1⟩
              | some x =>
                have h1 := htx x rfl
                simp only [Option.isSome_some, if_true]
                exact ⟨by omega, hw, hfresh1⟩
        obtain ⟨hstept, hstepw, hstepf⟩ := hstep
        have hihres := ih st1 hstepw hamo1 hstepf hr2
        rw [← ha, ← hb, ← hc]
        omega

/-- C7 amended, witness: a fresh insert followed by an extraction conserves
the count on a concrete queue. -/
theorem runOps_conserve_witness :
    BQtotal { C := 10, L := 1, A := [[], [], [], [], [], [], [], [], [], []], lowest := some 2, greatest := some 2 } + 1 =
      BQtotal (BucketQueue.make 10 1) + 1 :=
  runOps_conserve [BQop.ins 5 3, BQop.exMax] (BucketQueue.make 10 1)
    (by decide) (by decide) (by decide) (by decide)

/-! Invariant preservation for `insert`. -/

theorem insert_weak {st st1 : BucketQueue} {x p : Nat}
    (h : st.insert x p = some st1) (hw : BQWeakInv st) : BQWeakInv st1 := by
  by_cases hin : st.L ≤ p ∧ p ≤ st.C
  · rw [insert_pos_eq st x p hin] at h
    have hpilt : p - st.L < st.A.length := by
      have := hw.hlen
      omega
    cases hlo : st.lowest with
    | none =>
      cases hgr : st.greatest with
      | none =>
        rw [update_bounds_none_eq
          { st with A := (st.A.set (p - st.L) (bucketAdd (st.A.getD (p - st.L) []) x)) }
          (p - st.L) none hlo hgr, afterBounds_none_eq] at h
        cases h
        refine ⟨by simpa using hw.hlen, hw.hLC, by simp, ?_, ?_, ?_⟩
        · intro hc
          cases hc
        · intro lo gr h1 h2
          simp only [Option.some.injEq] at h1 h2
          subst h1
          subst h2
          have := hw.hlen
          dsimp only
          constructor
          · omega
          · omega
        · intro lo gr h1 h2 i hne
          simp only [Option.some.injEq] at h1 h2
          subst h1
          subst h2
          dsimp only at hne ⊢
          by_cases hi : i = p - st.L
          · omega
          · exfalso
            rw [getD_set_ne _ (fun hc => hi hc.symm)] at hne
            exact hne (hw.hempty hlo i)
      | some gr =>
        rw [update_bounds_crash1_eq
          { st with A := (st.A.set (p - st.L) (bucketAdd (st.A.getD (p - st.L) []) x)) }
          (p - st.L) none hlo hgr] at h
        cases h
    | some lo =>
      cases hgr : st.greatest with
      | none =>
        rw [update_bounds_crash2_eq
          { st with A := (st.A.set (p - st.L) (bucketAdd (st.A.getD (p - st.L) []) x)) }
          (p - st.L) none hlo hgr] at h
        cases h
      | some gr =>
        rw [update_bounds_some_eq
          { st with A := (st.A.set (p - st.L) (bucketAdd (st.A.getD (p - st.L) []) x)) }
          (p - st.L) none hlo hgr, afterBounds_none_eq] at h
        cases h
        obtain ⟨holg, hogr⟩ := hw.horder lo gr hlo hgr
        refine ⟨by simpa using hw.hlen, hw.hLC, by simp, ?_, ?_, ?_⟩
        · intro hc
          cases hc
        · intro lo2 gr2 h1 h2
          simp only [Option.some.injEq] at h1 h2
          subst h1
          subst h2
          have := hw.hlen
          dsimp only
          constructor
          · omega
          · simp only [max_le_iff]
            omega
        · intro lo2 gr2 h1 h2 i hne
          simp only [Option.some.injEq] at h1 h2
          subst h1
          subst h2
          dsimp only at hne ⊢
          by_cases hi : i = p - st.L
          · subst hi
            constructor
            · exact min_le_left _ _
            · exact le_max_left _ _
          · rw [getD_set_ne _ (fun hc => hi hc.symm)] at hne
            obtain ⟨hl, hr⟩ := hw.hbracket lo gr hlo hgr i hne
            constructor
            · exact le_trans (min_le_right _ _) hl
            · exact le_trans hr (le_max_right _ _)
  · rw [insert_neg_eq st x p hin] at h
    cases h

theorem insert_strong {st st1 : BucketQueue} {x p : Nat}
    (h : st.insert x p = some st1) (hs : BQStrongInv st) : BQStrongInv st1 := by
  have hweak := insert_weak h hs.toBQWeakInv
  by_cases hin : st.L ≤ p ∧ p ≤ st.C
  · rw [insert_pos_eq st x p hin] at h
    have hpilt : p - st.L < st.A.length := by
      have := hs.hlen
      omega
    cases hlo : st.lowest with
    | none =>
      cases hgr : st.greatest with
      | none =>
        rw [update_bounds_none_eq
          { st with A := (st.A.set (p - st.L) (bucketAdd (st.A.getD (p - st.L) []) x)) }
          (p - st.L) none hlo hgr, afterBounds_none_eq] at h
        cases h
        refine ⟨hweak, ?_, ?_⟩
        · intro lo h1
          simp only [Option.some.injEq] at h1
          subst h1
          dsimp only
          rw [getD_set_self _ hpilt]
          exact bucketAdd_ne_nil x
        · intro gr h1
          simp only [Option.some.injEq] at h1
          subst h1
          dsimp only
          rw [getD_set_self _ hpilt]
          exact bucketAdd_ne_nil x
      | some gr =>
        rw [update_bounds_crash1_eq
          { st with A := (st.A.set (p - st.L) (bucketAdd (st.A.getD (p - st.L) []) x)) }
          (p - st.L) none hlo hgr] at h
        cases h
    | some lo =>
      cases hgr : st.greatest with
      | none =>
        rw [update_bounds_crash2_eq
          { st with A := (st.A.set (p - st.L) (bucketAdd (st.A.getD (p - st.L) []) x)) }
          (p - st.L) none hlo hgr] at h
        cases h
      | some gr =>
        rw [update_bounds_some_eq
          { st with A := (st.A.set (p - st.L) (bucketAdd (st.A.getD (p - st.L) []) x)) }
          (p - st.L) none hlo hgr, afterBounds_none_eq] at h
        cases h
        refine ⟨hweak, ?_, ?_⟩
        · intro lo2 h1
          simp only [Option.some.injEq] at h1
          subst h1
          dsimp only
          rcases Nat.le_total (p - st.L) lo with hc | hc
          · rw [min_eq_left hc]
            rw [getD_set_self _ hpilt]
            exact bucketAdd_ne_nil x
          · rw [min_eq_right hc]
            by_cases hi : lo = p - st.L
            · subst hi
              rw [getD_set_self _ hpilt]
              exact bucketAdd_ne_nil x
            · rw [getD_set_ne _ (fun hc2 => hi hc2.symm)]
              exact hs.hlowne lo hlo
        · intro gr2 h1
          simp only [Option.some.injEq] at h1
          subst h1
          dsimp only
          rcases Nat.le_total gr (p - st.L) with hc | hc
          · rw [max_eq_left hc]
            rw [getD_set_self _ hpilt]
            exact bucketAdd_ne_nil x
          · rw [max_eq_right hc]
            by_cases hi : gr = p - st.L
            · subst hi
              rw [getD_set_self _ hpilt]
              exact bucketAdd_ne_nil x
            · rw [getD_set_ne _ (fun hc2 => hi hc2.symm)]
              exact hs.hgrne gr hgr
  · rw [insert_neg_eq st x p hin] at h
    cases h

/-! Bucket-level description of `change_priority`. -/

theorem change_priority_eq2 (st : BucketQueue) (x p q : Nat)
    (hp : st.L ≤ p ∧ p ≤ st.C) (hq : st.L ≤ q ∧ q ≤ st.C)
    (hx : x ∈ st.A.getD (p - st.L) []) :
    st.change_priority x p q =
      BucketQueue.update_bounds_eager
        { st with A := chgArray st.A x (p - st.L) (q - st.L) }
        (q - st.L) (some (p - st.L)) :=
  change_priority_eq st x p q hp hq hx

theorem chgArray_length (A : List (List Nat)) (x pi qi : Nat) :
    (chgArray A x pi qi).length = A.length := by
  unfold chgArray
  simp

theorem chgArray_getD_qi {A : List (List Nat)} (x : Nat) {pi qi : Nat}
    (hqi : qi < A.length) :
    (chgArray A x pi qi).getD qi [] =
      bucketAdd ((A.set pi ((A.getD pi []).erase x)).getD qi []) x := by
  unfold chgArray
  exact getD_set_self _ (by simpa using hqi)

theorem chgArray_getD_qi_ne_nil {A : List (List Nat)} (x : Nat) {pi qi : Nat}
    (hqi : qi < A.length) : (chgArray A x pi qi).getD qi [] ≠ [] := by
  rw [chgArray_getD_qi x hqi]
  exact bucketAdd_ne_nil x

theorem chgArray_getD_pi {A : List (List Nat)} (x : Nat) {pi qi : Nat}
    (hne : qi ≠ pi) (hpi : pi < A.length) :
    (chgArray A x pi qi).getD pi [] = (A.getD pi []).erase x := by
  unfold chgArray
  rw [getD_set_ne _ hne]
  exact getD_set_self _ hpi

theorem chgArray_getD_other {A : List (List Nat)} (x : Nat) {pi qi i : Nat}
    (hip : i ≠ pi) (hiq : i ≠ qi) :
    (chgArray A x pi qi).getD i [] = A.getD i [] := by
  unfold chgArray
  rw [getD_set_ne _ (fun hc => hiq hc.symm), getD_set_ne _ (fun hc => hip hc.symm)]

theorem chgArray_sub_ne_nil {A : List (List Nat)} (x : Nat) {pi qi i : Nat}
    (hiq : i ≠ qi) (hpi : pi < A.length)
    (hne : (chgArray A x pi qi).getD i [] ≠ []) : A.getD i [] ≠ [] := by
  by_cases hip : i = pi
  · by_cases hq : qi = pi
    · exact absurd (hip.trans hq.symm) hiq
    · rw [hip] at hne
      rw [chgArray_getD_pi x hq hpi] at hne
      rw [hip]
      intro hc
      rw [hc] at hne
      simp at hne
  · rw [chgArray_getD_other x hip hiq] at hne
    exact hne

theorem getD_set_cases (l : List (List Nat)) (j : Nat) (b : List Nat)
    (i : Nat) :
    (l.set j b).getD i [] = l.getD i [] ∨ (l.set j b).getD i [] = b := by
  by_cases hij : j = i
  · subst hij
    rcases lt_or_ge j l.length with hl | hl
    · exact Or.inr (getD_set_self _ hl)
    · rw [List.set_eq_of_length_le hl]
      exact Or.inl rfl
  · exact Or.inl (getD_set_ne _ hij)

theorem chgArray_nodup {A : List (List Nat)} (x pi qi : Nat)
    (hnd : ∀ i, (A.getD i []).Nodup) :
    ∀ i, ((chgArray A x pi qi).getD i []).Nodup := by
  intro i
  have h1 : ∀ j, ((A.set pi ((A.getD pi []).erase x)).getD j []).Nodup := by
    intro j
    rcases getD_set_cases A pi ((A.getD pi []).erase x) j with h | h
    · rw [h]; exact hnd j
    · rw [h]; exact (hnd pi).erase x
  unfold chgArray
  rcases getD_set_cases (A.set pi ((A.getD pi []).erase x)) qi
      (bucketAdd ((A.set pi ((A.getD pi []).erase x)).getD qi []) x) i with
    h | h
  · rw [h]; exact h1 i
  · rw [h]; exact bucketAdd_nodup (h1 qi)

theorem chgArray_mem_iff {A : List (List Nat)} {x pi qi : Nat}
    (hpi : pi < A.length) (hqi : qi < A.length)
    (hndpi : (A.getD pi []).Nodup)
    (hx1 : ∀ j, x ∈ A.getD j [] → j = pi) :
    ∀ i y, y ∈ (chgArray A x pi qi).getD i [] ↔
      ((y = x ∧ i = qi) ∨ (y ≠ x ∧ y ∈ A.getD i [])) := by
  have herase_mem : ∀ z, z ∈ (A.getD pi []).erase x ↔
      (z ≠ x ∧ z ∈ A.getD pi []) := by
    intro z
    constructor
    · intro hz
      have hzx : z ≠ x := fun hzx => hndpi.not_mem_erase (hzx ▸ hz)
      exact ⟨hzx, List.mem_of_mem_erase hz⟩
    · rintro ⟨hzx, hzm⟩
      exact (List.mem_erase_of_ne hzx).mpr hzm
  intro i y
  by_cases hiq : i = qi
  · rw [hiq]
    rw [chgArray_getD_qi x hqi, mem_bucketAdd]
    by_cases hqp : qi = pi
    · rw [hqp, getD_set_self _ hpi]
      constructor
      · rintro (hy | rfl)
        · obtain ⟨h1, h2⟩ := (herase_mem y).mp hy
          exact Or.inr ⟨h1, h2⟩
        · exact Or.inl ⟨rfl, rfl⟩
      · rintro (⟨rfl, -⟩ | ⟨h1, h2⟩)
        · exact Or.inr rfl
        · exact Or.inl ((herase_mem y).mpr ⟨h1, h2⟩)
    · rw [getD_set_ne _ (fun hc => hqp hc.symm)]
      constructor
      · rintro (hy | rfl)
        · refine Or.inr ⟨?_, hy⟩
          intro hyx
          exact hqp (hx1 qi (hyx ▸ hy))
        · exact Or.inl ⟨rfl, rfl⟩
      · rintro (⟨rfl, -⟩ | ⟨h1, h2⟩)
        · exact Or.inr rfl
        · exact Or.inl h2
  · by_cases hip : i = pi
    · have hqp : qi ≠ pi := fun hc => hiq (hip.trans hc.symm)
      rw [hip, chgArray_getD_pi x hqp hpi]
      constructor
      · intro hy
        obtain ⟨h1, h2⟩ := (herase_mem y).mp hy
        exact Or.inr ⟨h1, h2⟩
      · rintro (⟨rfl, hc⟩ | ⟨h1, h2⟩)
        · exact absurd hc (fun hc2 => hqp hc2.symm)
        · exact (herase_mem y).mpr ⟨h1, h2⟩
    · rw [chgArray_getD_other x hip hiq]
      constructor
      · intro hy
        refine Or.inr ⟨?_, hy⟩
        intro hyx
        exact hip (hx1 i (hyx ▸ hy))
      · rintro (⟨rfl, hc⟩ | ⟨h1, h2⟩)
        · exact absurd hc hiq
        · exact h2

/-- Shape of a successful `change_priority` on a queue satisfying the weak
invariant: the asserts passed, the element was present, the buckets become
`chgArray`, and the bounds end in one of four branch shapes (the rescans
never clear the bounds, because the bucket of the new priority is
non-empty). -/
theorem change_shape {st st1 : BucketQueue} {x p q : Nat}
    (hw : BQWeakInv st) (h : st.change_priority x p q = some st1) :
    ∃ lo gr,
      st.lowest = some lo ∧ st.greatest = some gr ∧
      (st.L ≤ p ∧ p ≤ st.C) ∧ (st.L ≤ q ∧ q ≤ st.C) ∧
      x ∈ st.A.getD (p - st.L) [] ∧
      st1.C = st.C ∧ st1.L = st.L ∧
      st1.A = chgArray st.A x (p - st.L) (q - st.L) ∧
      ((st1.A.getD (p - st.L) [] ≠ [] ∧
        st1.lowest = some (min (q - st.L) lo) ∧
        st1.greatest = some (max (q - st.L) gr)) ∨
       (st1.A.getD (p - st.L) [] = [] ∧ max (q - st.L) gr = p - st.L ∧
        ∃ r, scanDown st1.A (min (q - st.L) lo) (p - st.L) = some r ∧
          st1.lowest = some (min (q - st.L) lo) ∧ st1.greatest = some r) ∨
       (st1.A.getD (p - st.L) [] = [] ∧ max (q - st.L) gr ≠ p - st.L ∧
        min (q - st.L) lo = p - st.L ∧
        st1.lowest = some (scanUp st1.A (p - st.L)) ∧
        st1.greatest = some (max (q - st.L) gr) ∧
        ¬ max (q - st.L) gr < scanUp st1.A (p - st.L)) ∨
       (st1.A.getD (p - st.L) [] = [] ∧ max (q - st.L) gr ≠ p - st.L ∧
        min (q - st.L) lo ≠ p - st.L ∧
        st1.lowest = some (min (q - st.L) lo) ∧
        st1.greatest = some (max (q - st.L) gr))) := by
  by_cases hp : st.L ≤ p ∧ p ≤ st.C
  · by_cases hq : st.L ≤ q ∧ q ≤ st.C
    · by_cases hx : x ∈ st.A.getD (p - st.L) []
      · rw [change_priority_eq2 st x p q hp hq hx] at h
        have hlen := hw.hlen
        have hpilt : p - st.L < st.A.length := by omega
        have hqilt : q - st.L < st.A.length := by omega
        cases hlo : st.lowest with
        | none =>
          rw [hw.hempty hlo] at hx
          exact absurd hx (List.not_mem_nil x)
        | some lo =>
          cases hgr : st.greatest with
          | none => exact absurd (hw.hmatch.mpr hgr) (by simp [hlo])
          | some gr =>
            rw [update_bounds_some_eq
              { st with A := chgArray st.A x (p - st.L) (q - st.L) }
              (q - st.L) (some (p - st.L)) hlo hgr] at h
            dsimp only at h
            by_cases hpe :
                (chgArray st.A x (p - st.L) (q - st.L)).getD (p - st.L) [] = []
            · by_cases hgq : max (q - st.L) gr = p - st.L
              · cases hsd : scanDown (chgArray st.A x (p - st.L) (q - st.L))
                    (min (q - st.L) lo) (p - st.L) with
                | none =>
                  exfalso
                  have hqp : q - st.L ≤ p - st.L := by
                    have := le_max_left (q - st.L) gr
                    omega
                  have hemp := scanDown_none hsd (q - st.L)
                    (min_le_left _ _) hqp
                  exact chgArray_getD_qi_ne_nil x hqilt hemp
                | some r =>
                  rw [afterBounds_greatest_set_eq
                    { st with A := chgArray st.A x (p - st.L) (q - st.L), lowest := some (min (q - st.L) lo), greatest := some (max (q - st.L) gr) }
                    hpe (by rw [hgq] : _ = some (p - st.L)) rfl hsd] at h
                  cases h
                  exact ⟨lo, gr, rfl, rfl, hp, hq, hx, rfl, rfl, rfl,
                    Or.inr (Or.inl ⟨hpe, hgq, r, hsd, rfl, rfl⟩)⟩
              · by_cases hlq : min (q - st.L) lo = p - st.L
                · have hple : p - st.L ≤ q - st.L := by
                    have := min_le_left (q - st.L) lo
                    omega
                  have hrle :
                      scanUp (chgArray st.A x (p - st.L) (q - st.L))
                        (p - st.L) ≤ q - st.L := by
                    by_contra hc
                    push_neg at hc
                    have hemp := scanUpFrom_skipped (q - st.L) hple hc
                    exact chgArray_getD_qi_ne_nil x hqilt hemp
                  have hcmp : ¬ max (q - st.L) gr <
                      scanUp (chgArray st.A x (p - st.L) (q - st.L))
                        (p - st.L) := by
                    have := le_max_left (q - st.L) gr
                    omega
                  rw [afterBounds_lowest_set_eq
                    { st with A := chgArray st.A x (p - st.L) (q - st.L), lowest := some (min (q - st.L) lo), greatest := some (max (q - st.L) gr) }
                    hpe (fun hc => hgq (Option.some.inj hc))
                    (by rw [hlq] : _ = some (p - st.L)) rfl hcmp] at h
                  cases h
                  exact ⟨lo, gr, rfl, rfl, hp, hq, hx, rfl, rfl, rfl,
                    Or.inr (Or.inr (Or.inl ⟨hpe, hgq, hlq, rfl, rfl, hcmp⟩))⟩
                · rw [afterBounds_else_eq
                    { st with A := chgArray st.A x (p - st.L) (q - st.L), lowest := some (min (q - st.L) lo), greatest := some (max (q - st.L) gr) }
                    hpe (fun hc => hgq (Option.some.inj hc))
                    (fun hc => hlq (Option.some.inj hc))] at h
                  cases h
                  exact ⟨lo, gr, rfl, rfl, hp, hq, hx, rfl, rfl, rfl,
                    Or.inr (Or.inr (Or.inr ⟨hpe, hgq, hlq, rfl, rfl⟩))⟩
            · rw [afterBounds_nonempty_eq
                { st with A := chgArray st.A x (p - st.L) (q - st.L), lowest := some (min (q - st.L) lo), greatest := some (max (q - st.L) gr) }
                (p - st.L) hpe] at h
              cases h
              exact ⟨lo, gr, rfl, rfl, hp, hq, hx, rfl, rfl, rfl,
                Or.inl ⟨hpe, rfl, rfl⟩⟩
      · rw [change_priority_nomem_eq st x p q hp hq hx] at h
        cases h
    · rw [change_priority_noq_eq st x p q hp hq] at h
      cases h
  · rw [change_priority_nop_eq st x p q hp] at h
    cases h

theorem change_weak {st st1 : BucketQueue} {x p q : Nat}
    (h : st.change_priority x p q = some st1) (hw : BQWeakInv st) :
    BQWeakInv st1 := by
  obtain ⟨lo, gr, hlo, hgr, hp, hq, hx, hC, hL, hA, hshape⟩ := change_shape hw h
  have hlen := hw.hlen
  have hpilt : p - st.L < st.A.length := by omega
  have hqilt : q - st.L < st.A.length := by omega
  obtain ⟨hord1, hord2⟩ := hw.horder lo gr hlo hgr
  have hbne : st.A.getD (p - st.L) [] ≠ [] := by
    intro hc
    rw [hc] at hx
    exact List.not_mem_nil x hx
  obtain ⟨hblo, hbgr⟩ := hw.hbracket lo gr hlo hgr _ hbne
  have hlen1 : st1.A.length = st.A.length := by rw [hA, chgArray_length]
  have hbr : ∀ i, st1.A.getD i [] ≠ [] →
      min (q - st.L) lo ≤ i ∧ i ≤ max (q - st.L) gr := by
    intro i hne
    by_cases hiq : i = q - st.L
    · subst hiq
      exact ⟨min_le_left _ _, le_max_left _ _⟩
    · rw [hA] at hne
      have hone := chgArray_sub_ne_nil x hiq hpilt hne
      obtain ⟨h1, h2⟩ := hw.hbracket lo gr hlo hgr i hone
      exact ⟨le_trans (min_le_right _ _) h1, le_trans h2 (le_max_right _ _)⟩
  have hLC1 : st1.L ≤ st1.C := by
    rw [hC, hL]
    exact hw.hLC
  have hlenw : st1.A.length = st1.C + 1 - st1.L := by
    rw [hlen1, hC, hL]
    exact hlen
  have hminlo := min_le_right (q - st.L) lo
  have hmaxgr := le_max_right (q - st.L) gr
  have hmaxqi := le_max_left (q - st.L) gr
  rcases hshape with ⟨hpne, hlo1, hgr1⟩ | ⟨hpe, hgq, r, hsd, hlo1, hgr1⟩ |
    ⟨hpe, hgq, hlq, hlo1, hgr1, hcmp⟩ | ⟨hpe, hgq, hlq, hlo1, hgr1⟩
  · refine ⟨hlenw, hLC1, by simp [hlo1, hgr1], ?_, ?_, ?_⟩
    · intro hc
      rw [hlo1] at hc
      cases hc
    · intro lo2 gr2 h1 h2
      rw [hlo1] at h1
      rw [hgr1] at h2
      cases h1
      cases h2
      rw [hC, hL]
      constructor
      · omega
      · simp only [max_le_iff]
        omega
    · intro lo2 gr2 h1 h2 i hne
      rw [hlo1] at h1
      rw [hgr1] at h2
      cases h1
      cases h2
      exact hbr i hne
  · obtain ⟨hr1, hr2, hr3, hr4⟩ := scanDown_some hsd
    refine ⟨hlenw, hLC1, by simp [hlo1, hgr1], ?_, ?_, ?_⟩
    · intro hc
      rw [hlo1] at hc
      cases hc
    · intro lo2 gr2 h1 h2
      rw [hlo1] at h1
      rw [hgr1] at h2
      cases h1
      cases h2
      rw [hC, hL]
      constructor
      · exact hr1
      · omega
    · intro lo2 gr2 h1 h2 i hne
      rw [hlo1] at h1
      rw [hgr1] at h2
      cases h1
      cases h2
      refine ⟨(hbr i hne).1, ?_⟩
      by_contra hc
      push_neg at hc
      have hile : i ≤ p - st.L := by
        have := (hbr i hne).2
        omega
      exact hne (hr4 i hc hile)
  · have hrge : p - st.L ≤ scanUp st1.A (p - st.L) := scanUpFrom_ge
    refine ⟨hlenw, hLC1, by simp [hlo1, hgr1], ?_, ?_, ?_⟩
    · intro hc
      rw [hlo1] at hc
      cases hc
    · intro lo2 gr2 h1 h2
      rw [hlo1] at h1
      rw [hgr1] at h2
      cases h1
      cases h2
      rw [hC, hL]
      constructor
      · omega
      · simp only [max_le_iff]
        omega
    · intro lo2 gr2 h1 h2 i hne
      rw [hlo1] at h1
      rw [hgr1] at h2
      cases h1
      cases h2
      refine ⟨?_, (hbr i hne).2⟩
      by_contra hc
      push_neg at hc
      have hpile : p - st.L ≤ i := by
        have := (hbr i hne).1
        omega
      exact hne (scanUpFrom_skipped i hpile hc)
  · refine ⟨hlenw, hLC1, by simp [hlo1, hgr1], ?_, ?_, ?_⟩
    · intro hc
      rw [hlo1] at hc
      cases hc
    · intro lo2 gr2 h1 h2
      rw [hlo1] at h1
      rw [hgr1] at h2
      cases h1
      cases h2
      rw [hC, hL]
      constructor
      · omega
      · simp only [max_le_iff]
        omega
    · intro lo2 gr2 h1 h2 i hne
      rw [hlo1] at h1
      rw [hgr1] at h2
      cases h1
      cases h2
      exact hbr i hne

theorem change_strong {st st1 : BucketQueue} {x p q : Nat}
    (h : st.change_priority x p q = some st1) (hs : BQStrongInv st) :
    BQStrongInv st1 := by
  have hw := hs.toBQWeakInv
  have hwk := change_weak h hw
  obtain ⟨lo, gr, hlo, hgr, hp, hq, hx, hC, hL, hA, hshape⟩ := change_shape hw h
  have hlen := hw.hlen
  have hpilt : p - st.L < st.A.length := by omega
  have hqilt : q - st.L < st.A.length := by omega
  have hqbne : st1.A.getD (q - st.L) [] ≠ [] := by
    rw [hA]
    exact chgArray_getD_qi_ne_nil x hqilt
  have hother : ∀ i, i ≠ p - st.L → i ≠ q - st.L →
      st1.A.getD i [] = st.A.getD i [] := by
    intro i h1 h2
    rw [hA]
    exact chgArray_getD_other x h1 h2
  rcases hshape with ⟨hpne, hlo1, hgr1⟩ | ⟨hpe, hgq, r, hsd, hlo1, hgr1⟩ |
    ⟨hpe, hgq, hlq, hlo1, hgr1, hcmp⟩ | ⟨hpe, hgq, hlq, hlo1, hgr1⟩
  · refine ⟨hwk, ?_, ?_⟩
    · intro lo2 h1
      rw [hlo1] at h1
      cases h1
      rcases Nat.le_total (q - st.L) lo with hc | hc
      · rw [min_eq_left hc]
        exact hqbne
      · rw [min_eq_right hc]
        by_cases hlqq : lo = q - st.L
        · rw [hlqq]
          exact hqbne
        · by_cases hlp : lo = p - st.L
          · rw [hlp]
            exact hpne
          · rw [hother lo hlp hlqq]
            exact hs.hlowne lo hlo
    · intro gr2 h1
      rw [hgr1] at h1
      cases h1
      rcases Nat.le_total gr (q - st.L) with hc | hc
      · rw [max_eq_left hc]
        exact hqbne
      · rw [max_eq_right hc]
        by_cases hgqq : gr = q - st.L
        · rw [hgqq]
          exact hqbne
        · by_cases hgp : gr = p - st.L
          · rw [hgp]
            exact hpne
          · rw [hother gr hgp hgqq]
            exact hs.hgrne gr hgr
  · obtain ⟨hr1, hr2, hr3, hr4⟩ := scanDown_some hsd
    refine ⟨hwk, ?_, ?_⟩
    · intro lo2 h1
      rw [hlo1] at h1
      cases h1
      rcases Nat.le_total (q - st.L) lo with hc | hc
      · rw [min_eq_left hc]
        exact hqbne
      · rw [min_eq_right hc]
        by_cases hlqq : lo = q - st.L
        · rw [hlqq]
          exact hqbne
        · by_cases hlp : lo = p - st.L
          · exfalso
            have hqle : q - st.L ≤ p - st.L := by
              have := le_max_left (q - st.L) gr
              omega
            have : q - st.L = lo := by omega
            exact hlqq this.symm
          · rw [hother lo hlp hlqq]
            exact hs.hlowne lo hlo
    · intro gr2 h1
      rw [hgr1] at h1
      cases h1
      exact hr3
  · refine ⟨hwk, ?_, ?_⟩
    · intro lo2 h1
      rw [hlo1] at h1
      cases h1
      have hrle : scanUp st1.A (p - st.L) ≤ q - st.L := by
        by_contra hc
        push_neg at hc
        have hple : p - st.L ≤ q - st.L := by
          have := min_le_left (q - st.L) lo
          omega
        exact hqbne (scanUpFrom_skipped (q - st.L) hple hc)
      have hlen1 : st1.A.length = st.A.length := by rw [hA, chgArray_length]
      rw [scanUp] at hrle ⊢
      apply scanUpFrom_stop
      omega
    · intro gr2 h1
      rw [hgr1] at h1
      cases h1
      rcases Nat.le_total gr (q - st.L) with hc | hc
      · rw [max_eq_left hc]
        exact hqbne
      · rw [max_eq_right hc]
        by_cases hgqq : gr = q - st.L
        · rw [hgqq]
          exact hqbne
        · by_cases hgp : gr = p - st.L
          · exfalso
            apply hgq
            rw [max_eq_right hc, hgp]
          · rw [hother gr hgp hgqq]
            exact hs.hgrne gr hgr
  · refine ⟨hwk, ?_, ?_⟩
    · intro lo2 h1
      rw [hlo1] at h1
      cases h1
      rcases Nat.le_total (q - st.L) lo with hc | hc
      · rw [min_eq_left hc]
        exact hqbne
      · rw [min_eq_right hc]
        by_cases hlqq : lo = q - st.L
        · rw [hlqq]
          exact hqbne
        · by_cases hlp : lo = p - st.L
          · exfalso
            apply hlq
            rw [min_eq_right hc, hlp]
          · rw [hother lo hlp hlqq]
            exact hs.hlowne lo hlo
    · intro gr2 h1
      rw [hgr1] at h1
      cases h1
      rcases Nat.le_total gr (q - st.L) with hc | hc
      · rw [max_eq_left hc]
        exact hqbne
      · rw [max_eq_right hc]
        by_cases hgqq : gr = q - st.L
        · rw [hgqq]
          exact hqbne
        · by_cases hgp : gr = p - st.L
          · exfalso
            apply hgq
            rw [max_eq_right hc, hgp]
          · rw [hother gr hgp hgqq]
            exact hs.hgrne gr hgr

theorem find_highest_weak {st stf : BucketQueue}
    (h : st.find_highest = some stf) (hw : BQWeakInv st) : BQWeakInv stf := by
  obtain ⟨hfA, hfC, hfL, hcase⟩ := find_highest_inv h
  rcases hcase with ⟨_, _, heq⟩ | ⟨lo, gr, r, hlo, hgr, hsd, heq⟩ |
    ⟨lo, gr, hlo, hgr, hsd, heq⟩
  · rw [heq]; exact hw
  · obtain ⟨hr1, hr2, hr3, hr4⟩ := scanDown_some hsd
    obtain ⟨hor1, hor2⟩ := hw.horder lo gr hlo hgr
    subst heq
    refine ⟨hw.hlen, hw.hLC, ?_, ?_, ?_, ?_⟩
    · constructor
      · intro h1; rw [hlo] at h1; cases h1
      · intro h1; cases h1
    · intro h1; rw [hlo] at h1; cases h1
    · intro lo2 gr2 h1 h2
      rw [hlo] at h1
      cases h1
      cases h2
      exact ⟨hr1, by omega⟩
    · intro lo2 gr2 h1 h2 i hne
      rw [hlo] at h1
      cases h1
      cases h2
      obtain ⟨hb1, hb2⟩ := hw.hbracket lo gr hlo hgr i hne
      refine ⟨hb1, ?_⟩
      by_contra hc
      push_neg at hc
      exact hne (hr4 i hc hb2)
  · have hall : ∀ i, st.A.getD i [] = [] := by
      intro i
      by_contra hne
      obtain ⟨hb1, hb2⟩ := hw.hbracket lo gr hlo hgr i hne
      exact hne (scanDown_none hsd i hb1 hb2)
    subst heq
    refine ⟨hw.hlen, hw.hLC, ?_, ?_, ?_, ?_⟩
    · exact ⟨fun _ => rfl, fun _ => rfl⟩
    · intro _ i; exact hall i
    · intro lo2 gr2 h1 h2; cases h1
    · intro lo2 gr2 h1 h2; cases h1

theorem find_lowest_weak {st stf : BucketQueue}
    (h : st.find_lowest = some stf) (hw : BQWeakInv st) : BQWeakInv stf := by
  obtain ⟨hfA, hfC, hfL, hcase⟩ := find_lowest_inv h
  rcases hcase with ⟨_, _, heq⟩ | ⟨lo, gr, r, hlo, hgr, hsu, heq⟩ |
    ⟨lo, gr, hlo, hgr, hsu, heq⟩
  · rw [heq]; exact hw
  · obtain ⟨hor1, hor2⟩ := hw.horder lo gr hlo hgr
    obtain ⟨hr1, hr2, hr3, hr4⟩ := scanUpToAux_some hsu
    subst heq
    refine ⟨hw.hlen, hw.hLC, ?_, ?_, ?_, ?_⟩
    · constructor
      · intro h1; cases h1
      · intro h1; rw [hgr] at h1; cases h1
    · intro h1; cases h1
    · intro lo2 gr2 h1 h2
      rw [hgr] at h2
      cases h1
      cases h2
      exact ⟨by omega, hor2⟩
    · intro lo2 gr2 h1 h2 i hne
      rw [hgr] at h2
      cases h1
      cases h2
      obtain ⟨hb1, hb2⟩ := hw.hbracket lo gr hlo hgr i hne
      refine ⟨?_, hb2⟩
      by_contra hc
      push_neg at hc
      exact hne (hr4 i hb1 hc)
  · have hall : ∀ i, st.A.getD i [] = [] := by
      intro i
      by_contra hne
      obtain ⟨hb1, hb2⟩ := hw.hbracket lo gr hlo hgr i hne
      obtain ⟨hor1, hor2⟩ := hw.horder lo gr hlo hgr
      exact hne (scanUpToAux_none hsu i hb1 (by omega))
    subst heq
    refine ⟨hw.hlen, hw.hLC, ?_, ?_, ?_, ?_⟩
    · exact ⟨fun _ => rfl, fun _ => rfl⟩
    · intro _ i; exact hall i
    · intro lo2 gr2 h1 h2; cases h1
    · intro lo2 gr2 h1 h2; cases h1

theorem extract_max_weak {st st1 : BucketQueue} {r : Option Nat}
    (h : st.extract_max = some (r, st1)) (hw : BQWeakInv st) :
    BQWeakInv st1 := by
  obtain ⟨stf, hf, hcase⟩ := extract_max_inv h
  have hwf := find_highest_weak hf hw
  rcases hcase with ⟨_, heq, _⟩ | ⟨x, g, rest, hr, hgr, hb, heq⟩
  · rw [heq]; exact hwf
  · obtain ⟨lo, hlo⟩ : ∃ lo, stf.lowest = some lo := by
      cases hl : stf.lowest with
      | none => rw [hwf.hmatch.mp hl] at hgr; cases hgr
      | some lo => exact ⟨lo, rfl⟩
    obtain ⟨hor1, hor2⟩ := hwf.horder lo g hlo hgr
    subst heq
    refine ⟨?_, hwf.hLC, hwf.hmatch, ?_, hwf.horder, ?_⟩
    · dsimp only
      rw [List.length_set]
      exact hwf.hlen
    · intro h1; rw [hlo] at h1; cases h1
    · intro lo2 gr2 h1 h2 i hne
      dsimp only at h1 h2 hne
      rw [hlo] at h1
      rw [hgr] at h2
      cases h1
      cases h2
      by_cases hig : i = g
      · exact ⟨by omega, by omega⟩
      · rw [getD_set_ne rest (fun hh => hig hh.symm)] at hne
        exact hwf.hbracket lo g hlo hgr i hne

theorem extract_min_weak {st st1 : BucketQueue} {r : Option Nat}
    (h : st.extract_min = some (r, st1)) (hw : BQWeakInv st) :
    BQWeakInv st1 := by
  obtain ⟨stf, hf, hcase⟩ := extract_min_inv h
  have hwf := find_lowest_weak hf hw
  rcases hcase with ⟨_, heq, _⟩ | ⟨x, l, rest, hr, hlo, hb, heq⟩
  · rw [heq]; exact hwf
  · obtain ⟨gr, hgr⟩ : ∃ gr, stf.greatest = some gr := by
      cases hg : stf.greatest with
      | none => rw [hwf.hmatch.mpr hg] at hlo; cases hlo
      | some gr => exact ⟨gr, rfl⟩
    obtain ⟨hor1, hor2⟩ := hwf.horder l gr hlo hgr
    subst heq
    refine ⟨?_, hwf.hLC, hwf.hmatch, ?_, hwf.horder, ?_⟩
    · dsimp only
      rw [List.length_set]
      exact hwf.hlen
    · intro h1; rw [hlo] at h1; cases h1
    · intro lo2 gr2 h1 h2 i hne
      dsimp only at h1 h2 hne
      rw [hlo] at h1
      rw [hgr] at h2
      cases h1
      cases h2
      by_cases hil : i = l
      · exact ⟨by omega, by omega⟩
      · rw [getD_set_ne rest (fun hh => hil hh.symm)] at hne
        exact hwf.hbracket l gr hlo hgr i hne

theorem make_strong {C L : Nat} (h : L ≤ C) :
    BQStrongInv (BucketQueue.make C L) := by
  refine ⟨⟨?_, h, ?_, ?_, ?_, ?_⟩, ?_, ?_⟩
  · simp [BucketQueue.make]
  · exact ⟨fun _ => rfl, fun _ => rfl⟩
  · intro _ i
    exact getD_replicate_nil
  · intro lo gr h1 h2; cases h1
  · intro lo gr h1 h2; cases h1
  · intro lo h1; cases h1
  · intro gr h1; cases h1

theorem ReachIC_strong {st : BucketQueue} (h : ReachIC st) : BQStrongInv st := by
  induction h with
  | base C L hLC => exact make_strong hLC
  | ins _ hop ih => exact insert_strong hop ih
  | chg _ hop ih => exact change_strong hop ih

theorem ReachBQ_weak {st : BucketQueue} (h : ReachBQ st) : BQWeakInv st := by
  induction h with
  | base C L hLC => exact (make_strong hLC).toBQWeakInv
  | ins _ hop ih => exact insert_weak hop ih
  | chg _ hop ih => exact change_weak hop ih
  | exMax _ hop ih => exact extract_max_weak hop ih
  | exMin _ hop ih => exact extract_min_weak hop ih

/-- C2: for every BucketQueue created with `L ≤ C`, after any successful
sequence of `insert` and `change_priority` calls (success enforces the
preconditions: priorities within `[L, C]`, and for `change_priority` the
element present at the stated old priority), whenever the bounds `lowest` and
`greatest` are present, the bucket at `lowest` and the bucket at `greatest`
are both non-empty and every bucket at an index outside `[lowest, greatest]`
is empty. -/
theorem bound_invariant_spec {st : BucketQueue} (h : ReachIC st) :
    ∀ lo gr, st.lowest = some lo → st.greatest = some gr →
      st.A.getD lo [] ≠ [] ∧ st.A.getD gr [] ≠ [] ∧
      ∀ i, i < lo ∨ gr < i → st.A.getD i [] = [] := by
  have hs := ReachIC_strong h
  intro lo gr hlo hgr
  refine ⟨hs.hlowne lo hlo, hs.hgrne gr hgr, ?_⟩
  intro i hi
  by_contra hne
  have := hs.hbracket lo gr hlo hgr i hne
  omega

theorem bound_invariant_spec_witness :
    ({ C := 2, L := 1, A := [[5], []], lowest := some 0, greatest := some 0 :
        BucketQueue }).A.getD 0 [] ≠ [] ∧
    ({ C := 2, L := 1, A := [[5], []], lowest := some 0, greatest := some 0 :
        BucketQueue }).A.getD 1 [] = [] := by
  have hins : (BucketQueue.make 2 1).insert 5 1 =
      some { C := 2, L := 1, A := [[5], []], lowest := some 0, greatest := some 0 } := by decide
  have hr := ReachIC.ins (ReachIC.base 2 1 (by decide)) hins
  obtain ⟨h1, h2, h3⟩ := bound_invariant_spec hr 0 0 rfl rfl
  exact ⟨h1, h3 1 (Or.inr (by decide))⟩

/-- C9: across every successful sequence of the four public operations, the
queue keeps the weaker bracketing invariant: the bounds are both present or
both absent; when absent every bucket is empty; when present the index of
every non-empty bucket lies within `[lowest, greatest]` (the bound buckets
themselves may be empty after an extraction). -/
theorem lazy_invariant_spec {st : BucketQueue} (h : ReachBQ st) :
    (st.lowest = none ↔ st.greatest = none) ∧
    (st.lowest = none → ∀ i, st.A.getD i [] = []) ∧
    (∀ lo gr, st.lowest = some lo → st.greatest = some gr →
      ∀ i, st.A.getD i [] ≠ [] → lo ≤ i ∧ i ≤ gr) := by
  have hw := ReachBQ_weak h
  exact ⟨hw.hmatch, hw.hempty, hw.hbracket⟩

theorem lazy_invariant_spec_witness :
    (({ C := 2, L := 1, A := [[1], []], lowest := some 0, greatest := some 1 :
        BucketQueue }).lowest = none ↔
     ({ C := 2, L := 1, A := [[1], []], lowest := some 0, greatest := some 1 :
        BucketQueue }).greatest = none) ∧
    ((0 : Nat) ≤ 0 ∧ (0 : Nat) ≤ 1) := by
  have h1 : (BucketQueue.make 2 1).insert 1 1 =
      some { C := 2, L := 1, A := [[1], []], lowest := some 0, greatest := some 0 } := by decide
  have h2 : ({ C := 2, L := 1, A := [[1], []], lowest := some 0, greatest := some 0 : BucketQueue }).insert 2 2 =
      some { C := 2, L := 1, A := [[1], [2]], lowest := some 0, greatest := some 1 } := by decide
  have h3 : ({ C := 2, L := 1, A := [[1], [2]], lowest := some 0, greatest := some 1 : BucketQueue }).extract_max =
      some (some 2, { C := 2, L := 1, A := [[1], []], lowest := some 0, greatest := some 1 }) := by decide
  have hr := ReachBQ.exMax
    (ReachBQ.ins (ReachBQ.ins (ReachBQ.base 2 1 (by decide)) h1) h2) h3
  obtain ⟨ha, hb, hc⟩ := lazy_invariant_spec hr
  exact ⟨ha, hc 0 1 rfl rfl 0 (by decide)⟩

/-! Dictionary lemmas for the coverage bookkeeping of `set_cover_greedy`. -/

theorem getD_set_self2 {α : Type} {l : List α} {i : Nat} (b d : α)
    (h : i < l.length) : (l.set i b).getD i d = b := by
  simp [List.getD_eq_getElem?_getD, List.getElem?_set_self, h]

theorem getD_set_ne2 {α : Type} {l : List α} {i j : Nat} (b d : α)
    (h : i ≠ j) : (l.set i b).getD j d = l.getD j d := by
  rw [List.getD_eq_getElem?_getD, List.getElem?_set_ne h,
    ← List.getD_eq_getElem?_getD]

theorem getD_len_le2 {α : Type} {l : List α} {i : Nat} (d : α)
    (h : l.length ≤ i) : l.getD i d = d := by
  rw [List.getD_eq_getElem?_getD, List.getElem?_eq_none h]
  rfl

theorem dget_cons (kv : Nat × Bool) (rest : List (Nat × Bool)) (e : Nat)
    (d : Bool) :
    dget (kv :: rest) e d = if kv.1 = e then kv.2 else dget rest e d := by
  by_cases hk : kv.1 = e
  · rw [dget, List.find?_cons_of_pos _ (by simpa using hk), if_pos hk]
  · rw [dget, List.find?_cons_of_neg _ (by simpa using hk), if_neg hk]
    rfl

theorem dset_cons (kv : Nat × Bool) (rest : List (Nat × Bool)) (e : Nat)
    (b : Bool) :
    dset (kv :: rest) e b =
      (if kv.1 = e then (kv.1, b) else kv) :: dset rest e b := rfl

theorem dmem_iff {m : List (Nat × Bool)} {e : Nat} :
    dmem m e = true ↔ e ∈ m.map Prod.fst := by
  simp only [dmem, List.any_eq_true, decide_eq_true_eq, List.mem_map]

theorem dget_of_dmem_false {m : List (Nat × Bool)} {e : Nat} (d : Bool)
    (h : dmem m e = false) : dget m e d = d := by
  have h2 : m.find? (fun kv => kv.1 = e) = none := by
    rw [List.find?_eq_none]
    intro kv hkv
    simp only [decide_eq_true_eq]
    intro hc
    rw [dmem_iff.mpr (List.mem_map.mpr ⟨kv, hkv, hc⟩)] at h
    cases h
  rw [dget, h2]

theorem dget_false_entry {m : List (Nat × Bool)} {e : Nat}
    (h : dget m e true = false) :
    ∃ kv ∈ m, kv.1 = e ∧ kv.2 = false := by
  rw [dget] at h
  cases hf : m.find? (fun kv => kv.1 = e) with
  | none => rw [hf] at h; cases h
  | some kv =>
    rw [hf] at h
    have h1 := List.mem_of_find?_eq_some hf
    have h2 := List.find?_some hf
    simp only [decide_eq_true_eq] at h2
    exact ⟨kv, h1, h2, h⟩

theorem dmem_of_dget_false {m : List (Nat × Bool)} {e : Nat}
    (h : dget m e true = false) : dmem m e = true := by
  obtain ⟨kv, hkv, h1, _⟩ := dget_false_entry h
  exact dmem_iff.mpr (List.mem_map.mpr ⟨kv, hkv, h1⟩)

theorem dset_map_fst (m : List (Nat × Bool)) (e : Nat) (b : Bool) :
    (dset m e b).map Prod.fst = m.map Prod.fst := by
  rw [dset, List.map_map]
  apply List.map_congr_left
  intro kv _
  by_cases h : kv.1 = e <;> simp [h]

theorem dset_of_no_key {m : List (Nat × Bool)} {e : Nat} (b : Bool)
    (h : ∀ kv ∈ m, kv.1 ≠ e) : dset m e b = m := by
  rw [dset]
  conv_rhs => rw [← List.map_id m]
  apply List.map_congr_left
  intro kv hkv
  rw [if_neg (h kv hkv)]
  rfl

theorem dget_dset_ne {m : List (Nat × Bool)} {e e' : Nat} (b d : Bool)
    (h : e' ≠ e) : dget (dset m e b) e' d = dget m e' d := by
  induction m with
  | nil => rfl
  | cons kv rest ih =>
    have h2 : ¬ e = e' := fun hc => h hc.symm
    by_cases hke : kv.1 = e
    · have hk : ¬ kv.1 = e' := fun hc => h (by rw [← hc, hke])
      simp [dset_cons, dget_cons, hke, hk, h2, ih]
    · by_cases hk : kv.1 = e'
      · simp [dset_cons, dget_cons, hke, hk, h, h2]
      · simp [dset_cons, dget_cons, hke, hk, ih]

theorem dget_dset_self (m : List (Nat × Bool)) (e : Nat) :
    dget (dset m e true) e true = true := by
  induction m with
  | nil => rfl
  | cons kv rest ih =>
    by_cases hk : kv.1 = e <;> simp [dset_cons, dget_cons, hk, ih]

theorem dget_dset_mono {m : List (Nat × Bool)} {e e' : Nat}
    (h : dget m e' true = true) : dget (dset m e true) e' true = true := by
  by_cases he : e' = e
  · rw [he]
    exact dget_dset_self m e
  · rw [dget_dset_ne _ _ he]
    exact h

theorem countFalse_pos {m : List (Nat × Bool)} {e : Nat}
    (h : dget m e true = false) :
    1 ≤ (m.filter (fun kv => kv.2 = false)).length := by
  obtain ⟨kv, hkv, _, h2⟩ := dget_false_entry h
  have hm : kv ∈ m.filter (fun kv => kv.2 = false) :=
    List.mem_filter.mpr ⟨hkv, by simp [h2]⟩
  exact List.length_pos.mpr (List.ne_nil_of_mem hm)

theorem dget_of_entry {m : List (Nat × Bool)} {e : Nat} {b : Bool}
    (hnd : (m.map Prod.fst).Nodup) (h : (e, b) ∈ m) : dget m e true = b := by
  induction m with
  | nil => cases h
  | cons kv rest ih =>
    rw [List.map_cons, List.nodup_cons] at hnd
    cases h with
    | head => rw [dget_cons, if_pos rfl]
    | tail _ h2 =>
      have hk : kv.1 ≠ e := by
        intro hc
        exact hnd.1 (hc ▸ List.mem_map.mpr ⟨(e, b), h2, rfl⟩)
      rw [dget_cons, if_neg hk]
      exact ih hnd.2 h2

theorem countFalse_witness {m : List (Nat × Bool)}
    (hnd : (m.map Prod.fst).Nodup)
    (h : 0 < (m.filter (fun kv => kv.2 = false)).length) :
    ∃ e, dmem m e = true ∧ dget m e true = false := by
  have hne : m.filter (fun kv => kv.2 = false) ≠ [] := by
    intro hc
    rw [hc] at h
    cases h
  obtain ⟨kv, hkv⟩ := List.exists_mem_of_ne_nil _ hne
  have h1 := List.mem_filter.mp hkv
  have h2 : kv.2 = false := by simpa using h1.2
  refine ⟨kv.1, dmem_iff.mpr (List.mem_map.mpr ⟨kv, h1.1, rfl⟩), ?_⟩
  have := dget_of_entry hnd (show (kv.1, kv.2) ∈ m by simpa using h1.1)
  rw [this, h2]

theorem countFalse_zero {m : List (Nat × Bool)} {e : Nat}
    (h : (m.filter (fun kv => kv.2 = false)).length = 0)
    (hm : dmem m e = true) : dget m e true = true := by
  cases hd : dget m e true with
  | true => rfl
  | false =>
    have := countFalse_pos hd
    omega

theorem countFalse_dset {m : List (Nat × Bool)} {e : Nat}
    (hnd : (m.map Prod.fst).Nodup) (h : dget m e true = false) :
    ((dset m e true).filter (fun kv => kv.2 = false)).length =
      (m.filter (fun kv => kv.2 = false)).length - 1 := by
  induction m with
  | nil => cases h
  | cons kv rest ih =>
    rw [List.map_cons, List.nodup_cons] at hnd
    rw [dget_cons] at h
    by_cases hk : kv.1 = e
    · rw [if_pos hk] at h
      have hrest : dset rest e true = rest := by
        apply dset_of_no_key
        intro kv2 hkv2 hc
        exact hnd.1 (hk ▸ hc ▸ List.mem_map.mpr ⟨kv2, hkv2, rfl⟩)
      rw [dset_cons, if_pos hk, hrest, List.filter_cons, List.filter_cons]
      simp [h]
    · rw [if_neg hk] at h
      have h1 := countFalse_pos h
      have ih2 := ih hnd.2 h
      rw [dset_cons, if_neg hk, List.filter_cons, List.filter_cons]
      cases hv : kv.2 with
      | false =>
        simp only [hv]
        rw [if_pos (by decide), if_pos (by decide), List.length_cons,
          List.length_cons]
        omega
      | true =>
        try simp only [hv]
        rw [if_neg (by decide), if_neg (by decide)]
        exact ih2

theorem markAll_cons (e : Nat) (es : List Nat) (m : List (Nat × Bool))
    (n : Nat) :
    markAll (e :: es) m n =
      if dget m e true = false then markAll es (dset m e true) (n - 1)
      else markAll es m n := rfl

theorem markAll_map_fst (es : List Nat) :
    ∀ (m : List (Nat × Bool)) (n : Nat),
      (markAll es m n).1.map Prod.fst = m.map Prod.fst := by
  induction es with
  | nil => intro m n; rfl
  | cons e es ih =>
    intro m n
    rw [markAll_cons]
    by_cases hd : dget m e true = false
    · rw [if_pos hd, ih, dset_map_fst]
    · rw [if_neg hd, ih]

theorem markAll_le (es : List Nat) :
    ∀ (m : List (Nat × Bool)) (n : Nat), (markAll es m n).2 ≤ n := by
  induction es with
  | nil => intro m n; exact Nat.le_refl n
  | cons e es ih =>
    intro m n
    rw [markAll_cons]
    by_cases hd : dget m e true = false
    · rw [if_pos hd]
      have := ih (dset m e true) (n - 1)
      omega
    · rw [if_neg hd]
      exact ih m n

theorem markAll_count (es : List Nat) :
    ∀ (m : List (Nat × Bool)) (n : Nat), (m.map Prod.fst).Nodup →
      n = (m.filter (fun kv => kv.2 = false)).length →
      (markAll es m n).2 =
        ((markAll es m n).1.filter (fun kv => kv.2 = false)).length := by
  induction es with
  | nil => intro m n _ hn; exact hn
  | cons e es ih =>
    intro m n hnd hn
    rw [markAll_cons]
    by_cases hd : dget m e true = false
    · rw [if_pos hd]
      refine ih (dset m e true) (n - 1) ?_ ?_
      · rw [dset_map_fst]; exact hnd
      · rw [countFalse_dset hnd hd, hn]
    · rw [if_neg hd]
      exact ih m n hnd hn

theorem markAll_mono (es : List Nat) :
    ∀ (m : List (Nat × Bool)) (n : Nat) (e' : Nat),
      dget m e' true = true → dget (markAll es m n).1 e' true = true := by
  induction es with
  | nil => intro m n e' h; exact h
  | cons e es ih =>
    intro m n e' h
    rw [markAll_cons]
    by_cases hd : dget m e true = false
    · rw [if_pos hd]
      exact ih _ _ _ (dget_dset_mono h)
    · rw [if_neg hd]
      exact ih _ _ _ h

theorem markAll_covers (es : List Nat) :
    ∀ (m : List (Nat × Bool)) (n : Nat), ∀ e ∈ es,
      dget (markAll es m n).1 e true = true := by
  induction es with
  | nil => intro m n e h; cases h
  | cons e0 es ih =>
    intro m n e h
    rw [markAll_cons]
    cases h with
    | head =>
      by_cases hd : dget m e0 true = false
      · rw [if_pos hd]
        exact markAll_mono es _ _ _ (dget_dset_self m e0)
      · rw [if_neg hd]
        have h2 : dget m e0 true = true := by
          cases hv : dget m e0 true with
          | true => rfl
          | false => exact absurd hv hd
        exact markAll_mono es _ _ _ h2
    | tail _ h2 =>
      by_cases hd : dget m e0 true = false
      · rw [if_pos hd]
        exact ih _ _ e h2
      · rw [if_neg hd]
        exact ih _ _ e h2

theorem markAll_source (es : List Nat) :
    ∀ (m : List (Nat × Bool)) (n : Nat) (e' : Nat),
      dget (markAll es m n).1 e' true = true →
      dget m e' true = true ∨ e' ∈ es := by
  induction es with
  | nil => intro m n e' h; exact Or.inl h
  | cons e es ih =>
    intro m n e' h
    rw [markAll_cons] at h
    by_cases hd : dget m e true = false
    · rw [if_pos hd] at h
      rcases ih _ _ _ h with h2 | h2
      · by_cases he : e' = e
        · exact Or.inr (he ▸ List.mem_cons_self e es)
        · rw [dget_dset_ne _ _ he] at h2
          exact Or.inl h2
      · exact Or.inr (List.mem_cons_of_mem e h2)
    · rw [if_neg hd] at h
      rcases ih _ _ _ h with h2 | h2
      · exact Or.inl h2
      · exact Or.inr (List.mem_cons_of_mem e h2)

theorem markAll_lt (es : List Nat) :
    ∀ (m : List (Nat × Bool)) (n : Nat) (e : Nat), e ∈ es →
      dget m e true = false → (m.map Prod.fst).Nodup →
      n = (m.filter (fun kv => kv.2 = false)).length →
      (markAll es m n).2 < n := by
  induction es with
  | nil => intro m n e h; cases h
  | cons e0 es ih =>
    intro m n e hmem hf hnd hn
    rw [markAll_cons]
    by_cases hd : dget m e0 true = false
    · rw [if_pos hd]
      have h1 := countFalse_pos hd
      have h2 := markAll_le es (dset m e0 true) (n - 1)
      omega
    · rw [if_neg hd]
      cases hmem with
      | head => exact absurd hf hd
      | tail _ h2 => exact ih m n e h2 hf hnd hn

theorem newPriority_le {s : List Nat} (m : List (Nat × Bool))
    (hnd : s.Nodup) : newPriority s m ≤ m.length := by
  rw [newPriority]
  have hsub : (s.filter (fun e => dget m e true = false)) ⊆
      m.map Prod.fst := by
    intro e he
    have h1 := List.mem_filter.mp he
    have h2 : dget m e true = false := by simpa using h1.2
    exact dmem_iff.mp (dmem_of_dget_false h2)
  have := (List.subperm_of_subset (hnd.filter _) hsub).length_le
  rw [List.length_map] at this
  exact this

theorem initPriority_le {s : List Nat} (m : List (Nat × Bool))
    (hnd : s.Nodup) : initPriority s m ≤ m.length := by
  rw [initPriority]
  have hsub : (s.filter (fun e => dmem m e)) ⊆ m.map Prod.fst := by
    intro e he
    have h1 := List.mem_filter.mp he
    exact dmem_iff.mp h1.2
  have := (List.subperm_of_subset (hnd.filter _) hsub).length_le
  rw [List.length_map] at this
  exact this

theorem newPriority_pos {s : List Nat} {m : List (Nat × Bool)} {e : Nat}
    (hmem : e ∈ s) (hf : dget m e true = false) : 1 ≤ newPriority s m := by
  rw [newPriority]
  have : e ∈ s.filter (fun e => dget m e true = false) :=
    List.mem_filter.mpr ⟨hmem, by simp [hf]⟩
  exact List.length_pos.mpr (List.ne_nil_of_mem this)

theorem initPriority_zero {s : List Nat} {m : List (Nat × Bool)}
    (h : initPriority s m = 0) : ∀ e ∈ s, dmem m e = false := by
  rw [initPriority, List.length_eq_zero] at h
  intro e he
  cases hv : dmem m e with
  | false => rfl
  | true =>
    have : e ∈ s.filter (fun e => dmem m e) :=
      List.mem_filter.mpr ⟨he, hv⟩
    rw [h] at this
    cases this

theorem afterBounds_success (st : BucketQueue) (qOpt : Option Nat)
    {lo gr : Nat} (hlo : st.lowest = some lo) (hgr : st.greatest = some gr) :
    ∃ st1, st.afterBounds qOpt = some st1 := by
  cases qOpt with
  | none => exact ⟨st, afterBounds_none_eq st⟩
  | some q =>
    by_cases he : st.A.getD q [] ≠ []
    · exact ⟨st, afterBounds_nonempty_eq st q he⟩
    · push_neg at he
      by_cases hgq : st.greatest = some q
      · cases hsd : scanDown st.A lo q with
        | none => exact ⟨_, afterBounds_greatest_clear_eq st he hgq hlo hsd⟩
        | some r => exact ⟨_, afterBounds_greatest_set_eq st he hgq hlo hsd⟩
      · by_cases hlq : st.lowest = some q
        · by_cases hcmp : gr < scanUp st.A q
          · exact ⟨_, afterBounds_lowest_clear_eq st he hgq hlq hgr hcmp⟩
          · exact ⟨_, afterBounds_lowest_set_eq st he hgq hlq hgr hcmp⟩
        · exact ⟨st, afterBounds_else_eq st he hgq hlq⟩

theorem update_bounds_success (st : BucketQueue) (p : Nat) (qOpt : Option Nat)
    (hm : st.lowest = none ↔ st.greatest = none) :
    ∃ st1, st.update_bounds_eager p qOpt = some st1 := by
  cases hlo : st.lowest with
  | none =>
    rw [update_bounds_none_eq st p qOpt hlo (hm.mp hlo)]
    exact afterBounds_success _ qOpt rfl rfl
  | some lo =>
    cases hgr : st.greatest with
    | none => exact absurd (hm.mpr hgr) (by simp [hlo])
    | some gr =>
      rw [update_bounds_some_eq st p qOpt hlo hgr]
      exact afterBounds_success _ qOpt rfl rfl

theorem change_success (st : BucketQueue) (x p q : Nat)
    (hp : st.L ≤ p ∧ p ≤ st.C) (hq : st.L ≤ q ∧ q ≤ st.C)
    (hx : x ∈ st.A.getD (p - st.L) [])
    (hm : st.lowest = none ↔ st.greatest = none) :
    ∃ st1, st.change_priority x p q = some st1 := by
  rw [change_priority_eq2 st x p q hp hq hx]
  exact update_bounds_success _ _ _ hm

theorem extract_max_total (st : BucketQueue)
    (hm : st.lowest = none ↔ st.greatest = none) :
    ∃ r st1, st.extract_max = some (r, st1) := by
  cases hlo : st.lowest with
  | none =>
    have hgr := hm.mp hlo
    rw [extract_max_eq_of_find (find_highest_none_eq st hlo hgr), hgr]
    exact ⟨none, st, rfl⟩
  | some lo =>
    cases hgr : st.greatest with
    | none => exact absurd (hm.mpr hgr) (by simp [hlo])
    | some gr =>
      cases hsd : scanDown st.A lo gr with
      | none =>
        rw [extract_max_eq_of_find (find_highest_clear_eq st hlo hgr hsd)]
        exact ⟨none, _, rfl⟩
      | some r =>
        rw [extract_max_eq_of_find (find_highest_set_eq st hlo hgr hsd)]
        have hne := (scanDown_some hsd).2.2.1
        cases hb : st.A.getD r [] with
        | nil => exact absurd hb hne
        | cons x rest =>
          refine ⟨some x, { st with greatest := some r, A := st.A.set r rest }, ?_⟩
          simp only [hb, bucketPop]

theorem extract_max_none_empty {st st1 : BucketQueue}
    (h : st.extract_max = some (none, st1)) (hw : BQWeakInv st) :
    ∀ i, st.A.getD i [] = [] := by
  obtain ⟨stf, hf, hcase⟩ := extract_max_inv h
  obtain ⟨hfA, hfC, hfL, hfcase⟩ := find_highest_inv hf
  rcases hcase with ⟨_, heq, hgr⟩ | ⟨x, g, rest, hr, hgr, hb, heq⟩
  · rcases hfcase with ⟨hlo0, hgr0, heq0⟩ | ⟨lo, gr, r, hlo0, hgr0, hsd, heq0⟩ |
      ⟨lo, gr, hlo0, hgr0, hsd, heq0⟩
    · exact hw.hempty hlo0
    · rw [heq0] at hgr
      cases hgr
    · intro i
      by_contra hne
      obtain ⟨hb1, hb2⟩ := hw.hbracket lo gr hlo0 hgr0 i hne
      exact hne (scanDown_none hsd i hb1 hb2)
  · cases hr

theorem extract_max_head {st st1 : BucketQueue} {x : Nat}
    (h : st.extract_max = some (some x, st1)) (hw : BQWeakInv st) :
    ∃ g rest, st.A.getD g [] = x :: rest ∧ st1.A = st.A.set g rest ∧
      st1.C = st.C ∧ st1.L = st.L ∧
      (∀ i, st.A.getD i [] ≠ [] → i ≤ g) := by
  obtain ⟨stf, hf, hcase⟩ := extract_max_inv h
  obtain ⟨hfA, hfC, hfL, hfcase⟩ := find_highest_inv hf
  rcases hcase with ⟨hr, _, _⟩ | ⟨y, g, rest, hr, hgr, hb, heq⟩
  · cases hr
  · rw [Option.some.injEq] at hr
    subst hr
    rcases hfcase with ⟨hlo0, hgr0, heq0⟩ | ⟨lo, gr, r, hlo0, hgr0, hsd, heq0⟩ |
      ⟨lo, gr, hlo0, hgr0, hsd, heq0⟩
    · rw [heq0] at hgr
      rw [hgr0] at hgr
      cases hgr
    · obtain ⟨hr1, hr2, hr3, hr4⟩ := scanDown_some hsd
      rw [heq0] at hgr
      dsimp only at hgr
      rw [Option.some.injEq] at hgr
      subst hgr
      refine ⟨r, rest, by rw [← hfA]; exact hb, ?_, ?_, ?_, ?_⟩
      · rw [heq]
        dsimp only
        rw [hfA]
      · rw [heq]; exact hfC
      · rw [heq]; exact hfL
      · intro i hne
        obtain ⟨hb1, hb2⟩ := hw.hbracket lo gr hlo0 hgr0 i hne
        by_contra hc
        push_neg at hc
        exact hne (hr4 i hc hb2)
    · rw [heq0] at hgr
      cases hgr

theorem updateAll_fst {rest : List Nat} :
    ∀ {sets sets1 : List (List Nat × Option Nat)} {m : List (Nat × Bool)}
      {bq bq1 : BucketQueue},
      updateAll rest sets m bq = some (sets1, bq1) →
      ∀ i, (sets1.getD i ([], none)).1 = (sets.getD i ([], none)).1 := by
  induction rest with
  | nil =>
    intro sets sets1 m bq bq1 h i
    rw [updateAll, Option.some.injEq, Prod.mk.injEq] at h
    rw [h.1]
  | cons j rest ih =>
    intro sets sets1 m bq bq1 h i
    cases hst : (sets.getD j ([], none)).2 with
    | none =>
      simp only [updateAll, hst] at h
      cases h
    | some pr =>
      simp only [updateAll, hst] at h
      cases hcp : bq.change_priority j pr
          (newPriority (sets.getD j ([], none)).1 m) with
      | none =>
        simp only [hcp] at h
        cases h
      | some bq2 =>
        simp only [hcp] at h
        rw [ih h i]
        by_cases hj : i = j
        · subst hj
          rcases Nat.lt_or_ge i sets.length with hl | hl
          · rw [getD_set_self2 _ _ hl]
          · rw [List.set_eq_of_length_le hl]
        · rw [getD_set_ne2 _ _ (fun hc => hj hc.symm)]

/-- A helper: `bucketsNodup` from the indexed form. -/
theorem bucketsNodup_of_getD {st : BucketQueue}
    (h : ∀ i, (st.A.getD i []).Nodup) : bucketsNodup st := by
  intro b hb
  obtain ⟨k, hk, hbk⟩ := List.mem_iff_getElem.mp hb
  have : st.A.getD k [] = b := by
    rw [List.getD_eq_getElem?_getD, List.getElem?_eq_getElem hk, hbk]
    rfl
  rw [← this]
  exact h k

/-- The re-prioritization loop succeeds and recomputes exactly the stored
priorities of its index list, preserving the queue invariants and the
contents correspondence. -/
theorem updateAll_run {sets0 : List (List Nat)} {m : List (Nat × Bool)} :
    ∀ (rest : List Nat) (U : List Nat)
      (sets : List (List Nat × Option Nat)) (bq : BucketQueue),
      rest.Nodup →
      (∀ i ∈ rest, i ∈ U) →
      (∀ i ∈ U, i < sets.length) →
      (∀ i, (sets.getD i ([], none)).1 = sets0.getD i []) →
      (∀ i ∈ rest, ∃ pr, (sets.getD i ([], none)).2 = some pr ∧ pr ≤ bq.C) →
      (∀ i ∈ rest, newPriority (sets0.getD i []) m ≤ bq.C) →
      bq.L = 0 →
      BQWeakInv bq →
      bucketsNodup bq →
      (∀ idx x, x ∈ bq.A.getD idx [] ↔
        (x ∈ U ∧ (sets.getD x ([], none)).2 = some idx)) →
      ∃ sets1 bq1,
        updateAll rest sets m bq = some (sets1, bq1) ∧
        sets1.length = sets.length ∧
        (∀ i, (sets1.getD i ([], none)).1 = (sets.getD i ([], none)).1) ∧
        (∀ i ∈ rest, (sets1.getD i ([], none)).2 =
          some (newPriority (sets0.getD i []) m)) ∧
        (∀ i, i ∉ rest → sets1.getD i ([], none) = sets.getD i ([], none)) ∧
        bq1.C = bq.C ∧ bq1.L = bq.L ∧
        BQWeakInv bq1 ∧ bucketsNodup bq1 ∧
        (∀ idx x, x ∈ bq1.A.getD idx [] ↔
          (x ∈ U ∧ (sets1.getD x ([], none)).2 = some idx)) := by
  intro rest
  induction rest with
  | nil =>
    intro U sets bq _ _ _ _ _ _ _ hw hbnd hcont
    exact ⟨sets, bq, rfl, rfl, fun i => rfl,
      fun i hi => absurd hi (List.not_mem_nil i),
      fun i _ => rfl, rfl, rfl, hw, hbnd, hcont⟩
  | cons j rest ih =>
    intro U sets bq hndr hsubU hUlen hfst hstored hnpr hL hw hbnd hcont
    have hndr2 := List.nodup_cons.mp hndr
    obtain ⟨pr, hprj, hprC⟩ := hstored j (List.mem_cons_self j rest)
    have hjU : j ∈ U := hsubU j (List.mem_cons_self j rest)
    have hjlen : j < sets.length := hUlen j hjU
    have hjb : j ∈ bq.A.getD pr [] := (hcont pr j).mpr ⟨hjU, hprj⟩
    have hnprC := hnpr j (List.mem_cons_self j rest)
    have hprios : bq.L ≤ pr ∧ pr ≤ bq.C := ⟨by omega, hprC⟩
    have hqrios : bq.L ≤ newPriority ((sets.getD j ([], none)).1) m ∧
        newPriority ((sets.getD j ([], none)).1) m ≤ bq.C := by
      rw [hfst j]
      exact ⟨by omega, hnprC⟩
    have hxmem : j ∈ bq.A.getD (pr - bq.L) [] := by
      rw [hL, Nat.sub_zero]
      exact hjb
    obtain ⟨bq2, hcp⟩ := change_success bq j pr _ hprios hqrios hxmem hw.hmatch
    obtain ⟨lo, gr, hlo, hgr, _, _, _, hC2, hL2, hA2, _⟩ := change_shape hw hcp
    have hprlen : pr < bq.A.length := by
      have := hw.hlen
      omega
    have hnprlen : newPriority ((sets.getD j ([], none)).1) m < bq.A.length := by
      have := hw.hlen
      have := hqrios.2
      omega
    have hx1 : ∀ idx, j ∈ bq.A.getD idx [] → idx = pr := by
      intro idx hidx
      have := ((hcont idx j).mp hidx).2
      rw [hprj] at this
      exact (Option.some.injEq _ _ ▸ this).symm
    have hA2' : bq2.A = chgArray bq.A j pr
        (newPriority ((sets.getD j ([], none)).1) m) := by
      rw [hA2, hL, Nat.sub_zero, Nat.sub_zero]
    have hmem2 : ∀ idx x, x ∈ bq2.A.getD idx [] ↔
        ((x = j ∧ idx = newPriority ((sets.getD j ([], none)).1) m) ∨
         (x ≠ j ∧ x ∈ bq.A.getD idx [])) := by
      intro idx x
      rw [hA2']
      exact chgArray_mem_iff hprlen hnprlen (bucketsNodup_getD hbnd pr) hx1
        idx x
    have hcont2 : ∀ idx x, x ∈ bq2.A.getD idx [] ↔
        (x ∈ U ∧ ((sets.set j ((sets.getD j ([], none)).1,
          some (newPriority ((sets.getD j ([], none)).1) m))).getD x
            ([], none)).2 = some idx) := by
      intro idx x
      rw [hmem2]
      by_cases hx : x = j
      · subst hx
        rw [getD_set_self2 _ _ hjlen]
        constructor
        · rintro (⟨-, h2⟩ | ⟨h1, -⟩)
          · exact ⟨hjU, by rw [h2]⟩
          · exact absurd rfl h1
        · rintro ⟨-, h2⟩
          rw [Option.some.injEq] at h2
          exact Or.inl ⟨rfl, h2.symm⟩
      · rw [getD_set_ne2 _ _ (fun hc => hx hc.symm)]
        constructor
        · rintro (⟨h1, -⟩ | ⟨-, h2⟩)
          · exact absurd h1 hx
          · exact (hcont idx x).mp h2
        · rintro ⟨h1, h2⟩
          exact Or.inr ⟨hx, (hcont idx x).mpr ⟨h1, h2⟩⟩
    have hbnd2 : bucketsNodup bq2 := by
      apply bucketsNodup_of_getD
      intro i
      rw [hA2']
      exact chgArray_nodup _ _ _ (fun k => bucketsNodup_getD hbnd k) i
    obtain ⟨sets1, bq1, heq1, hlen1, hfst1, hstored1, hout1, hC1, hL1, hw1,
        hbnd1, hcont1⟩ := ih U
      (sets.set j ((sets.getD j ([], none)).1,
        some (newPriority ((sets.getD j ([], none)).1) m))) bq2
      hndr2.2
      (fun i hi => hsubU i (List.mem_cons_of_mem j hi))
      (fun i hi => by rw [List.length_set]; exact hUlen i hi)
      (by
        intro i
        by_cases hij : i = j
        · subst hij
          rw [getD_set_self2 _ _ hjlen]
          exact hfst i
        · rw [getD_set_ne2 _ _ (fun hc => hij hc.symm)]
          exact hfst i)
      (by
        intro i hi
        have hij : i ≠ j := fun hc => hndr2.1 (hc ▸ hi)
        rw [getD_set_ne2 _ _ (fun hc => hij hc.symm), hC2]
        exact hstored i (List.mem_cons_of_mem j hi))
      (fun i hi => by rw [hC2]; exact hnpr i (List.mem_cons_of_mem j hi))
      (by rw [hL2]; exact hL)
      (change_weak hcp hw)
      hbnd2
      hcont2
    refine ⟨sets1, bq1, ?_, ?_, ?_, ?_, ?_, ?_, ?_, hw1, hbnd1, hcont1⟩
    · simp only [updateAll, hprj, hcp]
      exact heq1
    · rw [hlen1, List.length_set]
    · intro i
      rw [hfst1 i]
      by_cases hij : i = j
      · subst hij
        rw [getD_set_self2 _ _ hjlen]
      · rw [getD_set_ne2 _ _ (fun hc => hij hc.symm)]
    · intro i hi
      cases hi with
      | head =>
        rw [hout1 j hndr2.1, getD_set_self2 _ _ hjlen]
        rw [hfst j]
      | tail _ hi2 => exact hstored1 i hi2
    · intro i hi
      have hij : i ≠ j := fun hc => hi (hc ▸ List.mem_cons_self j rest)
      have hir : i ∉ rest := fun hc => hi (List.mem_cons_of_mem j hc)
      rw [hout1 i hir, getD_set_ne2 _ _ (fun hc => hij hc.symm)]
    · rw [hC1, hC2]
    · rw [hL1, hL2]

/-- The initialization loop succeeds, stores exactly the positive initial
priorities, and establishes the contents correspondence. -/
theorem initSets_run {m : List (Nat × Bool)} :
    ∀ (ents : List (Nat × List Nat)) (sets : List (List Nat × Option Nat))
      (bq : BucketQueue),
      (ents.map Prod.fst).Nodup →
      (∀ e ∈ ents, e.1 < sets.length ∧
        sets.getD e.1 ([], none) = (e.2, none)) →
      (∀ e ∈ ents, initPriority e.2 m ≤ bq.C) →
      bq.L = 0 →
      BQWeakInv bq →
      bucketsNodup bq →
      (∀ idx x, x ∈ bq.A.getD idx [] ↔
        (sets.getD x ([], none)).2 = some idx) →
      ∃ sets1 bq1,
        initSets ents m sets bq = some (sets1, bq1) ∧
        sets1.length = sets.length ∧
        (∀ i, (sets1.getD i ([], none)).1 = (sets.getD i ([], none)).1) ∧
        (∀ e ∈ ents, (sets1.getD e.1 ([], none)).2 =
          if 0 < initPriority e.2 m then some (initPriority e.2 m)
          else none) ∧
        (∀ i, i ∉ ents.map Prod.fst →
          sets1.getD i ([], none) = sets.getD i ([], none)) ∧
        bq1.C = bq.C ∧ bq1.L = bq.L ∧
        BQWeakInv bq1 ∧ bucketsNodup bq1 ∧
        (∀ idx x, x ∈ bq1.A.getD idx [] ↔
          (sets1.getD x ([], none)).2 = some idx) := by
  intro ents
  induction ents with
  | nil =>
    intro sets bq _ _ _ _ hw hbnd hcont
    exact ⟨sets, bq, rfl, rfl, fun i => rfl,
      fun e he => absurd he (List.not_mem_nil e),
      fun i _ => rfl, rfl, rfl, hw, hbnd, hcont⟩
  | cons e rest ih =>
    obtain ⟨i, s⟩ := e
    intro sets bq hnde hents hple hL hw hbnd hcont
    rw [List.map_cons, List.nodup_cons] at hnde
    obtain ⟨hilen0, hie0⟩ := hents (i, s) (List.mem_cons_self _ rest)
    have hilen : i < sets.length := hilen0
    have hie : sets.getD i ([], none) = (s, none) := hie0
    have hprC : initPriority s m ≤ bq.C :=
      hple (i, s) (List.mem_cons_self _ rest)
    have hstnone : (sets.getD i ([], none)).2 = none := by rw [hie]
    have hinobkt : ∀ idx, i ∉ bq.A.getD idx [] := by
      intro idx hc
      have := (hcont idx i).mp hc
      rw [hstnone] at this
      cases this
    by_cases hpr : 0 < initPriority s m
    · obtain ⟨bq2, hins, hA2, hC2, hL2⟩ := insert_success bq i
        (initPriority s m) ⟨by omega, hprC⟩ hw.hmatch
      have hprlen : initPriority s m < bq.A.length := by
        have := hw.hlen
        omega
      have hA2' : bq2.A = bq.A.set (initPriority s m)
          (bucketAdd (bq.A.getD (initPriority s m) []) i) := by
        rw [hA2, hL, Nat.sub_zero]
      have hmem2 : ∀ idx x, x ∈ bq2.A.getD idx [] ↔
          ((idx = initPriority s m ∧ x = i) ∨ x ∈ bq.A.getD idx []) := by
        intro idx x
        rw [hA2']
        by_cases hidx : idx = initPriority s m
        · subst hidx
          rw [getD_set_self _ hprlen, mem_bucketAdd]
          constructor
          · rintro (h1 | h1)
            · exact Or.inr h1
            · exact Or.inl ⟨rfl, h1⟩
          · rintro (⟨-, h1⟩ | h1)
            · exact Or.inr h1
            · exact Or.inl h1
        · rw [getD_set_ne _ (fun hc => hidx hc.symm)]
          constructor
          · intro h1
            exact Or.inr h1
          · rintro (⟨h1, -⟩ | h1)
            · exact absurd h1 hidx
            · exact h1
      have hcont2 : ∀ idx x, x ∈ bq2.A.getD idx [] ↔
          ((sets.set i (s, some (initPriority s m))).getD x
            ([], none)).2 = some idx := by
        intro idx x
        rw [hmem2]
        by_cases hx : x = i
        · subst hx
          rw [getD_set_self2 _ _ hilen]
          constructor
          · rintro (⟨h1, -⟩ | h1)
            · rw [h1]
            · exact absurd h1 (hinobkt idx)
          · intro h1
            rw [Option.some.injEq] at h1
            exact Or.inl ⟨h1.symm, rfl⟩
        · rw [getD_set_ne2 _ _ (fun hc => hx hc.symm)]
          constructor
          · rintro (⟨-, h1⟩ | h1)
            · exact absurd h1 hx
            · exact (hcont idx x).mp h1
          · intro h1
            exact Or.inr ((hcont idx x).mpr h1)
      have hbnd2 : bucketsNodup bq2 := by
        apply bucketsNodup_of_getD
        intro k
        rw [hA2']
        by_cases hk : k = initPriority s m
        · subst hk
          rw [getD_set_self _ hprlen]
          exact bucketAdd_nodup (bucketsNodup_getD hbnd _)
        · rw [getD_set_ne _ (fun hc => hk hc.symm)]
          exact bucketsNodup_getD hbnd k
      obtain ⟨sets1, bq1, heq1, hlen1, hfst1, hstored1, hout1, hC1, hL1, hw1,
          hbnd1, hcont1⟩ := ih (sets.set i (s, some (initPriority s m))) bq2
        hnde.2
        (by
          intro e2 he2
          obtain ⟨h1, h2⟩ := hents e2 (List.mem_cons_of_mem _ he2)
          have hne : e2.1 ≠ i := by
            intro hc
            exact hnde.1 (hc ▸ List.mem_map.mpr ⟨e2, he2, rfl⟩)
          rw [List.length_set]
          exact ⟨h1, by rw [getD_set_ne2 _ _ (fun hc => hne hc.symm)]; exact h2⟩)
        (fun e2 he2 => by
          rw [hC2]
          exact hple e2 (List.mem_cons_of_mem _ he2))
        (by rw [hL2]; exact hL)
        (by
          obtain ⟨st1, hins2, hA3, hC3, hL3⟩ := insert_success bq i
            (initPriority s m) ⟨by omega, hprC⟩ hw.hmatch
          exact insert_weak hins hw)
        hbnd2
        hcont2
      refine ⟨sets1, bq1, ?_, ?_, ?_, ?_, ?_, ?_, ?_, hw1, hbnd1, hcont1⟩
      · simp only [initSets, if_pos hpr, hins]
        exact heq1
      · rw [hlen1, List.length_set]
      · intro k
        rw [hfst1 k]
        by_cases hk : k = i
        · subst hk
          rw [getD_set_self2 _ _ hilen, hie]
        · rw [getD_set_ne2 _ _ (fun hc => hk hc.symm)]
      · intro e2 he2
        cases he2 with
        | head =>
          rw [hout1 i hnde.1, getD_set_self2 _ _ hilen, if_pos hpr]
        | tail _ he3 => exact hstored1 e2 he3
      · intro k hk
        have hki : k ≠ i := fun hc => hk (hc ▸ List.mem_cons_self _ _)
        have hkr : k ∉ rest.map Prod.fst :=
          fun hc => hk (List.mem_cons_of_mem _ hc)
        rw [hout1 k hkr, getD_set_ne2 _ _ (fun hc => hki hc.symm)]
      · rw [hC1, hC2]
      · rw [hL1, hL2]
    · obtain ⟨sets1, bq1, heq1, hlen1, hfst1, hstored1, hout1, hC1, hL1, hw1,
          hbnd1, hcont1⟩ := ih sets bq hnde.2
        (fun e2 he2 => hents e2 (List.mem_cons_of_mem _ he2))
        (fun e2 he2 => hple e2 (List.mem_cons_of_mem _ he2))
        hL hw hbnd hcont
      refine ⟨sets1, bq1, ?_, hlen1, hfst1, ?_, ?_, hC1, hL1, hw1, hbnd1,
        hcont1⟩
      · simp only [initSets, if_neg hpr]
        exact heq1
      · intro e2 he2
        cases he2 with
        | head =>
          rw [hout1 i hnde.1, hie, if_neg hpr]
        | tail _ he3 => exact hstored1 e2 he3
      · intro k hk
        exact hout1 k (fun hc => hk (List.mem_cons_of_mem _ hc))

theorem dmem_append {l1 l2 : List (Nat × Bool)} {e : Nat} :
    dmem (l1 ++ l2) e = (dmem l1 e || dmem l2 e) := by
  simp [dmem, List.any_append]

theorem foldl_dictInsertNew_false (els : List Nat) :
    ∀ (acc : List (Nat × Bool)), (∀ kv ∈ acc, kv.2 = false) →
      ∀ kv ∈ els.foldl dictInsertNew acc, kv.2 = false := by
  induction els with
  | nil => intro acc h; exact h
  | cons e els ih =>
    intro acc h
    rw [List.foldl_cons]
    apply ih
    rw [dictInsertNew]
    by_cases hd : dmem acc e
    · rw [if_pos hd]
      exact h
    · rw [if_neg hd]
      intro kv hkv
      rcases List.mem_append.mp hkv with h1 | h1
      · exact h kv h1
      · rw [List.mem_singleton.mp h1]

theorem mkElements_false {els : List Nat} :
    ∀ kv ∈ mkElements els, kv.2 = false :=
  foldl_dictInsertNew_false els [] (fun kv h => absurd h (List.not_mem_nil kv))

theorem foldl_dictInsertNew_nodup (els : List Nat) :
    ∀ (acc : List (Nat × Bool)), (acc.map Prod.fst).Nodup →
      ((els.foldl dictInsertNew acc).map Prod.fst).Nodup := by
  induction els with
  | nil => intro acc h; exact h
  | cons e els ih =>
    intro acc h
    rw [List.foldl_cons]
    apply ih
    rw [dictInsertNew]
    by_cases hd : dmem acc e
    · rw [if_pos hd]
      exact h
    · rw [if_neg hd]
      rw [List.map_append]
      rw [List.nodup_append]
      refine ⟨h, List.nodup_singleton e, ?_⟩
      intro a ha hb
      rw [List.map_singleton, List.mem_singleton] at hb
      subst hb
      rw [dmem_iff.mpr ha] at hd
      exact hd rfl

theorem mkElements_nodup {els : List Nat} :
    ((mkElements els).map Prod.fst).Nodup :=
  foldl_dictInsertNew_nodup els [] List.nodup_nil

theorem foldl_dictInsertNew_mem (els : List Nat) :
    ∀ (acc : List (Nat × Bool)) (e : Nat),
      dmem (els.foldl dictInsertNew acc) e = true ↔
        dmem acc e = true ∨ e ∈ els := by
  induction els with
  | nil =>
    intro acc e
    simp
  | cons e0 els ih =>
    intro acc e
    rw [List.foldl_cons, ih]
    rw [dictInsertNew]
    by_cases hd : dmem acc e0
    · rw [if_pos hd]
      constructor
      · rintro (h | h)
        · exact Or.inl h
        · exact Or.inr (List.mem_cons_of_mem e0 h)
      · rintro (h | h)
        · exact Or.inl h
        · cases h with
          | head => exact Or.inl (by rw [← hd])
          | tail _ h2 => exact Or.inr h2
    · rw [if_neg hd]
      rw [dmem_append]
      constructor
      · rintro (h | h)
        · rcases Bool.or_eq_true_iff.mp h with h1 | h1
          · exact Or.inl h1
          · simp only [dmem, List.any_cons, List.any_nil,
              Bool.or_false, decide_eq_true_eq] at h1
            exact Or.inr (h1 ▸ List.mem_cons_self e0 els)
        · exact Or.inr (List.mem_cons_of_mem e0 h)
      · rintro (h | h)
        · exact Or.inl (by rw [h]; rfl)
        · cases h with
          | head =>
            refine Or.inl ?_
            have : dmem [(e0, false)] e0 = true := by
              simp [dmem]
            rw [this]
            exact Bool.or_true _
          | tail _ h2 => exact Or.inr h2

theorem mkElements_mem {els : List Nat} {e : Nat} :
    dmem (mkElements els) e = true ↔ e ∈ els := by
  rw [mkElements, foldl_dictInsertNew_mem]
  constructor
  · rintro (h | h)
    · cases h
    · exact h
  · exact Or.inr

theorem allFalse_dget {m : List (Nat × Bool)} (hall : ∀ kv ∈ m, kv.2 = false)
    {e : Nat} (hm : dmem m e = true) : dget m e true = false := by
  cases hd : dget m e true with
  | false => rfl
  | true =>
    rw [dget] at hd
    cases hf : m.find? (fun kv => kv.1 = e) with
    | none =>
      rw [List.find?_eq_none] at hf
      obtain ⟨kv, hkv, hfst⟩ := List.mem_map.mp (dmem_iff.mp hm)
      exact absurd (by simpa using hfst) (hf kv hkv)
    | some kv =>
      simp only [hf] at hd
      rw [hall kv (List.mem_of_find?_eq_some hf)] at hd
      cases hd

theorem allFalse_count {m : List (Nat × Bool)} (hall : ∀ kv ∈ m, kv.2 = false) :
    (m.filter (fun kv => kv.2 = false)).length = m.length := by
  rw [List.filter_eq_self.mpr (fun kv hkv => by simp [hall kv hkv])]

theorem allFalse_newPriority {m : List (Nat × Bool)}
    (hall : ∀ kv ∈ m, kv.2 = false) (s : List Nat) :
    newPriority s m = initPriority s m := by
  rw [newPriority, initPriority]
  congr 1
  apply List.filter_congr
  intro e _
  cases hd : dmem m e with
  | true => simp [allFalse_dget hall hd]
  | false =>
    rw [dget_of_dmem_false true hd]
    simp

theorem initSets_mnil :
    ∀ (ents : List (Nat × List Nat)) (sets : List (List Nat × Option Nat))
      (bq : BucketQueue), initSets ents [] sets bq = some (sets, bq) := by
  intro ents
  induction ents with
  | nil => intro sets bq; rfl
  | cons e rest ih =>
    obtain ⟨i, s⟩ := e
    intro sets bq
    have hpr : initPriority s [] = 0 := by
      rw [initPriority]
      rw [List.filter_eq_nil_iff.mpr (fun a _ => by simp [dmem])]
      rfl
    simp only [initSets, hpr]
    exact ih sets bq

theorem map_pair_getD (sets0 : List (List Nat)) (i : Nat) :
    (sets0.map (fun s => (s, (none : Option Nat)))).getD i ([], none) =
      (sets0.getD i [], none) := by
  rcases Nat.lt_or_ge i sets0.length with h | h
  · rw [List.getD_eq_getElem?_getD, List.getElem?_map,
      List.getElem?_eq_getElem h]
    rw [List.getD_eq_getElem?_getD, List.getElem?_eq_getElem h]
    rfl
  · rw [getD_len_le2 _ (by rw [List.length_map]; exact h), getD_len_le h]

theorem mem_enum_iff2 {α : Type} (d : α) {l : List α} {i : Nat} {a : α} :
    (i, a) ∈ l.enum ↔ i < l.length ∧ l.getD i d = a := by
  rw [List.mk_mem_enum_iff_getElem?]
  constructor
  · intro h
    have hlt : i < l.length := by
      by_contra hc
      push_neg at hc
      rw [List.getElem?_eq_none hc] at h
      cases h
    refine ⟨hlt, ?_⟩
    rw [List.getD_eq_getElem?_getD, h]
    rfl
  · rintro ⟨h1, h2⟩
    rw [List.getElem?_eq_getElem h1]
    rw [List.getD_eq_getElem?_getD, List.getElem?_eq_getElem h1] at h2
    exact congrArg some h2

theorem mem_uncovered_iff {sets1 : List (List Nat × Option Nat)} {x : Nat} :
    x ∈ (sets1.enum.filter (fun ix => truthy ix.2.2)).map
        (fun ix => ix.1) ↔
      x < sets1.length ∧ truthy (sets1.getD x ([], none)).2 = true := by
  rw [List.mem_map]
  constructor
  · rintro ⟨⟨i, a⟩, hix, rfl⟩
    have h1 := List.mem_filter.mp hix
    obtain ⟨ha, hb⟩ := (mem_enum_iff2 ([], none)).mp h1.1
    exact ⟨ha, by rw [hb]; simpa using h1.2⟩
  · rintro ⟨h1, h2⟩
    refine ⟨(x, sets1.getD x ([], none)), ?_, rfl⟩
    exact List.mem_filter.mpr
      ⟨(mem_enum_iff2 ([], none)).mpr ⟨h1, rfl⟩, by simpa using h2⟩

theorem uncovered_nodup (sets1 : List (List Nat × Option Nat)) :
    ((sets1.enum.filter (fun ix => truthy ix.2.2)).map
      (fun ix => ix.1)).Nodup := by
  have hsub : ((sets1.enum.filter (fun ix => truthy ix.2.2)).map
      (fun ix => ix.1)).Sublist (sets1.enum.map Prod.fst) :=
    (List.filter_sublist _).map _
  rw [List.enum_map_fst] at hsub
  exact List.Nodup.sublist hsub (List.nodup_range _)

theorem truthy_some {k : Nat} : truthy (some k) = true ↔ k ≠ 0 := by
  simp [truthy]

theorem getD_mem_of_lt {l : List (List Nat)} {i : Nat} (h : i < l.length) :
    l.getD i [] ∈ l := by
  rw [List.getD_eq_getElem?_getD, List.getElem?_eq_getElem h]
  exact List.getElem_mem h

theorem dmem_congr_fst {m m' : List (Nat × Bool)} (e : Nat)
    (h : m.map Prod.fst = m'.map Prod.fst) : dmem m e = dmem m' e := by
  cases hd : dmem m' e with
  | true => exact dmem_iff.mpr (h ▸ dmem_iff.mp hd)
  | false =>
    cases hd2 : dmem m e with
    | false => rfl
    | true =>
      rw [← hd, dmem_iff.mpr (h ▸ dmem_iff.mp hd2)]

theorem newPriority_pos_inv {s : List Nat} {m : List (Nat × Bool)}
    (h : 0 < newPriority s m) : ∃ e ∈ s, dget m e true = false := by
  rw [newPriority] at h
  have hne : s.filter (fun e => dget m e true = false) ≠ [] := by
    intro hc
    rw [hc] at h
    cases h
  obtain ⟨e, he⟩ := List.exists_mem_of_ne_nil _ hne
  have h1 := List.mem_filter.mp he
  exact ⟨e, h1.1, by simpa using h1.2⟩

theorem markAll_length (es : List Nat) (m : List (Nat × Bool)) (n : Nat) :
    (markAll es m n).1.length = m.length := by
  have h1 := congrArg List.length (markAll_map_fst es m n)
  rwa [List.length_map, List.length_map] at h1

/-- The main loop of `set_cover_greedy` terminates with a result whenever the
loop invariant holds and the fuel exceeds the number of uncovered keys; the
accumulated cover only grows, and on feasible instances every key ends up
covered. -/
theorem greedyLoop_run {sets0 : List (List Nat)} {keys : List Nat}
    (hnd0 : ∀ s ∈ sets0, s.Nodup) :
    ∀ (fuel : Nat) (bq : BucketQueue) (sets : List (List Nat × Option Nat))
      (m : List (Nat × Bool)) (nFalse : Nat) (uncovered : List Nat)
      (cover : List (List Nat)) (coverIndex : List Nat),
      GInv sets0 keys bq sets m nFalse uncovered cover →
      nFalse < fuel →
      ∃ cover1 idx1,
        greedyLoop fuel bq sets m nFalse uncovered cover coverIndex =
          some (cover1, idx1) ∧
        (∀ s ∈ cover, s ∈ cover1) ∧
        ((∀ e, dmem m e = true →
            ∃ j, j < sets0.length ∧ e ∈ sets0.getD j []) →
          ∀ e, dmem m e = true → ∃ s ∈ cover1, e ∈ s) := by
  intro fuel
  induction fuel with
  | zero =>
    intro bq sets m nFalse uncovered cover coverIndex _ hfuel
    omega
  | succ fuel ih =>
    intro bq sets m nFalse uncovered cover coverIndex hinv hfuel
    have hknodup : (m.map Prod.fst).Nodup := by
      rw [hinv.hkeys]
      exact hinv.hknd
    have hmlen : m.length = keys.length := by
      rw [← List.length_map m Prod.fst, hinv.hkeys]
    by_cases hnf0 : nFalse = 0
    · refine ⟨cover, coverIndex, ?_, fun s hs => hs, ?_⟩
      · simp only [greedyLoop, if_pos hnf0]
      · intro _ e hdm
        refine hinv.hcov e hdm (countFalse_zero ?_ hdm)
        rw [← hinv.hnf, hnf0]
    · have hprod : (∀ e, dmem m e = true →
          ∃ j, j < sets0.length ∧ e ∈ sets0.getD j []) →
          ∃ j e0, j ∈ uncovered ∧ e0 ∈ sets0.getD j [] ∧
            dget m e0 true = false := by
        intro hfeas
        have h0 : 0 < (m.filter (fun kv => kv.2 = false)).length := by
          rw [← hinv.hnf]
          omega
        obtain ⟨e0, hdm0, hf0⟩ := countFalse_witness hknodup h0
        obtain ⟨j, hjlen, hjmem⟩ := hfeas e0 hdm0
        have hju : j ∈ uncovered := by
          by_contra hc
          have := hinv.hsel j hjlen hc e0 hjmem hdm0
          rw [this] at hf0
          cases hf0
        exact ⟨j, e0, hju, hjmem, hf0⟩
      obtain ⟨r, bq1, hex⟩ := extract_max_total bq hinv.hweak.hmatch
      cases r with
      | none =>
        refine ⟨cover, coverIndex, ?_, fun s hs => hs, ?_⟩
        · simp only [greedyLoop, if_neg hnf0, hex]
        · intro hfeas e hdm
          exfalso
          obtain ⟨j, e0, hju, hjmem, hf0⟩ := hprod hfeas
          have hjb : j ∈ bq.A.getD (newPriority (sets0.getD j []) m) [] :=
            (hinv.hcont _ j).mpr ⟨hju, hinv.hpr j hju⟩
          have hempty := extract_max_none_empty hex hinv.hweak
          rw [hempty _] at hjb
          exact absurd hjb (List.not_mem_nil j)
      | some i =>
        obtain ⟨g, brest, hbg, hA1, hC1, hL1, hgmax⟩ :=
          extract_max_head hex hinv.hweak
        have hglen : g < bq.A.length :=
          lt_length_of_getD_ne_nil (by rw [hbg]; exact List.cons_ne_nil _ _)
        have himem : i ∈ bq.A.getD g [] := by
          rw [hbg]
          exact List.mem_cons_self i brest
        obtain ⟨hiu, hist⟩ := (hinv.hcont g i).mp himem
        have hpri := hinv.hpr i hiu
        have hgi : newPriority (sets0.getD i []) m = g := by
          rw [hpri] at hist
          rw [Option.some.injEq] at hist
          exact hist
        have hilen0 : i < sets0.length := hinv.huncsub i hiu
        have hbgnd : (i :: brest).Nodup := by
          rw [← hbg]
          exact bucketsNodup_getD hinv.hbnodup g
        have hinotb : i ∉ brest := (List.nodup_cons.mp hbgnd).1
        have hbrestnd : brest.Nodup := (List.nodup_cons.mp hbgnd).2
        have hiuniq : ∀ idx, i ∈ bq.A.getD idx [] → idx = g := by
          intro idx hidx
          have h2 := ((hinv.hcont idx i).mp hidx).2
          rw [hpri] at h2
          rw [Option.some.injEq] at h2
          rw [← h2]
          exact hgi
        have hw1 : BQWeakInv bq1 := extract_max_weak hex hinv.hweak
        have hbnd1 : bucketsNodup bq1 := by
          apply bucketsNodup_of_getD
          intro k
          rw [hA1]
          by_cases hk : k = g
          · subst hk
            rw [getD_set_self _ hglen]
            exact hbrestnd
          · rw [getD_set_ne _ (fun hc => hk hc.symm)]
            exact bucketsNodup_getD hinv.hbnodup k
        have huncnd1 : (uncovered.erase i).Nodup := hinv.huncnd.erase i
        have hmem_unc1 : ∀ x, x ∈ uncovered.erase i ↔
            (x ∈ uncovered ∧ x ≠ i) := by
          intro x
          constructor
          · intro hx
            refine ⟨List.mem_of_mem_erase hx, ?_⟩
            intro hc
            subst hc
            exact hinv.huncnd.not_mem_erase hx
          · rintro ⟨h1, h2⟩
            exact (List.mem_erase_of_ne h2).mpr h1
        have hcont1 : ∀ idx x, x ∈ bq1.A.getD idx [] ↔
            (x ∈ uncovered.erase i ∧
              (sets.getD x ([], none)).2 = some idx) := by
          intro idx x
          rw [hA1]
          by_cases hidx : idx = g
          · subst hidx
            rw [getD_set_self _ hglen]
            constructor
            · intro hx
              have hxin : x ∈ bq.A.getD idx [] := by
                rw [hbg]
                exact List.mem_cons_of_mem i hx
              obtain ⟨h1, h2⟩ := (hinv.hcont idx x).mp hxin
              refine ⟨(hmem_unc1 x).mpr ⟨h1, ?_⟩, h2⟩
              intro hc
              subst hc
              exact hinotb hx
            · rintro ⟨h1, h2⟩
              obtain ⟨h3, h4⟩ := (hmem_unc1 x).mp h1
              have hxin := (hinv.hcont idx x).mpr ⟨h3, h2⟩
              rw [hbg] at hxin
              cases hxin with
              | head => exact absurd rfl h4
              | tail _ h5 => exact h5
          · rw [getD_set_ne _ (fun hc => hidx hc.symm)]
            constructor
            · intro hx
              obtain ⟨h1, h2⟩ := (hinv.hcont idx x).mp hx
              refine ⟨(hmem_unc1 x).mpr ⟨h1, ?_⟩, h2⟩
              intro hc
              subst hc
              exact hidx (hiuniq idx hx)
            · rintro ⟨h1, h2⟩
              exact (hinv.hcont idx x).mpr ⟨((hmem_unc1 x).mp h1).1, h2⟩
        obtain ⟨sets1, bq2, hupd, hlen1, hfst1, hstored1, hout1, hC2, hL2,
            hw2, hbnd2, hcont2⟩ :=
          updateAll_run (uncovered.erase i) (uncovered.erase i) sets bq1
            huncnd1
            (fun x hx => hx)
            (fun x hx => by
              rw [hinv.hslen]
              exact hinv.huncsub x ((hmem_unc1 x).mp hx).1)
            hinv.hsfst
            (by
              intro x hx
              have hxu := ((hmem_unc1 x).mp hx).1
              refine ⟨newPriority (sets0.getD x []) m, hinv.hpr x hxu, ?_⟩
              rw [hC1, hinv.hC, ← hmlen]
              exact newPriority_le m
                (hnd0 _ (getD_mem_of_lt (hinv.huncsub x hxu))))
            (by
              intro x hx
              have hxu := ((hmem_unc1 x).mp hx).1
              rw [hC1, hinv.hC, ← hmlen,
                ← markAll_length (sets.getD i ([], none)).1 m nFalse]
              exact newPriority_le _
                (hnd0 _ (getD_mem_of_lt (hinv.huncsub x hxu))))
            (by rw [hL1]; exact hinv.hL)
            hw1
            hbnd1
            hcont1
        have hnf1 : (markAll (sets.getD i ([], none)).1 m nFalse).2 =
            ((markAll (sets.getD i ([], none)).1 m nFalse).1.filter
              (fun kv => kv.2 = false)).length :=
          markAll_count _ m nFalse hknodup hinv.hnf
        have hmle := markAll_le (sets.getD i ([], none)).1 m nFalse
        have hdmem1 : ∀ e,
            dmem (markAll (sets.getD i ([], none)).1 m nFalse).1 e =
              dmem m e :=
          fun e => dmem_congr_fst e (markAll_map_fst _ m nFalse)
        by_cases hstall :
            (markAll (sets.getD i ([], none)).1 m nFalse).2 = nFalse
        · refine ⟨cover ++ [(sets.getD i ([], none)).1], coverIndex ++ [i],
            ?_, ?_, ?_⟩
          · simp only [greedyLoop, if_neg hnf0, hex, if_pos hiu, hupd,
              if_pos hstall]
          · intro s hs
            exact List.mem_append_left _ hs
          · intro hfeas e hdm
            exfalso
            obtain ⟨j, e0, hju, hjmem, hf0⟩ := hprod hfeas
            have hnpr1 : 1 ≤ newPriority (sets0.getD j []) m :=
              newPriority_pos hjmem hf0
            have hjb : j ∈ bq.A.getD (newPriority (sets0.getD j []) m) [] :=
              (hinv.hcont _ j).mpr ⟨hju, hinv.hpr j hju⟩
            have hle := hgmax _ (List.ne_nil_of_mem hjb)
            have hg1 : 0 < newPriority (sets0.getD i []) m := by
              rw [hgi]
              omega
            obtain ⟨e2, he2, hf2⟩ := newPriority_pos_inv hg1
            have he2b : e2 ∈ (sets.getD i ([], none)).1 := by
              rw [hinv.hsfst i]
              exact he2
            have := markAll_lt _ m nFalse e2 he2b hf2 hknodup hinv.hnf
            omega
        · have hlt : (markAll (sets.getD i ([], none)).1 m nFalse).2 <
              nFalse := by omega
          have hGInv2 : GInv sets0 keys bq2 sets1
              (markAll (sets.getD i ([], none)).1 m nFalse).1
              (markAll (sets.getD i ([], none)).1 m nFalse).2
              (uncovered.erase i)
              (cover ++ [(sets.getD i ([], none)).1]) := by
            refine ⟨?_, hinv.hknd, hnf1, ?_, ?_, huncnd1, ?_, hstored1,
              ?_, ?_, hw2, hcont2, hbnd2, ?_, ?_⟩
            · rw [markAll_map_fst]
              exact hinv.hkeys
            · rw [hlen1, hinv.hslen]
            · intro k
              rw [hfst1 k]
              exact hinv.hsfst k
            · intro x hx
              exact hinv.huncsub x ((hmem_unc1 x).mp hx).1
            · rw [hL2, hL1]
              exact hinv.hL
            · rw [hC2, hC1]
              exact hinv.hC
            · intro j' hj'len hj'nu e he hdm
              rw [hdmem1 e] at hdm
              by_cases hji : j' = i
              · subst hji
                apply markAll_covers
                rw [hinv.hsfst j']
                exact he
              · have hj'old : j' ∉ uncovered := by
                  intro hc
                  exact hj'nu ((hmem_unc1 j').mpr ⟨hc, hji⟩)
                exact markAll_mono _ _ _ _
                  (hinv.hsel j' hj'len hj'old e he hdm)
            · intro e hdm hdg
              rw [hdmem1 e] at hdm
              rcases markAll_source _ m nFalse e hdg with h1 | h1
              · obtain ⟨s, hs1, hs2⟩ := hinv.hcov e hdm h1
                exact ⟨s, List.mem_append_left _ hs1, hs2⟩
              · exact ⟨(sets.getD i ([], none)).1,
                  List.mem_append_right _ (List.mem_singleton.mpr rfl), h1⟩
          obtain ⟨cover2, idx2, heq2, hsub2, hcov2⟩ :=
            ih bq2 sets1 (markAll (sets.getD i ([], none)).1 m nFalse).1
              (markAll (sets.getD i ([], none)).1 m nFalse).2
              (uncovered.erase i)
              (cover ++ [(sets.getD i ([], none)).1])
              (coverIndex ++ [i]) hGInv2 (by omega)
          refine ⟨cover2, idx2, ?_, ?_, ?_⟩
          · simp only [greedyLoop, if_neg hnf0, hex, if_pos hiu, hupd,
              if_neg hstall]
            exact heq2
          · intro s hs
            exact hsub2 s (List.mem_append_left _ hs)
          · intro hfeas e hdm
            refine hcov2 ?_ e ?_
            · intro e' hdm'
              rw [hdmem1 e'] at hdm'
              exact hfeas e' hdm'
            · rw [hdmem1 e]
              exact hdm

theorem getD_append_last {α : Type} (l : List α) (a d : α) :
    (l ++ [a]).getD l.length d = a := by
  rw [List.getD_eq_getElem?_getD, List.getElem?_append_right (Nat.le_refl _)]
  simp

/-- Whatever the main loop returns, the two accumulated lists stay aligned:
equal lengths, and each cover entry is the input set at the paired index. -/
theorem greedyLoop_pairing {sets0 : List (List Nat)} :
    ∀ (fuel : Nat) (bq : BucketQueue) (sets : List (List Nat × Option Nat))
      (m : List (Nat × Bool)) (nFalse : Nat) (uncovered : List Nat)
      (cover : List (List Nat)) (coverIndex : List Nat)
      (cover1 : List (List Nat)) (idx1 : List Nat),
      (∀ i, (sets.getD i ([], none)).1 = sets0.getD i []) →
      greedyLoop fuel bq sets m nFalse uncovered cover coverIndex =
        some (cover1, idx1) →
      cover.length = coverIndex.length →
      (∀ k, k < coverIndex.length →
        cover.getD k [] = sets0.getD (coverIndex.getD k 0) []) →
      cover1.length = idx1.length ∧
      ∀ k, k < idx1.length →
        cover1.getD k [] = sets0.getD (idx1.getD k 0) [] := by
  intro fuel
  induction fuel with
  | zero =>
    intro bq sets m nFalse uncovered cover coverIndex cover1 idx1 _ hrun
    cases hrun
  | succ fuel ih =>
    intro bq sets m nFalse uncovered cover coverIndex cover1 idx1 hfst hrun
      hlen hpair
    by_cases hnf0 : nFalse = 0
    · simp only [greedyLoop, if_pos hnf0] at hrun
      rw [Option.some.injEq, Prod.mk.injEq] at hrun
      obtain ⟨h1, h2⟩ := hrun
      subst h1
      subst h2
      exact ⟨hlen, hpair⟩
    · simp only [greedyLoop, if_neg hnf0] at hrun
      cases hex : bq.extract_max with
      | none =>
        rw [hex] at hrun
        cases hrun
      | some p =>
        obtain ⟨r, bq1⟩ := p
        simp only [hex] at hrun
        cases r with
        | none =>
          rw [Option.some.injEq, Prod.mk.injEq] at hrun
          obtain ⟨h1, h2⟩ := hrun
          subst h1
          subst h2
          exact ⟨hlen, hpair⟩
        | some i =>
          by_cases hiu : i ∈ uncovered
          · simp only [if_pos hiu] at hrun
            cases hupd : updateAll (uncovered.erase i) sets
                (markAll (sets.getD i ([], none)).1 m nFalse).1 bq1 with
            | none =>
              rw [hupd] at hrun
              cases hrun
            | some q =>
              obtain ⟨sets1, bq2⟩ := q
              simp only [hupd] at hrun
              have hlen2 : (cover ++ [(sets.getD i ([], none)).1]).length =
                  (coverIndex ++ [i]).length := by
                rw [List.length_append, List.length_append, hlen]
                rfl
              have hpair2 : ∀ k, k < (coverIndex ++ [i]).length →
                  (cover ++ [(sets.getD i ([], none)).1]).getD k [] =
                    sets0.getD ((coverIndex ++ [i]).getD k 0) [] := by
                intro k hk
                rw [List.length_append, List.length_singleton] at hk
                rcases Nat.lt_or_ge k coverIndex.length with hk2 | hk2
                · rw [List.getD_append _ _ _ _ (by omega),
                    List.getD_append _ _ _ _ hk2]
                  exact hpair k hk2
                · have hkeq : k = coverIndex.length := by omega
                  subst hkeq
                  rw [← hlen, getD_append_last]
                  rw [hlen, getD_append_last]
                  exact hfst i
              by_cases hstall :
                  (markAll (sets.getD i ([], none)).1 m nFalse).2 = nFalse
              · rw [if_pos hstall, Option.some.injEq, Prod.mk.injEq] at hrun
                obtain ⟨h1, h2⟩ := hrun
                subst h1
                subst h2
                exact ⟨hlen2, hpair2⟩
              · rw [if_neg hstall] at hrun
                refine ih bq2 sets1 _ _ _ _ _ _ _ ?_ hrun hlen2 hpair2
                intro k
                rw [updateAll_fst hupd k]
                exact hfst k
          · simp only [if_neg hiu] at hrun
            cases hrun

/-- `set_cover_greedy` always returns a result on duplicate-free input sets,
and on feasible instances its cover reaches every target element. -/
theorem set_cover_greedy_run {sets0 : List (List Nat)} {els : List Nat}
    (hnd0 : ∀ s ∈ sets0, s.Nodup) :
    ∃ cover idx, set_cover_greedy sets0 els = some (cover, idx) ∧
      ((∀ e ∈ els, ∃ j, j < sets0.length ∧ e ∈ sets0.getD j []) →
        ∀ e ∈ els, ∃ s ∈ cover, e ∈ s) := by
  have hmkf : ∀ kv ∈ mkElements els, kv.2 = false := mkElements_false
  have hA0 : (BucketQueue.make (mkElements els).length 0).A =
      List.replicate ((mkElements els).length + 1 - 0) [] := rfl
  obtain ⟨sets1, bq1, heqInit, hlen1, hfst1, hstored1, hout1, hC1, hL1, hw1,
      hbnd1, hcont1⟩ :=
    initSets_run sets0.enum (sets0.map (fun s => (s, none)))
      (BucketQueue.make (mkElements els).length 0)
      (by rw [List.enum_map_fst]; exact List.nodup_range _)
      (by
        intro e he
        obtain ⟨i0, s⟩ := e
        obtain ⟨h1, h2⟩ := (mem_enum_iff2 ([] : List Nat)).mp he
        refine ⟨by rw [List.length_map]; exact h1, ?_⟩
        rw [map_pair_getD, h2])
      (by
        intro e he
        obtain ⟨i0, s⟩ := e
        obtain ⟨h1, h2⟩ := (mem_enum_iff2 ([] : List Nat)).mp he
        exact initPriority_le _ (hnd0 s (h2 ▸ getD_mem_of_lt h1)))
      rfl
      (make_strong (Nat.zero_le _)).toBQWeakInv
      (by
        intro b hb
        rw [hA0] at hb
        rw [List.eq_of_mem_replicate hb]
        exact List.nodup_nil)
      (by
        intro idx x
        constructor
        · intro hx
          rw [hA0, getD_replicate_nil] at hx
          cases hx
        · intro hx
          rw [map_pair_getD] at hx
          cases hx)
  have hs1len : sets1.length = sets0.length := by
    rw [hlen1, List.length_map]
  have hfstG : ∀ i, (sets1.getD i ([], none)).1 = sets0.getD i [] := by
    intro i
    rw [hfst1 i, map_pair_getD]
  have hchar : ∀ x, x < sets0.length →
      (sets1.getD x ([], none)).2 =
        if 0 < initPriority (sets0.getD x []) (mkElements els) then
          some (initPriority (sets0.getD x []) (mkElements els))
        else none := by
    intro x hx
    exact hstored1 (x, sets0.getD x [])
      ((mem_enum_iff2 ([] : List Nat)).mpr ⟨hx, rfl⟩)
  have hcontG : ∀ idx x, x ∈ bq1.A.getD idx [] ↔
      (x ∈ (sets1.enum.filter (fun ix => truthy ix.2.2)).map
          (fun ix => ix.1) ∧
        (sets1.getD x ([], none)).2 = some idx) := by
    intro idx x
    rw [hcont1 idx x]
    constructor
    · intro h2
      refine ⟨?_, h2⟩
      have hxlt : x < sets1.length := by
        by_contra hc
        push_neg at hc
        rw [getD_len_le2 _ hc] at h2
        cases h2
      rw [mem_uncovered_iff]
      refine ⟨hxlt, ?_⟩
      have hxlt0 : x < sets0.length := by
        rw [← hs1len]
        exact hxlt
      have hc2 := hchar x hxlt0
      rw [h2] at hc2
      by_cases hp : 0 < initPriority (sets0.getD x []) (mkElements els)
      · rw [if_pos hp] at hc2
        rw [Option.some.injEq] at hc2
        rw [h2]
        exact truthy_some.mpr (by omega)
      · rw [if_neg hp] at hc2
        cases hc2
    · rintro ⟨-, h2⟩
      exact h2
  have hGInv : GInv sets0 ((mkElements els).map Prod.fst) bq1 sets1
      (mkElements els) (mkElements els).length
      ((sets1.enum.filter (fun ix => truthy ix.2.2)).map (fun ix => ix.1))
      [] := by
    refine ⟨rfl, mkElements_nodup, (allFalse_count hmkf).symm, hs1len, hfstG,
      uncovered_nodup sets1, ?_, ?_, ?_, ?_, hw1, hcontG, hbnd1, ?_, ?_⟩
    · intro x hx
      obtain ⟨h1, -⟩ := mem_uncovered_iff.mp hx
      rw [← hs1len]
      exact h1
    · intro x hx
      obtain ⟨hxlt, htr⟩ := mem_uncovered_iff.mp hx
      have hxlt0 : x < sets0.length := by
        rw [← hs1len]
        exact hxlt
      have hc2 := hchar x hxlt0
      by_cases hp : 0 < initPriority (sets0.getD x []) (mkElements els)
      · rw [if_pos hp] at hc2
        rw [hc2, allFalse_newPriority hmkf]
      · rw [if_neg hp] at hc2
        rw [hc2] at htr
        cases htr
    · rw [hL1]
      rfl
    · rw [hC1, List.length_map]
      rfl
    · intro j hjlen hjnu e he hdm
      have hc2 := hchar j hjlen
      by_cases hp : 0 < initPriority (sets0.getD j []) (mkElements els)
      · exfalso
        apply hjnu
        rw [mem_uncovered_iff]
        refine ⟨by rw [hs1len]; exact hjlen, ?_⟩
        rw [hc2, if_pos hp]
        exact truthy_some.mpr (by omega)
      · exfalso
        have h0 : initPriority (sets0.getD j []) (mkElements els) = 0 := by
          omega
        have h3 := initPriority_zero h0 e he
        rw [h3] at hdm
        cases hdm
    · intro e hdm hdg
      exfalso
      have h3 := allFalse_dget hmkf hdm
      rw [h3] at hdg
      cases hdg
  obtain ⟨cover1, idx1, heqLoop, _, hcov1⟩ :=
    greedyLoop_run hnd0 ((mkElements els).length + 1) bq1 sets1
      (mkElements els) (mkElements els).length
      ((sets1.enum.filter (fun ix => truthy ix.2.2)).map (fun ix => ix.1))
      [] [] hGInv (Nat.lt_succ_self _)
  refine ⟨cover1, idx1, ?_, ?_⟩
  · simp only [set_cover_greedy, heqInit]
    exact heqLoop
  · intro hfeas e he
    refine hcov1 ?_ e (mkElements_mem.mpr he)
    intro e' hdm'
    exact hfeas e' (mkElements_mem.mp hdm')

theorem initSets_fst {m : List (Nat × Bool)} :
    ∀ (ents : List (Nat × List Nat))
      (sets sets1 : List (List Nat × Option Nat)) (bq bq1 : BucketQueue),
      (∀ e ∈ ents, (sets.getD e.1 ([], none)).1 = e.2) →
      initSets ents m sets bq = some (sets1, bq1) →
      ∀ i, (sets1.getD i ([], none)).1 = (sets.getD i ([], none)).1 := by
  intro ents
  induction ents with
  | nil =>
    intro sets sets1 bq bq1 _ h i
    rw [initSets, Option.some.injEq, Prod.mk.injEq] at h
    rw [h.1]
  | cons e rest ih =>
    obtain ⟨i0, s⟩ := e
    intro sets sets1 bq bq1 hyp h i
    by_cases hpr : 0 < initPriority s m
    · simp only [initSets, if_pos hpr] at h
      cases hins : bq.insert i0 (initPriority s m) with
      | none =>
        simp only [hins] at h
        cases h
      | some bq2 =>
        simp only [hins] at h
        have hs0 : (sets.getD i0 ([], none)).1 = s :=
          hyp (i0, s) (List.mem_cons_self _ _)
        have hyp2 : ∀ e ∈ rest,
            ((sets.set i0 (s, some (initPriority s m))).getD e.1
              ([], none)).1 = e.2 := by
          intro e2 he2
          by_cases hei : e2.1 = i0
          · rw [hei]
            rcases Nat.lt_or_ge i0 sets.length with hl | hl
            · rw [getD_set_self2 _ _ hl]
              have h1 := hyp e2 (List.mem_cons_of_mem _ he2)
              rw [hei] at h1
              rw [← h1, hs0]
            · rw [List.set_eq_of_length_le hl]
              have h1 := hyp e2 (List.mem_cons_of_mem _ he2)
              rw [hei] at h1
              exact h1
          · rw [getD_set_ne2 _ _ (fun hc => hei hc.symm)]
            exact hyp e2 (List.mem_cons_of_mem _ he2)
        rw [ih _ _ _ _ hyp2 h i]
        by_cases hii : i = i0
        · subst hii
          rcases Nat.lt_or_ge i sets.length with hl | hl
          · rw [getD_set_self2 _ _ hl, hs0]
          · rw [List.set_eq_of_length_le hl]
        · rw [getD_set_ne2 _ _ (fun hc => hii hc.symm)]
    · simp only [initSets, if_neg hpr] at h
      exact ih _ _ _ _ (fun e2 he2 => hyp e2 (List.mem_cons_of_mem _ he2)) h i

/-- The two lists returned by `set_cover_greedy` always have equal length and
each cover entry is the input set at the paired index. -/
theorem set_cover_greedy_pair {sets0 : List (List Nat)} {els : List Nat}
    {cover : List (List Nat)} {idx : List Nat}
    (h : set_cover_greedy sets0 els = some (cover, idx)) :
    cover.length = idx.length ∧
    ∀ k, k < idx.length →
      cover.getD k [] = sets0.getD (idx.getD k 0) [] := by
  simp only [set_cover_greedy] at h
  cases hini : initSets sets0.enum (mkElements els)
      (sets0.map (fun s => (s, none)))
      (BucketQueue.make (mkElements els).length 0) with
  | none =>
    rw [hini] at h
    cases h
  | some q =>
    obtain ⟨sets1, bq1⟩ := q
    simp only [hini] at h
    have hfst : ∀ i, (sets1.getD i ([], none)).1 = sets0.getD i [] := by
      intro i
      have hyp : ∀ e ∈ sets0.enum,
          (((sets0.map (fun s => (s, (none : Option Nat)))).getD e.1
            ([], none)).1 = e.2) := by
        intro e2 he2
        obtain ⟨i0, s⟩ := e2
        obtain ⟨h1, h2⟩ := (mem_enum_iff2 ([] : List Nat)).mp he2
        rw [map_pair_getD, h2]
      rw [initSets_fst sets0.enum _ _ _ _ hyp hini i, map_pair_getD]
    exact greedyLoop_pairing _ _ _ _ _ _ _ _ _ _ hfst h rfl
      (fun k hk => absurd hk (Nat.not_lt_zero k))

/-- With an empty target collection the loop body never runs. -/
theorem set_cover_greedy_nil (sets0 : List (List Nat)) :
    set_cover_greedy sets0 [] = some ([], []) := by
  have h1 : mkElements ([] : List Nat) = [] := rfl
  simp only [set_cover_greedy, h1, initSets_mnil, List.length_nil]
  simp [greedyLoop]

/-- C1 counterexample: the claim as stated is false. On the feasible instance
`sets = [{1, 2}]`, `elements = {1}` (the union covers the target), the greedy
algorithm returns the cover `[{1, 2}]`, whose union contains `2`, an element
that is not a target: the union of the cover is a strict superset of the
target elements, not exactly equal to them. -/
theorem greedy_exact_union_false :
    (1 : Nat) ∈ ([[1, 2]] : List (List Nat)).flatten ∧
    set_cover_greedy [[1, 2]] [1] = some ([[1, 2]], [0]) ∧
    2 ∈ ([[1, 2]] : List (List Nat)).flatten ∧
    2 ∉ ([1] : List Nat) := by
  refine ⟨by decide, by rfl, by decide, by decide⟩

/-- C1 (amended): for every list of duplicate-free sets and every target
collection contained in their union, `set_cover_greedy` runs to completion
and returns a cover pairing each chosen set with its input index, whose union
is a superset of (not necessarily equal to) the target elements: every target
element lies in some chosen set. -/
theorem greedy_feasible_spec {sets0 : List (List Nat)} {els : List Nat}
    (hnd : ∀ s ∈ sets0, s.Nodup)
    (hfeas : ∀ e ∈ els, ∃ j, j < sets0.length ∧ e ∈ sets0.getD j []) :
    ∃ cover idx, set_cover_greedy sets0 els = some (cover, idx) ∧
      cover.length = idx.length ∧
      (∀ k, k < idx.length →
        cover.getD k [] = sets0.getD (idx.getD k 0) []) ∧
      (∀ e ∈ els, ∃ s ∈ cover, e ∈ s) := by
  obtain ⟨cover, idx, heq, hcov⟩ := set_cover_greedy_run hnd
  obtain ⟨hl, hp⟩ := set_cover_greedy_pair heq
  exact ⟨cover, idx, heq, hl, hp, hcov hfeas⟩

theorem greedy_feasible_spec_witness :
    set_cover_greedy [[1, 3], [5]] [1, 3, 5] =
      some ([[1, 3], [5]], [0, 1]) ∧
    (∃ s ∈ ([[1, 3], [5]] : List (List Nat)), 5 ∈ s) := by
  obtain ⟨cover, idx, heq, hlen, hpair, hcov⟩ :=
    greedy_feasible_spec
      (show ∀ s ∈ ([[1, 3], [5]] : List (List Nat)), s.Nodup by decide)
      (show ∀ e ∈ ([1, 3, 5] : List Nat),
          ∃ j, j < ([[1, 3], [5]] : List (List Nat)).length ∧
            e ∈ ([[1, 3], [5]] : List (List Nat)).getD j [] by
        intro e he
        rcases List.mem_cons.mp he with rfl | he
        · exact ⟨0, by decide, by decide⟩
        rcases List.mem_cons.mp he with rfl | he
        · exact ⟨0, by decide, by decide⟩
        rcases List.mem_cons.mp he with rfl | he
        · exact ⟨1, by decide, by decide⟩
        cases he)
  have heval : set_cover_greedy [[1, 3], [5]] [1, 3, 5] =
      some ([[1, 3], [5]], [0, 1]) := by rfl
  rw [heval, Option.some.injEq, Prod.mk.injEq] at heq
  obtain ⟨h1, h2⟩ := heq
  refine ⟨heval, ?_⟩
  rw [← h1] at hcov
  exact hcov 5 (by decide)

/-- C3: when the target cannot be fully covered, the algorithm still stops
and returns the partial cover instead of failing: on duplicate-free input
sets `set_cover_greedy` always returns a result (it exits on an empty
extraction or on a round that covers nothing). On the concrete scenario the
result is exactly the first two sets with indices `0` then `1`, and the
uncoverable element `100` is absent from the returned cover. -/
theorem greedy_partial_spec :
    (∀ (sets0 : List (List Nat)) (els : List Nat),
      (∀ s ∈ sets0, s.Nodup) →
      ∃ res, set_cover_greedy sets0 els = some res) ∧
    set_cover_greedy
      [[1, 3, 4, 5, 6, 7, 8, 9, 10, 11, 21, 48], [59, 62, 71, 80, 81, 99],
        [101, 102]]
      [1, 3, 5, 6, 7, 8, 9, 10, 21, 48, 59, 62, 71, 80, 99, 100] =
      some ([[1, 3, 4, 5, 6, 7, 8, 9, 10, 11, 21, 48],
        [59, 62, 71, 80, 81, 99]], [0, 1]) ∧
    (100 : Nat) ∉ ([[1, 3, 4, 5, 6, 7, 8, 9, 10, 11, 21, 48],
      [59, 62, 71, 80, 81, 99]] : List (List Nat)).flatten := by
  refine ⟨?_, by rfl, by decide⟩
  intro sets0 els hnd
  obtain ⟨cover, idx, heq, -⟩ := set_cover_greedy_run hnd
  exact ⟨(cover, idx), heq⟩

theorem greedy_partial_spec_witness :
    ∃ res, set_cover_greedy [[1, 2], [2]] [5] = some res :=
  greedy_partial_spec.1 [[1, 2], [2]] [5] (by decide)

/-- C10: with an empty target collection the queue is built over the
degenerate range `[0, 0]`, the loop body never runs, and every list of sets
yields `([], [])`; in general the two returned lists have equal length and
the k-th cover entry is the input set at index `cover_index k`. -/
theorem greedy_empty_pairing_spec :
    (∀ sets0 : List (List Nat), set_cover_greedy sets0 [] = some ([], [])) ∧
    (∀ (sets0 : List (List Nat)) (els : List Nat)
      (cover : List (List Nat)) (idx : List Nat),
      set_cover_greedy sets0 els = some (cover, idx) →
      cover.length = idx.length ∧
      ∀ k, k < idx.length →
        cover.getD k [] = sets0.getD (idx.getD k 0) []) := by
  constructor
  · exact set_cover_greedy_nil
  · intro sets0 els cover idx h
    exact set_cover_greedy_pair h

theorem greedy_empty_pairing_spec_witness :
    set_cover_greedy [[7]] [] = some ([], []) ∧
    ([[7]] : List (List Nat)).length = ([0] : List Nat).length ∧
    ([[7]] : List (List Nat)).getD 0 [] =
      ([[7]] : List (List Nat)).getD (([0] : List Nat).getD 0 0) [] := by
  refine ⟨greedy_empty_pairing_spec.1 [[7]], ?_, ?_⟩
  · exact (greedy_empty_pairing_spec.2 [[7]] [7] [[7]] [0] (by rfl)).1
  · exact (greedy_empty_pairing_spec.2 [[7]] [7] [[7]] [0] (by rfl)).2 0
      (by decide)
